import Mathlib

/-!
Fetch_And_Go: FIFO point deduction and spend allocation.

A shallow embedding of `src/main.go` (`deductPoints`, `processTransactions`).

Modelling decisions:

* `[]*Transaction` is a slice of pointers to shared, mutable records.  The
  records live in an arena (`Heap`, the slice that `processTransactions`
  sorts); a pointer is an index into the arena and a queue is a list of
  indices.  A write through one queue is therefore seen through every other
  queue that holds the same index, as in the Go program.  The pointers of
  the input slice are distinct: `main` allocates one record per CSV line.
* Go `int` is a 64-bit integer.  `deductPoints64` and `processTransactions64`
  are the functions of the source on machine integers: every negation,
  subtraction and addition wraps.  `deductPoints` and `processTransactions`
  are the same functions on unbounded integers; the two agree under a size
  bound, and outside it the statements on values are those of the machine
  functions.  `time.Time` is an integer instant and `Before` is `<`.
* `os.Exit(1)` (the insolvency exit) is the result `none`.
* `map[string]T` is an association list with one pair per key.
* `sort.Sort` is library code; `processTransactions` takes the sorting
  function as an argument and `SortContract` records what the library
  documents about it.  `sortSort` is the library function itself.
-/

namespace FetchAndGo

/-- One record of the transaction log (`type Transaction struct`). -/
structure Transaction where
  Payer : String
  Points : Int
  Timestamp : Int
deriving DecidableEq, Repr

/-- The arena of transaction records; a `*Transaction` is an index into it. -/
abbrev Heap := List Transaction

/-- Read `p.Points`; a pointer outside the arena reads as 0. -/
def getPoints (heap : Heap) (p : Nat) : Int :=
  match heap[p]? with
  | some t => t.Points
  | none => 0

/-- Read `p.Payer`. -/
def getPayer (heap : Heap) (p : Nat) : String :=
  match heap[p]? with
  | some t => t.Payer
  | none => ""

/-- Read `p.Timestamp`. -/
def getTimestamp (heap : Heap) (p : Nat) : Int :=
  match heap[p]? with
  | some t => t.Timestamp
  | none => 0

/-- The assignment `p.Points = v`. -/
def setPoints (heap : Heap) (p : Nat) (v : Int) : Heap :=
  match heap[p]? with
  | some t => heap.set p { t with Points := v }
  | none => heap

/-- The `for` loop of `deductPoints` (lines 35-49), run on the part of the
queue that starts at `head`.  Returns the arena, `pointsBalance[head:]` and
`remainingPoints` at loop exit.  In the `else` branch `Points` has just been
set to 0, so the test of line 46 succeeds and `head` advances
(`getPoints_setPoints_zero`). -/
def deductLoop (heap : Heap) : List Nat → Int → Heap × List Nat × Int
  | [], remainingPoints => (heap, [], remainingPoints)
  | head :: rest, remainingPoints =>
    if remainingPoints > 0 then
      if remainingPoints ≤ getPoints heap head then
        let heap1 := setPoints heap head (getPoints heap head - remainingPoints)
        if getPoints heap1 head = 0 then (heap1, rest, 0)
        else (heap1, head :: rest, 0)
      else
        deductLoop (setPoints heap head 0) rest (remainingPoints - getPoints heap head)
    else (heap, head :: rest, remainingPoints)

/-- The function `deductPoints` (lines 31-60): `none` is the insolvency exit,
otherwise the arena after the writes and the returned slice. -/
def deductPoints (heap : Heap) (pointsBalance : List Nat) (points : Int) :
    Option (Heap × List Nat) :=
  match deductLoop heap pointsBalance points with
  | (heap1, queue, remainingPoints) =>
    if remainingPoints ≠ 0 then none else some (heap1, queue)

/-- Read `m[k]` of a `map[string][]*Transaction`; a missing key reads as the
nil slice. -/
def mapGet : List (String × List Nat) → String → List Nat
  | [], _ => []
  | (k1, v1) :: m, k => if k1 = k then v1 else mapGet m k

/-- The assignment `m[k] = v`. -/
def mapSet {α : Type} : List (String × α) → String → α → List (String × α)
  | [], k, v => [(k, v)]
  | (k1, v1) :: m, k, v => if k1 = k then (k1, v) :: m else (k1, v1) :: mapSet m k v

/-- The variables of the ledger loop of `processTransactions`. -/
structure Ledger where
  heap : Heap
  payerBalances : List (String × List Nat)
  userBalance : List Nat
deriving DecidableEq, Repr

/-- One iteration of the loop of lines 72-84, for the transaction at index
`p` of the sorted slice, on unbounded integers: `-transaction.Points` is the
exact negative.  The iteration on machine integers, where the negation wraps,
is `ledgerStep64`. -/
def ledgerStep (s : Ledger) (p : Nat) : Option Ledger :=
  let payer := getPayer s.heap p
  if getPoints s.heap p > 0 then
    some { heap := s.heap
           payerBalances := mapSet s.payerBalances payer (mapGet s.payerBalances payer ++ [p])
           userBalance := s.userBalance ++ [p] }
  else
    match deductPoints s.heap (mapGet s.payerBalances payer) (-(getPoints s.heap p)) with
    | none => none
    | some (heap1, queue) =>
      some { heap := heap1
             payerBalances := mapSet s.payerBalances payer queue
             userBalance := s.userBalance }

/-- The loop of lines 72-84 over a list of indices. -/
def ledgerLoop : Ledger → List Nat → Option Ledger
  | s, [] => some s
  | s, p :: ps =>
    match ledgerStep s p with
    | none => none
    | some s1 => ledgerLoop s1 ps

/-- The tally of lines 90-98 on unbounded integers: the exact sum of the
points of each payer's queue.  The tally on machine integers, where
`payerBalance += processedTransaction.Points` wraps, is `tally64`. -/
def tally (heap : Heap) (payerBalances : List (String × List Nat)) : List (String × Int) :=
  payerBalances.map fun kv => (kv.1, (kv.2.map (getPoints heap)).sum)

/-- The ledger state before the loop. -/
def initLedger (sorted : List Transaction) : Ledger :=
  { heap := sorted, payerBalances := [], userBalance := [] }

/-- The ledger pass: the loop of lines 72-84 over the whole sorted slice. -/
def ledgerPass (sorted : List Transaction) : Option Ledger :=
  ledgerLoop (initLedger sorted) (List.range sorted.length)

/-- The body of `processTransactions` after the sort (lines 69-99), on
unbounded integers; on machine integers it is `processSorted64`. -/
def processSorted (sorted : List Transaction) (pointsToSpend : Int) :
    Option (List (String × Int)) :=
  match ledgerPass sorted with
  | none => none
  | some s =>
    match deductPoints s.heap s.userBalance pointsToSpend with
    | none => none
    | some (heap1, _) => some (tally heap1 s.payerBalances)

/-- The function `processTransactions` (lines 63-100) on unbounded integers,
with `sort.Sort` as the argument `sortFn`; on machine integers it is
`processTransactions64`. -/
def processTransactions (sortFn : List Transaction → List Transaction)
    (transactions : List Transaction) (pointsToSpend : Int) : Option (List (String × Int)) :=
  processSorted (sortFn transactions) pointsToSpend

/-! ## The ordering step

`sort.Sort(ByTimestamp(transactions))` calls library code.  `less` is the
`Less` method of the source, `SortContract` is what the library promises, and
the two insertion sorts below are sorting functions that meet it. -/

/-- `ByTimestamp.Less` on two records. -/
def less (a b : Transaction) : Bool := decide (a.Timestamp < b.Timestamp)

/-- What the library documents of `sort.Sort`: the result is a rearrangement
of the input in which no element is `Less` than an earlier one. -/
structure SortContract (sortFn : List Transaction → List Transaction) : Prop where
  perm : ∀ l, (sortFn l).Perm l
  sorted : ∀ l, (sortFn l).Pairwise (fun a b => less b a = false)

/-- Insertion into a sorted list, after the records that are `Less` and in
front of the records with the same timestamp. -/
def insertStable (t : Transaction) : List Transaction → List Transaction
  | [] => [t]
  | a :: l => if less a t then a :: insertStable t l else t :: a :: l

/-- A stable sort by timestamp (insertion sort): records with the same
timestamp keep their input order. -/
def stableSort : List Transaction → List Transaction
  | [] => []
  | t :: l => insertStable t (stableSort l)

/-- Insertion into a sorted list, behind the records with the same
timestamp. -/
def insertBehindTies (t : Transaction) : List Transaction → List Transaction
  | [] => [t]
  | a :: l => if less t a then t :: a :: l else a :: insertBehindTies t l

/-- An insertion sort by timestamp that is not stable: records with the same
timestamp come out in reverse input order.  It meets `SortContract` and is
not the library sort; it serves as an instance of the contract on logs
without repeated timestamps, where every such sort returns the same list. -/
def tieReversingSort : List Transaction → List Transaction
  | [] => []
  | t :: l => insertBehindTies t (tieReversingSort l)

/-! ## Specification vocabulary

The definitions below are not part of the program: they say what the claims
say (points left by a FIFO deduction, the grants of a payer, the balance of
a payer over a prefix of the log) and state the invariant of the ledger
loop. -/

/-- The points left on the entries of a queue by a FIFO deduction of `n`:
entry `i` keeps `p_i - min p_i (max 0 (n - (p_0 + ... + p_(i-1))))`. -/
def drain : List Int → Int → List Int
  | [], _ => []
  | p :: ps, n => (p - min p (max 0 n)) :: drain ps (n - p)

/-- The grants among the first `k` records of the sorted slice: the indices
`x < k` whose record has positive points, in ascending order. -/
def positives (sorted : List Transaction) (k : Nat) : List Nat :=
  (List.range k).filter (fun x => decide (0 < getPoints sorted x))

/-- The grants of payer `P` among the first `k` records. -/
def payerEntries (sorted : List Transaction) (k : Nat) (P : String) : List Nat :=
  (positives sorted k).filter (fun x => decide (getPayer sorted x = P))

/-- The signed points of payer `P` summed over the first `k` records. -/
def balance (sorted : List Transaction) (k : Nat) (P : String) : Int :=
  (((sorted.take k).filter (fun t => decide (t.Payer = P))).map Transaction.Points).sum

/-- The state of the ledger loop after the first `k` records. -/
structure LedgerInv (sorted : List Transaction) (k : Nat) (s : Ledger) : Prop where
  hk : k ≤ sorted.length
  hlen : s.heap.length = sorted.length
  hpayer : ∀ x, getPayer s.heap x = getPayer sorted x
  htime : ∀ x, getTimestamp s.heap x = getTimestamp sorted x
  hfuture : ∀ x, k ≤ x → getPoints s.heap x = getPoints sorted x
  hclaw : ∀ x, getPoints sorted x ≤ 0 → getPoints s.heap x = getPoints sorted x
  hbounds : ∀ x, 0 ≤ getPoints sorted x →
    0 ≤ getPoints s.heap x ∧ getPoints s.heap x ≤ getPoints sorted x
  huser : s.userBalance = positives sorted k
  hkeys : (s.payerBalances.map Prod.fst).Nodup
  hkeymem : ∀ P, P ∈ s.payerBalances.map Prod.fst ↔ ∃ x, x < k ∧ getPayer sorted x = P
  hqueue : ∀ P, ∃ d, payerEntries sorted k P = d ++ mapGet s.payerBalances P ∧
    ∀ x ∈ d, getPoints s.heap x = 0
  hbal : ∀ P, ((payerEntries sorted k P).map (getPoints s.heap)).sum = balance sorted k P

/-! ## Machine integers

Go `int` on a 64-bit platform.  The functions below are the functions of the
source once more, with the result of every negation, subtraction and
addition reduced to the two's-complement range by `wrap64`, and with a flag
that stays `true` as long as no result has left that range. -/

/-- The least 64-bit signed integer. -/
def minInt64 : Int := -9223372036854775808

/-- The greatest 64-bit signed integer. -/
def maxInt64 : Int := 9223372036854775807

/-- Reduction of an integer to the 64-bit two's-complement range. -/
def wrap64 (x : Int) : Int :=
  (x + 9223372036854775808) % 18446744073709551616 - 9223372036854775808

/-- Whether an integer lies in the 64-bit signed range. -/
def inRange64 (x : Int) : Bool := decide (minInt64 ≤ x) && decide (x ≤ maxInt64)

/-- The loop of `deductPoints` (lines 35-49) on machine integers. -/
def deductLoop64 (heap : Heap) : List Nat → Int → Bool → Heap × List Nat × Int × Bool
  | [], remainingPoints, ok => (heap, [], remainingPoints, ok)
  | head :: rest, remainingPoints, ok =>
    if remainingPoints > 0 then
      if remainingPoints ≤ getPoints heap head then
        let heap1 := setPoints heap head (wrap64 (getPoints heap head - remainingPoints))
        let ok1 := ok && inRange64 (getPoints heap head - remainingPoints)
        if getPoints heap1 head = 0 then (heap1, rest, 0, ok1)
        else (heap1, head :: rest, 0, ok1)
      else
        deductLoop64 (setPoints heap head 0) rest
          (wrap64 (remainingPoints - getPoints heap head))
          (ok && inRange64 (remainingPoints - getPoints heap head))
    else (heap, head :: rest, remainingPoints, ok)

/-- The function `deductPoints` (lines 31-60) on machine integers. -/
def deductPoints64 (heap : Heap) (pointsBalance : List Nat) (points : Int) (ok : Bool) :
    Option (Heap × List Nat) × Bool :=
  match deductLoop64 heap pointsBalance points ok with
  | (heap1, queue, remainingPoints, ok1) =>
    if remainingPoints ≠ 0 then (none, ok1) else (some (heap1, queue), ok1)

/-- One iteration of the loop of lines 72-84 on machine integers. -/
def ledgerStep64 (s : Ledger) (p : Nat) (ok : Bool) : Option Ledger × Bool :=
  let payer := getPayer s.heap p
  if getPoints s.heap p > 0 then
    (some { heap := s.heap
            payerBalances := mapSet s.payerBalances payer (mapGet s.payerBalances payer ++ [p])
            userBalance := s.userBalance ++ [p] }, ok)
  else
    match deductPoints64 s.heap (mapGet s.payerBalances payer)
        (wrap64 (-(getPoints s.heap p))) (ok && inRange64 (-(getPoints s.heap p))) with
    | (none, ok1) => (none, ok1)
    | (some (heap1, queue), ok1) =>
      (some { heap := heap1
              payerBalances := mapSet s.payerBalances payer queue
              userBalance := s.userBalance }, ok1)

/-- The loop of lines 72-84 on machine integers. -/
def ledgerLoop64 : Ledger → List Nat → Bool → Option Ledger × Bool
  | s, [], ok => (some s, ok)
  | s, p :: ps, ok =>
    match ledgerStep64 s p ok with
    | (none, ok1) => (none, ok1)
    | (some s1, ok1) => ledgerLoop64 s1 ps ok1

/-- The inner loop of the tally (lines 92-95) on machine integers:
`payerBalance += processedTransaction.Points`. -/
def sum64 (heap : Heap) : List Nat → Int → Bool → Int × Bool
  | [], payerBalance, ok => (payerBalance, ok)
  | p :: ps, payerBalance, ok =>
    sum64 heap ps (wrap64 (payerBalance + getPoints heap p))
      (ok && inRange64 (payerBalance + getPoints heap p))

/-- The tally of lines 90-98 on machine integers. -/
def tally64 (heap : Heap) : List (String × List Nat) → Bool → List (String × Int) × Bool
  | [], ok => ([], ok)
  | (payer, log) :: m, ok =>
    match sum64 heap log 0 ok with
    | (payerBalance, ok1) =>
      match tally64 heap m ok1 with
      | (rest, ok2) => ((payer, payerBalance) :: rest, ok2)

/-- The body of `processTransactions` after the sort, on machine integers. -/
def processSorted64 (sorted : List Transaction) (pointsToSpend : Int) :
    Option (List (String × Int)) × Bool :=
  match ledgerLoop64 (initLedger sorted) (List.range sorted.length) true with
  | (none, ok) => (none, ok)
  | (some s, ok) =>
    match deductPoints64 s.heap s.userBalance pointsToSpend ok with
    | (none, ok1) => (none, ok1)
    | (some (heap1, _), ok1) =>
      match tally64 heap1 s.payerBalances ok1 with
      | (balances, ok2) => (some balances, ok2)

/-- The function `processTransactions` on machine integers: the result, and
whether every arithmetic result stayed in the 64-bit range. -/
def processTransactions64 (sortFn : List Transaction → List Transaction)
    (transactions : List Transaction) (pointsToSpend : Int) :
    Option (List (String × Int)) × Bool :=
  processSorted64 (sortFn transactions) pointsToSpend

/-! ## The library sort

`sort.Sort` of the Go standard library (package `sort`, file
`zsortinterface.go`: pattern-defeating quicksort, Go 1.19 and later), with
the `Less` and `Swap` of `ByTimestamp`, on the slice as a list of records.
Every loop has a fuel argument that is at least the number of its
iterations.  One step is not modelled: `breakPatterns`, which scatters three
elements with a pseudo-random generator after an unbalanced partition; a run
that reaches it has the result `none`, and so has the heap sort that can only
follow it. -/

/-- The call `data.Less(i, j)` of `ByTimestamp`. -/
def lessAt (data : List Transaction) (i j : Nat) : Bool :=
  match data[i]?, data[j]? with
  | some x, some y => less x y
  | _, _ => false

/-- The call `data.Swap(i, j)` of `ByTimestamp`. -/
def swapAt (data : List Transaction) (i j : Nat) : List Transaction :=
  match data[i]?, data[j]? with
  | some x, some y => (data.set i y).set j x
  | _, _ => data

/-- The inner loop of `insertionSort`:
`for j := i; j > a && data.Less(j, j-1); j-- { data.Swap(j, j-1) }`. -/
def insertionInner (a : Nat) : Nat → List Transaction → List Transaction
  | 0, data => data
  | j + 1, data =>
    if decide (a < j + 1) && lessAt data (j + 1) j then
      insertionInner a j (swapAt data (j + 1) j)
    else data

/-- The function `insertionSort(data, a, b)`: `for i := a + 1; i < b; i++`. -/
def insertionSort (data : List Transaction) (a b : Nat) : List Transaction :=
  (List.range' (a + 1) (b - (a + 1))).foldl (fun d i => insertionInner a i d) data

/-- The type `sortedHint`. -/
inductive SortedHint where
  | unknownHint
  | increasingHint
  | decreasingHint
deriving DecidableEq, Repr

/-- The function `order2(data, a, b, swaps)`: the two indices in order, and
the counter of swaps. -/
def order2 (data : List Transaction) (a b swaps : Nat) : Nat × Nat × Nat :=
  if lessAt data b a then (b, a, swaps + 1) else (a, b, swaps)

/-- The function `median(data, a, b, c, swaps)`: the index of the median and
the counter of swaps. -/
def median (data : List Transaction) (a b c swaps : Nat) : Nat × Nat :=
  match order2 data a b swaps with
  | (a1, b1, s1) =>
    match order2 data b1 c s1 with
    | (b2, _, s2) =>
      match order2 data a1 b2 s2 with
      | (_, b3, s3) => (b3, s3)

/-- The function `medianAdjacent(data, a, swaps)`. -/
def medianAdjacent (data : List Transaction) (a swaps : Nat) : Nat × Nat :=
  median data (a - 1) a (a + 1) swaps

/-- The function `choosePivot(data, a, b)`. -/
def choosePivot (data : List Transaction) (a b : Nat) : Nat × SortedHint :=
  let l := b - a
  let i := a + l / 4 * 1
  let j := a + l / 4 * 2
  let k := a + l / 4 * 3
  let r : Nat × Nat :=
    if l ≥ 8 then
      if l ≥ 50 then
        match medianAdjacent data i 0 with
        | (i1, s1) =>
          match medianAdjacent data j s1 with
          | (j1, s2) =>
            match medianAdjacent data k s2 with
            | (k1, s3) => median data i1 j1 k1 s3
      else median data i j k 0
    else (j, 0)
  if r.2 = 0 then (r.1, SortedHint.increasingHint)
  else if r.2 = 12 then (r.1, SortedHint.decreasingHint)
  else (r.1, SortedHint.unknownHint)

/-- The loop of `reverseRange`: `for i < j { data.Swap(i, j); i++; j-- }`. -/
def reverseLoop : Nat → List Transaction → Nat → Nat → List Transaction
  | 0, data, _, _ => data
  | fuel + 1, data, i, j =>
    if i < j then reverseLoop fuel (swapAt data i j) (i + 1) (j - 1) else data

/-- The function `reverseRange(data, a, b)`. -/
def reverseRange (data : List Transaction) (a b : Nat) : List Transaction :=
  reverseLoop (b - a) data a (b - 1)

/-- The loop `for i < b && !data.Less(i, i-1) { i++ }` of
`partialInsertionSort`. -/
def skipOrdered (data : List Transaction) (b : Nat) : Nat → Nat → Nat
  | 0, i => i
  | fuel + 1, i =>
    if decide (i < b) && !lessAt data i (i - 1) then skipOrdered data b fuel (i + 1) else i

/-- The loop `for j := i - 1; j >= 1; j--` of `partialInsertionSort`, which
shifts the smaller element to the left. -/
def shiftSmaller : Nat → List Transaction → List Transaction
  | 0, data => data
  | j + 1, data =>
    if !lessAt data (j + 1) j then data else shiftSmaller j (swapAt data (j + 1) j)

/-- The loop `for j := i + 1; j < b; j++` of `partialInsertionSort`, which
shifts the greater element to the right. -/
def shiftGreater (b : Nat) : Nat → Nat → List Transaction → List Transaction
  | 0, _, data => data
  | fuel + 1, j, data =>
    if j < b then
      if !lessAt data j (j - 1) then data
      else shiftGreater b fuel (j + 1) (swapAt data j (j - 1))
    else data

/-- The outer loop of `partialInsertionSort`, with the number of steps that
are left of `maxSteps = 5`. -/
def partialInsertionSteps (a b : Nat) :
    Nat → List Transaction → Nat → List Transaction × Bool
  | 0, data, _ => (data, false)
  | steps + 1, data, i =>
    let i1 := skipOrdered data b b i
    if i1 = b then (data, true)
    else if b - a < 50 then (data, false)
    else
      let d1 := swapAt data i1 (i1 - 1)
      let d2 := if i1 - a ≥ 2 then shiftSmaller (i1 - 1) d1 else d1
      let d3 := if b - i1 ≥ 2 then shiftGreater b b (i1 + 1) d2 else d2
      partialInsertionSteps a b steps d3 i1

/-- The function `partialInsertionSort(data, a, b)`: the slice, and whether
it is sorted at the end. -/
def partialInsertionSort (data : List Transaction) (a b : Nat) : List Transaction × Bool :=
  partialInsertionSteps a b 5 data (a + 1)

/-- The loop `for i <= j && data.Less(i, a) { i++ }` of `partition`. -/
def scanUp (data : List Transaction) (a j : Nat) : Nat → Nat → Nat
  | 0, i => i
  | fuel + 1, i =>
    if decide (i ≤ j) && lessAt data i a then scanUp data a j fuel (i + 1) else i

/-- The loop `for i <= j && !data.Less(j, a) { j-- }` of `partition`. -/
def scanDown (data : List Transaction) (a i : Nat) : Nat → Nat → Nat
  | 0, j => j
  | fuel + 1, j =>
    if decide (i ≤ j) && !lessAt data j a then scanDown data a i fuel (j - 1) else j

/-- The `for { ... }` loop of `partition`: the slice and `j` at the `break`. -/
def partitionLoop (a : Nat) : Nat → List Transaction → Nat → Nat → List Transaction × Nat
  | 0, data, _, j => (data, j)
  | fuel + 1, data, i, j =>
    let i1 := scanUp data a j (j + 1) i
    let j1 := scanDown data a i1 (j + 1) j
    if i1 > j1 then (data, j1)
    else partitionLoop a fuel (swapAt data i1 j1) (i1 + 1) (j1 - 1)

/-- The function `partition(data, a, b, pivot)`: the slice, the new index of
the pivot and `alreadyPartitioned`. -/
def partition (data : List Transaction) (a b pivot : Nat) : List Transaction × Nat × Bool :=
  let d0 := swapAt data a pivot
  let i1 := scanUp d0 a (b - 1) b (a + 1)
  let j1 := scanDown d0 a i1 b (b - 1)
  if i1 > j1 then (swapAt d0 j1 a, j1, true)
  else
    match partitionLoop a b (swapAt d0 i1 j1) (i1 + 1) (j1 - 1) with
    | (d2, j2) => (swapAt d2 j2 a, j2, false)

/-- The loop `for i <= j && !data.Less(a, i) { i++ }` of `partitionEqual`. -/
def scanUpEqual (data : List Transaction) (a j : Nat) : Nat → Nat → Nat
  | 0, i => i
  | fuel + 1, i =>
    if decide (i ≤ j) && !lessAt data a i then scanUpEqual data a j fuel (i + 1) else i

/-- The loop `for i <= j && data.Less(a, j) { j-- }` of `partitionEqual`. -/
def scanDownEqual (data : List Transaction) (a i : Nat) : Nat → Nat → Nat
  | 0, j => j
  | fuel + 1, j =>
    if decide (i ≤ j) && lessAt data a j then scanDownEqual data a i fuel (j - 1) else j

/-- The `for { ... }` loop of `partitionEqual`: the slice and `i` at the
`break`. -/
def partitionEqualLoop (a : Nat) :
    Nat → List Transaction → Nat → Nat → List Transaction × Nat
  | 0, data, i, _ => (data, i)
  | fuel + 1, data, i, j =>
    let i1 := scanUpEqual data a j (j + 1) i
    let j1 := scanDownEqual data a i1 (j + 1) j
    if i1 > j1 then (data, i1)
    else partitionEqualLoop a fuel (swapAt data i1 j1) (i1 + 1) (j1 - 1)

/-- The function `partitionEqual(data, a, b, pivot)`: the slice and the new
index of the pivot. -/
def partitionEqual (data : List Transaction) (a b pivot : Nat) : List Transaction × Nat :=
  partitionEqualLoop a b (swapAt data a pivot) (a + 1) (b - 1)

/-- The function `pdqsort(data, a, b, limit)`, with the loop variables
`wasBalanced` and `wasPartitioned`; one unit of fuel for every turn of the
loop and `none` for a run that reaches `breakPatterns` or runs out of
fuel. -/
def pdqsort : Nat → List Transaction → Nat → Nat → Nat → Bool → Bool →
    Option (List Transaction)
  | 0, _, _, _, _, _, _ => none
  | fuel + 1, data, a, b, limit, wasBalanced, wasPartitioned =>
    let length := b - a
    if length ≤ 12 then some (insertionSort data a b)
    else if limit = 0 then none
    else if !wasBalanced then none
    else
      match choosePivot data a b with
      | (pivot0, hint0) =>
        let data1 := if hint0 = SortedHint.decreasingHint then reverseRange data a b else data
        let pivot := if hint0 = SortedHint.decreasingHint then (b - 1) - (pivot0 - a) else pivot0
        let hint := if hint0 = SortedHint.decreasingHint then SortedHint.increasingHint else hint0
        match (if wasBalanced && wasPartitioned && decide (hint = SortedHint.increasingHint)
            then partialInsertionSort data1 a b else (data1, false)) with
        | (data2, true) => some data2
        | (data2, false) =>
          if decide (a > 0) && !lessAt data2 (a - 1) pivot then
            match partitionEqual data2 a b pivot with
            | (data3, mid) => pdqsort fuel data3 mid b limit wasBalanced wasPartitioned
          else
            match partition data2 a b pivot with
            | (data3, mid, alreadyPartitioned) =>
              let leftLen := mid - a
              let rightLen := b - mid
              let balanceThreshold := length / 8
              if leftLen < rightLen then
                match pdqsort fuel data3 a mid limit true true with
                | none => none
                | some data4 =>
                  pdqsort fuel data4 (mid + 1) b limit
                    (decide (leftLen ≥ balanceThreshold)) alreadyPartitioned
              else
                match pdqsort fuel data3 (mid + 1) b limit true true with
                | none => none
                | some data4 =>
                  pdqsort fuel data4 a mid limit
                    (decide (rightLen ≥ balanceThreshold)) alreadyPartitioned

/-- The function `sort.Sort(ByTimestamp(data))`; `limit` is
`bits.Len(uint(n))`. -/
def sortSort (data : List Transaction) : Option (List Transaction) :=
  let n := data.length
  if n ≤ 1 then some data else pdqsort (n + 1) data 0 n (Nat.log2 n + 1) true true

/-- The function `processTransactions` with the library sort, on machine
integers; the outer `none` is a run of the sort that is not modelled. -/
def processTransactionsLib (transactions : List Transaction) (pointsToSpend : Int) :
    Option (Option (List (String × Int)) × Bool) :=
  match sortSort transactions with
  | none => none
  | some sorted => some (processSorted64 sorted pointsToSpend)

/-! ## The arena -/

theorem getPoints_setPoints_ne (heap : Heap) (p x : Nat) (v : Int) (h : x ≠ p) :
    getPoints (setPoints heap p v) x = getPoints heap x := by
  unfold setPoints
  cases hp : heap[p]? with
  | none => rfl
  | some t =>
    simp only [getPoints]
    rw [List.getElem?_set_ne (Ne.symm h)]

theorem getPoints_setPoints_self (heap : Heap) (p : Nat) (v : Int) (h : p < heap.length) :
    getPoints (setPoints heap p v) p = v := by
  unfold setPoints
  rw [List.getElem?_eq_getElem h]
  simp [getPoints, h]

theorem getPoints_eq_zero_of_le (heap : Heap) (p : Nat) (h : heap.length ≤ p) :
    getPoints heap p = 0 := by
  simp [getPoints, List.getElem?_eq_none h]

theorem lt_length_of_getPoints_ne_zero (heap : Heap) (p : Nat) (h : getPoints heap p ≠ 0) :
    p < heap.length := by
  by_contra hc
  exact h (getPoints_eq_zero_of_le heap p (Nat.le_of_not_lt hc))

theorem getPoints_setPoints_zero (heap : Heap) (p : Nat) :
    getPoints (setPoints heap p 0) p = 0 := by
  by_cases h : p < heap.length
  · exact getPoints_setPoints_self heap p 0 h
  · have h1 : heap[p]? = none := List.getElem?_eq_none (Nat.le_of_not_lt h)
    simp [setPoints, getPoints, h1]

theorem length_setPoints (heap : Heap) (p : Nat) (v : Int) :
    (setPoints heap p v).length = heap.length := by
  unfold setPoints
  cases heap[p]? <;> simp

theorem getPayer_setPoints (heap : Heap) (p x : Nat) (v : Int) :
    getPayer (setPoints heap p v) x = getPayer heap x := by
  unfold setPoints
  cases hp : heap[p]? with
  | none => rfl
  | some t =>
    simp only [getPayer]
    by_cases hx : p = x
    · subst hx
      have hlt : p < heap.length := by
        by_contra hc
        rw [List.getElem?_eq_none (Nat.le_of_not_lt hc)] at hp
        cases hp
      rw [List.getElem?_set_self hlt, hp]
    · rw [List.getElem?_set_ne hx]

theorem getTimestamp_setPoints (heap : Heap) (p x : Nat) (v : Int) :
    getTimestamp (setPoints heap p v) x = getTimestamp heap x := by
  unfold setPoints
  cases hp : heap[p]? with
  | none => rfl
  | some t =>
    simp only [getTimestamp]
    by_cases hx : p = x
    · subst hx
      have hlt : p < heap.length := by
        by_contra hc
        rw [List.getElem?_eq_none (Nat.le_of_not_lt hc)] at hp
        cases hp
      rw [List.getElem?_set_self hlt, hp]
    · rw [List.getElem?_set_ne hx]

/-! ## The loop of `deductPoints` -/

theorem deductLoop_cons_stop (heap : Heap) (a : Nat) (q : List Nat) (n : Int)
    (h1 : ¬ n > 0) : deductLoop heap (a :: q) n = (heap, a :: q, n) := by
  unfold deductLoop
  simp only [h1, if_false]

theorem deductLoop_cons_take (heap : Heap) (a : Nat) (q : List Nat) (n : Int)
    (h1 : n > 0) (h2 : n ≤ getPoints heap a) :
    deductLoop heap (a :: q) n
      = (setPoints heap a (getPoints heap a - n),
         if getPoints (setPoints heap a (getPoints heap a - n)) a = 0 then q else a :: q,
         0) := by
  unfold deductLoop
  simp only [h1, h2, if_true]
  split_ifs <;> rfl

theorem deductLoop_cons_skip (heap : Heap) (a : Nat) (q : List Nat) (n : Int)
    (h1 : n > 0) (h2 : ¬ n ≤ getPoints heap a) :
    deductLoop heap (a :: q) n
      = deductLoop (setPoints heap a 0) q (n - getPoints heap a) := by
  conv_lhs => unfold deductLoop
  simp only [h1, h2, if_true, if_false]

theorem deductLoop_getPayer (q : List Nat) (heap : Heap) (n : Int) (x : Nat) :
    getPayer (deductLoop heap q n).1 x = getPayer heap x := by
  induction q generalizing heap n with
  | nil => rfl
  | cons a q ih =>
    by_cases h1 : n > 0
    · by_cases h2 : n ≤ getPoints heap a
      · rw [deductLoop_cons_take _ _ _ _ h1 h2]
        exact getPayer_setPoints _ _ _ _
      · rw [deductLoop_cons_skip _ _ _ _ h1 h2, ih, getPayer_setPoints]
    · rw [deductLoop_cons_stop _ _ _ _ h1]

theorem deductLoop_getTimestamp (q : List Nat) (heap : Heap) (n : Int) (x : Nat) :
    getTimestamp (deductLoop heap q n).1 x = getTimestamp heap x := by
  induction q generalizing heap n with
  | nil => rfl
  | cons a q ih =>
    by_cases h1 : n > 0
    · by_cases h2 : n ≤ getPoints heap a
      · rw [deductLoop_cons_take _ _ _ _ h1 h2]
        exact getTimestamp_setPoints _ _ _ _
      · rw [deductLoop_cons_skip _ _ _ _ h1 h2, ih, getTimestamp_setPoints]
    · rw [deductLoop_cons_stop _ _ _ _ h1]

theorem deductLoop_length (q : List Nat) (heap : Heap) (n : Int) :
    (deductLoop heap q n).1.length = heap.length := by
  induction q generalizing heap n with
  | nil => rfl
  | cons a q ih =>
    by_cases h1 : n > 0
    · by_cases h2 : n ≤ getPoints heap a
      · rw [deductLoop_cons_take _ _ _ _ h1 h2]
        exact length_setPoints _ _ _
      · rw [deductLoop_cons_skip _ _ _ _ h1 h2, ih, length_setPoints]
    · rw [deductLoop_cons_stop _ _ _ _ h1]

/-- Entries outside the queue keep their points. -/
theorem deductLoop_frame (q : List Nat) (heap : Heap) (n : Int) (x : Nat) (hx : x ∉ q) :
    getPoints (deductLoop heap q n).1 x = getPoints heap x := by
  induction q generalizing heap n with
  | nil => rfl
  | cons a q ih =>
    have hxa : x ≠ a := fun h => hx (h ▸ List.mem_cons_self _ _)
    have hxq : x ∉ q := fun h => hx (List.mem_cons_of_mem _ h)
    by_cases h1 : n > 0
    · by_cases h2 : n ≤ getPoints heap a
      · rw [deductLoop_cons_take _ _ _ _ h1 h2]
        exact getPoints_setPoints_ne _ _ _ _ hxa
      · rw [deductLoop_cons_skip _ _ _ _ h1 h2, ih _ _ hxq,
          getPoints_setPoints_ne _ _ _ _ hxa]
    · rw [deductLoop_cons_stop _ _ _ _ h1]

theorem map_getPoints_setPoints (q : List Nat) (heap : Heap) (a : Nat) (v : Int)
    (ha : a ∉ q) : q.map (getPoints (setPoints heap a v)) = q.map (getPoints heap) := by
  apply List.map_congr_left
  intro x hx
  exact getPoints_setPoints_ne _ _ _ _ (fun h => ha (h ▸ hx))

theorem drain_nonpos (ps : List Int) (n : Int) (hn : n ≤ 0) (hps : ∀ p ∈ ps, 0 ≤ p) :
    drain ps n = ps := by
  induction ps generalizing n with
  | nil => rfl
  | cons p ps ih =>
    have hp : 0 ≤ p := hps p (List.mem_cons_self _ _)
    have h1 : max 0 n = 0 := max_eq_left hn
    have h2 : min p 0 = 0 := min_eq_right hp
    simp only [drain, h1, h2, sub_zero]
    rw [ih (n - p) (by omega) (fun x hx => hps x (List.mem_cons_of_mem _ hx))]

/-- The points the loop leaves on the queue are those of `drain`. -/
theorem deductLoop_points (q : List Nat) (heap : Heap) (n : Int) (hq : q.Nodup)
    (hpos : ∀ x ∈ q, 0 ≤ getPoints heap x) :
    q.map (getPoints (deductLoop heap q n).1) = drain (q.map (getPoints heap)) n := by
  induction q generalizing heap n with
  | nil => rfl
  | cons a q ih =>
    have haq : a ∉ q := (List.nodup_cons.mp hq).1
    have hqn : q.Nodup := (List.nodup_cons.mp hq).2
    have hpa : 0 ≤ getPoints heap a := hpos a (List.mem_cons_self _ _)
    have hpq : ∀ x ∈ q, 0 ≤ getPoints heap x := fun x hx => hpos x (List.mem_cons_of_mem _ hx)
    have hmq : ∀ x ∈ q.map (getPoints heap), 0 ≤ x := by
      intro x hx
      obtain ⟨y, hy, rfl⟩ := List.mem_map.mp hx
      exact hpq y hy
    by_cases h1 : n > 0
    · by_cases h2 : n ≤ getPoints heap a
      · have hlt : a < heap.length :=
          lt_length_of_getPoints_ne_zero heap a (by omega)
        rw [deductLoop_cons_take _ _ _ _ h1 h2]
        simp only [List.map_cons, drain]
        rw [getPoints_setPoints_self _ _ _ hlt, map_getPoints_setPoints _ _ _ _ haq,
          drain_nonpos _ _ (by omega) hmq]
        have h3 : max 0 n = n := max_eq_right (le_of_lt h1)
        have h4 : min (getPoints heap a) n = n := min_eq_right h2
        rw [h3, h4]
      · rw [deductLoop_cons_skip _ _ _ _ h1 h2]
        simp only [List.map_cons, drain]
        rw [deductLoop_frame _ _ _ _ haq, getPoints_setPoints_zero,
          ih _ _ hqn (by
            intro x hx
            rw [getPoints_setPoints_ne _ _ _ _ (fun h => haq (by rw [← h]; exact hx))]
            exact hpq x hx),
          map_getPoints_setPoints _ _ _ _ haq]
        have h3 : max 0 n = n := max_eq_right (le_of_lt h1)
        have h4 : min (getPoints heap a) n = getPoints heap a := min_eq_left (by omega)
        rw [h3, h4, sub_self]
    · rw [deductLoop_cons_stop _ _ _ _ h1]
      exact (drain_nonpos _ _ (by omega) (by
        intro x hx
        obtain ⟨y, hy, rfl⟩ := List.mem_map.mp hx
        exact hpos y hy)).symm

/-- The remaining amount at loop exit. -/
theorem deductLoop_remaining (q : List Nat) (heap : Heap) (n : Int) (hq : q.Nodup)
    (hpos : ∀ x ∈ q, 0 ≤ getPoints heap x) (hn : 0 ≤ n) :
    (deductLoop heap q n).2.2 = max 0 (n - (q.map (getPoints heap)).sum) := by
  induction q generalizing heap n with
  | nil => simp [deductLoop, hn]
  | cons a q ih =>
    have haq : a ∉ q := (List.nodup_cons.mp hq).1
    have hqn : q.Nodup := (List.nodup_cons.mp hq).2
    have hpa : 0 ≤ getPoints heap a := hpos a (List.mem_cons_self _ _)
    have hpq : ∀ x ∈ q, 0 ≤ getPoints heap x := fun x hx => hpos x (List.mem_cons_of_mem _ hx)
    have hsum : 0 ≤ (q.map (getPoints heap)).sum := by
      apply List.sum_nonneg
      intro x hx
      obtain ⟨y, hy, rfl⟩ := List.mem_map.mp hx
      exact hpq y hy
    simp only [List.map_cons, List.sum_cons]
    by_cases h1 : n > 0
    · by_cases h2 : n ≤ getPoints heap a
      · rw [deductLoop_cons_take _ _ _ _ h1 h2]
        exact (max_eq_left (by simp only []; omega)).symm
      · rw [deductLoop_cons_skip _ _ _ _ h1 h2, ih _ _ hqn (by
            intro x hx
            rw [getPoints_setPoints_ne _ _ _ _ (fun h => haq (by rw [← h]; exact hx))]
            exact hpq x hx) (by omega),
          map_getPoints_setPoints _ _ _ _ haq]
        congr 1
        omega
    · rw [deductLoop_cons_stop _ _ _ _ h1]
      have hn0 : n = 0 := by omega
      subst hn0
      exact (max_eq_left (by simp only []; omega)).symm

/-- The returned slice is a suffix of the queue, and the entries in front of
it have 0 points. -/
theorem deductLoop_suffix (q : List Nat) (heap : Heap) (n : Int) (hq : q.Nodup) :
    ∃ d, q = d ++ (deductLoop heap q n).2.1 ∧
      ∀ x ∈ d, getPoints (deductLoop heap q n).1 x = 0 := by
  induction q generalizing heap n with
  | nil => exact ⟨[], rfl, by simp⟩
  | cons a q ih =>
    have haq : a ∉ q := (List.nodup_cons.mp hq).1
    have hqn : q.Nodup := (List.nodup_cons.mp hq).2
    by_cases h1 : n > 0
    · by_cases h2 : n ≤ getPoints heap a
      · rw [deductLoop_cons_take _ _ _ _ h1 h2]
        by_cases h3 : getPoints (setPoints heap a (getPoints heap a - n)) a = 0
        · simp only [h3, if_true]
          refine ⟨[a], rfl, ?_⟩
          intro x hx
          rw [List.mem_singleton.mp hx]
          exact h3
        · simp only [h3, if_false]
          exact ⟨[], rfl, by simp⟩
      · rw [deductLoop_cons_skip _ _ _ _ h1 h2]
        obtain ⟨d, hd, hz⟩ := ih (setPoints heap a 0) (n - getPoints heap a) hqn
        refine ⟨a :: d, by rw [List.cons_append, ← hd], ?_⟩
        intro x hx
        rcases List.mem_cons.mp hx with rfl | hx
        · rw [deductLoop_frame _ _ _ _ haq, getPoints_setPoints_zero]
        · exact hz x hx
    · rw [deductLoop_cons_stop _ _ _ _ h1]
      exact ⟨[], rfl, by simp⟩

theorem drain_getElem? (ps : List Int) (n : Int) (i : Nat) (p : Int)
    (h : ps[i]? = some p) :
    (drain ps n)[i]? = some (p - min p (max 0 (n - (ps.take i).sum))) := by
  induction ps generalizing n i with
  | nil => simp at h
  | cons a ps ih =>
    cases i with
    | zero =>
      simp only [List.getElem?_cons_zero, Option.some.injEq] at h
      subst h
      simp [drain]
    | succ i =>
      simp only [List.getElem?_cons_succ] at h
      simp only [drain, List.getElem?_cons_succ, List.take_succ_cons, List.sum_cons]
      rw [ih (n - a) i h]
      congr 3
      omega

theorem sum_take_le_of_nonneg (ps : List Int) (hps : ∀ p ∈ ps, 0 ≤ p) (i j : Nat)
    (hij : i ≤ j) : (ps.take i).sum ≤ (ps.take j).sum := by
  induction ps generalizing i j with
  | nil => simp
  | cons a ps ih =>
    have ha : 0 ≤ a := hps a (List.mem_cons_self _ _)
    have hps1 : ∀ p ∈ ps, 0 ≤ p := fun x hx => hps x (List.mem_cons_of_mem _ hx)
    cases i with
    | zero =>
      simp only [List.take_zero, List.sum_nil]
      apply List.sum_nonneg
      intro x hx
      exact hps x (List.mem_of_mem_take hx)
    | succ i =>
      cases j with
      | zero => omega
      | succ j =>
        simp only [List.take_succ_cons, List.sum_cons]
        have := ih hps1 i j (by omega)
        omega

/-- The points after a successful call, entry by entry. -/
theorem deductLoop_getElem (q : List Nat) (heap : Heap) (n : Int) (hq : q.Nodup)
    (hpos : ∀ x ∈ q, 0 ≤ getPoints heap x) (i : Nat) (hi : i < q.length) :
    getPoints (deductLoop heap q n).1 q[i]
      = getPoints heap q[i]
        - min (getPoints heap q[i]) (max 0 (n - ((q.take i).map (getPoints heap)).sum)) := by
  have h1 := deductLoop_points q heap n hq hpos
  have h2 : (q.map (getPoints heap))[i]? = some (getPoints heap q[i]) := by
    rw [List.getElem?_map, List.getElem?_eq_getElem hi]
    rfl
  have h3 := drain_getElem? (q.map (getPoints heap)) n i _ h2
  rw [← h1, List.getElem?_map, List.getElem?_eq_getElem hi] at h3
  simp only [Option.map_some', Option.some.injEq] at h3
  rw [h3, List.map_take]

theorem sum_take_map_succ (q : List Nat) (f : Nat → Int) (i : Nat) (hi : i < q.length) :
    ((q.take (i + 1)).map f).sum = ((q.take i).map f).sum + f q[i] := by
  induction q generalizing i with
  | nil => simp at hi
  | cons a q ih =>
    cases i with
    | zero => simp
    | succ i =>
      simp only [List.take_succ_cons, List.map_cons, List.sum_cons, List.getElem_cons_succ]
      rw [ih i (by simpa using hi)]
      omega

theorem sum_take_map_mono (q : List Nat) (f : Nat → Int) (hf : ∀ x ∈ q, 0 ≤ f x)
    (i j : Nat) (hij : i ≤ j) : ((q.take i).map f).sum ≤ ((q.take j).map f).sum := by
  have h := sum_take_le_of_nonneg (q.map f) (by
    intro p hp
    obtain ⟨y, hy, rfl⟩ := List.mem_map.mp hp
    exact hf y hy) i j hij
  rwa [← List.map_take, ← List.map_take] at h

theorem deductPoints_eq_some (heap : Heap) (q : List Nat) (n : Int)
    (h : (deductLoop heap q n).2.2 = 0) :
    deductPoints heap q n = some ((deductLoop heap q n).1, (deductLoop heap q n).2.1) := by
  unfold deductPoints
  simp [h]

theorem deductPoints_eq_none (heap : Heap) (q : List Nat) (n : Int)
    (h : (deductLoop heap q n).2.2 ≠ 0) : deductPoints heap q n = none := by
  unfold deductPoints
  simp [h]

theorem deductPoints_some_iff (heap : Heap) (q : List Nat) (n : Int) (r : Heap × List Nat) :
    deductPoints heap q n = some r ↔
      (deductLoop heap q n).2.2 = 0 ∧ r = ((deductLoop heap q n).1, (deductLoop heap q n).2.1) := by
  by_cases h : (deductLoop heap q n).2.2 = 0
  · rw [deductPoints_eq_some _ _ _ h]
    simp [h, eq_comm]
  · rw [deductPoints_eq_none _ _ _ h]
    simp [h]

/-! ## Maps -/

theorem mapGet_mapSet (m : List (String × List Nat)) (P : String) (v : List Nat)
    (P1 : String) : mapGet (mapSet m P v) P1 = if P1 = P then v else mapGet m P1 := by
  induction m with
  | nil =>
    by_cases h : P1 = P
    · simp [mapSet, mapGet, h]
    · simp [mapSet, mapGet, h, Ne.symm h]
  | cons kv m ih =>
    obtain ⟨k1, v1⟩ := kv
    by_cases h1 : k1 = P
    · subst h1
      by_cases h : P1 = k1
      · simp [mapSet, mapGet, h]
      · simp [mapSet, mapGet, h, Ne.symm h]
    · by_cases h : P1 = P
      · subst h
        simp [mapSet, mapGet, h1, ih]
      · by_cases h2 : k1 = P1
        · simp [mapSet, mapGet, h1, h, h2]
        · simp [mapSet, mapGet, h1, h, h2, ih]

theorem keys_mapSet {α : Type} (m : List (String × α)) (P : String) (v : α) :
    (mapSet m P v).map Prod.fst
      = if P ∈ m.map Prod.fst then m.map Prod.fst else m.map Prod.fst ++ [P] := by
  induction m with
  | nil => simp [mapSet]
  | cons kv m ih =>
    obtain ⟨k1, v1⟩ := kv
    by_cases h1 : k1 = P
    · subst h1
      simp [mapSet]
    · have h2 : ¬ P = k1 := fun h => h1 h.symm
      simp only [mapSet, h1, if_false, List.map_cons, ih, List.mem_cons, h2, false_or]
      split_ifs <;> simp

theorem mem_keys_mapSet {α : Type} (m : List (String × α)) (P : String) (v : α)
    (P1 : String) :
    P1 ∈ (mapSet m P v).map Prod.fst ↔ P1 = P ∨ P1 ∈ m.map Prod.fst := by
  rw [keys_mapSet]
  split_ifs with h
  · constructor
    · exact Or.inr
    · rintro (rfl | h1)
      · exact h
      · exact h1
  · rw [List.mem_append, List.mem_singleton]
    exact or_comm

theorem nodup_keys_mapSet {α : Type} (m : List (String × α)) (P : String) (v : α)
    (h : (m.map Prod.fst).Nodup) : ((mapSet m P v).map Prod.fst).Nodup := by
  rw [keys_mapSet]
  split_ifs with h1
  · exact h
  · rw [List.nodup_append]
    refine ⟨h, List.nodup_singleton P, ?_⟩
    intro x hx hx1
    rw [List.mem_singleton] at hx1
    subst hx1
    exact h1 hx

theorem map_values_eq {β : Type} (m : List (String × List Nat))
    (G : String → List Nat → β) (h : (m.map Prod.fst).Nodup) :
    m.map (fun kv => G kv.1 kv.2) = (m.map Prod.fst).map (fun P => G P (mapGet m P)) := by
  induction m with
  | nil => rfl
  | cons kv m ih =>
    obtain ⟨k1, v1⟩ := kv
    have hk : k1 ∉ m.map Prod.fst := (List.nodup_cons.mp h).1
    have hm : (m.map Prod.fst).Nodup := (List.nodup_cons.mp h).2
    simp only [List.map_cons, mapGet, if_true, List.cons.injEq, true_and]
    rw [ih hm]
    apply List.map_congr_left
    intro P hP
    have hne : k1 ≠ P := fun h1 => hk (h1 ▸ hP)
    simp [hne]

/-! ## Sums over the entries of each payer -/

theorem sum_map_ite_eq (ks : List String) (k : String) (v : Int) (h : ks.Nodup) :
    (ks.map (fun P => if k = P then v else 0)).sum = if k ∈ ks then v else 0 := by
  induction ks with
  | nil => simp
  | cons a ks ih =>
    have ha : a ∉ ks := (List.nodup_cons.mp h).1
    simp only [List.map_cons, List.sum_cons, ih (List.nodup_cons.mp h).2, List.mem_cons]
    by_cases h1 : k = a
    · subst h1
      simp [ha]
    · simp [h1]

theorem sum_by_payer {α : Type} (ks : List String) (hks : ks.Nodup) (pay : α → String)
    (f : α → Int) (l : List α) (hl : ∀ x ∈ l, pay x ∈ ks) :
    (ks.map (fun P => ((l.filter (fun x => decide (pay x = P))).map f).sum)).sum
      = (l.map f).sum := by
  induction l with
  | nil => simp
  | cons a l ih =>
    have h1 : ∀ P, (((a :: l).filter (fun x => decide (pay x = P))).map f).sum
        = (if pay a = P then f a else 0)
          + ((l.filter (fun x => decide (pay x = P))).map f).sum := by
      intro P
      by_cases h : pay a = P
      · simp [List.filter_cons, h]
      · simp [List.filter_cons, h]
    simp only [h1, List.sum_map_add, List.map_cons, List.sum_cons]
    rw [ih (fun x hx => hl x (List.mem_cons_of_mem _ hx)), sum_map_ite_eq _ _ _ hks,
      if_pos (hl a (List.mem_cons_self _ _))]

/-! ## Grants, payer entries and balances of a prefix -/

theorem positives_succ (sorted : List Transaction) (k : Nat) :
    positives sorted (k + 1)
      = positives sorted k ++ (if 0 < getPoints sorted k then [k] else []) := by
  unfold positives
  rw [List.range_succ, List.filter_append]
  by_cases h : 0 < getPoints sorted k
  · simp [List.filter_cons, h]
  · simp [List.filter_cons, h]

theorem payerEntries_succ (sorted : List Transaction) (k : Nat) (P : String) :
    payerEntries sorted (k + 1) P
      = payerEntries sorted k P
        ++ (if 0 < getPoints sorted k ∧ getPayer sorted k = P then [k] else []) := by
  unfold payerEntries
  rw [positives_succ, List.filter_append]
  by_cases h : 0 < getPoints sorted k
  · by_cases h1 : getPayer sorted k = P
    · simp [List.filter_cons, h, h1]
    · simp [List.filter_cons, h, h1]
  · simp [h]

theorem mem_positives (sorted : List Transaction) (k x : Nat) :
    x ∈ positives sorted k ↔ x < k ∧ 0 < getPoints sorted x := by
  simp [positives, List.mem_filter]

theorem mem_payerEntries (sorted : List Transaction) (k x : Nat) (P : String) :
    x ∈ payerEntries sorted k P ↔
      x < k ∧ 0 < getPoints sorted x ∧ getPayer sorted x = P := by
  simp [payerEntries, List.mem_filter, mem_positives, and_assoc]

theorem nodup_positives (sorted : List Transaction) (k : Nat) :
    (positives sorted k).Nodup :=
  List.Nodup.sublist (List.filter_sublist _) (List.nodup_range k)

theorem nodup_payerEntries (sorted : List Transaction) (k : Nat) (P : String) :
    (payerEntries sorted k P).Nodup :=
  List.Nodup.sublist (List.filter_sublist _) (nodup_positives sorted k)

theorem balance_succ (sorted : List Transaction) (k : Nat) (P : String)
    (hk : k < sorted.length) :
    balance sorted (k + 1) P
      = balance sorted k P + (if getPayer sorted k = P then getPoints sorted k else 0) := by
  unfold balance
  rw [List.take_succ, List.filter_append, List.map_append, List.sum_append]
  congr 1
  simp only [getPayer, getPoints, List.getElem?_eq_getElem hk, Option.toList]
  by_cases h : sorted[k].Payer = P
  · simp [List.filter_cons, h]
  · simp [List.filter_cons, h]

theorem balance_length (sorted : List Transaction) (P : String) :
    balance sorted sorted.length P
      = ((sorted.filter (fun t => decide (t.Payer = P))).map Transaction.Points).sum := by
  unfold balance
  rw [List.take_length]

/-! ## Bounds and totals of a deduction -/

theorem drain_sum (ps : List Int) (n : Int) (hps : ∀ p ∈ ps, 0 ≤ p) :
    (drain ps n).sum = ps.sum - min ps.sum (max 0 n) := by
  induction ps generalizing n with
  | nil => simp [drain]
  | cons a ps ih =>
    have ha : 0 ≤ a := hps a (List.mem_cons_self _ _)
    have hps1 : ∀ p ∈ ps, 0 ≤ p := fun x hx => hps x (List.mem_cons_of_mem _ hx)
    have hs : 0 ≤ ps.sum := List.sum_nonneg hps1
    simp only [drain, List.sum_cons, ih (n - a) hps1]
    omega

theorem map_getPoints_nonneg (q : List Nat) (heap : Heap)
    (hpos : ∀ x ∈ q, 0 ≤ getPoints heap x) : ∀ p ∈ q.map (getPoints heap), 0 ≤ p := by
  intro p hp
  obtain ⟨y, hy, rfl⟩ := List.mem_map.mp hp
  exact hpos y hy

/-- A deduction of `n` with `0 ≤ n ≤` total lowers the total of the queue by `n`. -/
theorem deductLoop_sum (q : List Nat) (heap : Heap) (n : Int) (hq : q.Nodup)
    (hpos : ∀ x ∈ q, 0 ≤ getPoints heap x) (h0 : 0 ≤ n)
    (hle : n ≤ (q.map (getPoints heap)).sum) :
    (q.map (getPoints (deductLoop heap q n).1)).sum = (q.map (getPoints heap)).sum - n := by
  rw [deductLoop_points q heap n hq hpos, drain_sum _ _ (map_getPoints_nonneg q heap hpos)]
  omega

/-- A deduction never raises the points of an entry, and keeps them
non-negative. -/
theorem deductLoop_bounds (q : List Nat) (heap : Heap) (n : Int) (hq : q.Nodup)
    (hpos : ∀ x ∈ q, 0 ≤ getPoints heap x) (x : Nat) :
    getPoints (deductLoop heap q n).1 x ≤ getPoints heap x ∧
      (0 ≤ getPoints heap x → 0 ≤ getPoints (deductLoop heap q n).1 x) := by
  by_cases hx : x ∈ q
  · obtain ⟨i, hi, rfl⟩ := List.getElem_of_mem hx
    rw [deductLoop_getElem q heap n hq hpos i hi]
    have := hpos q[i] hx
    omega
  · rw [deductLoop_frame q heap n x hx]
    exact ⟨le_refl _, id⟩

theorem deductPoints_eq_none_iff (heap : Heap) (q : List Nat) (n : Int) (hq : q.Nodup)
    (hpos : ∀ x ∈ q, 0 ≤ getPoints heap x) (h0 : 0 ≤ n) :
    deductPoints heap q n = none ↔ (q.map (getPoints heap)).sum < n := by
  have hrem := deductLoop_remaining q heap n hq hpos h0
  constructor
  · intro h
    by_contra hc
    have hz : (deductLoop heap q n).2.2 = 0 := by
      rw [hrem]
      exact max_eq_left (by omega)
    rw [deductPoints_eq_some heap q n hz] at h
    cases h
  · intro h
    apply deductPoints_eq_none
    rw [hrem, max_eq_right (by omega)]
    omega

/-! ## The ledger loop -/

theorem sum_map_eq_zero (d : List Nat) (f : Nat → Int) (h : ∀ x ∈ d, f x = 0) :
    (d.map f).sum = 0 := by
  induction d with
  | nil => rfl
  | cons a d ih =>
    simp only [List.map_cons, List.sum_cons, h a (List.mem_cons_self _ _),
      ih (fun x hx => h x (List.mem_cons_of_mem _ hx)), add_zero]

theorem ledgerStep_grant (s : Ledger) (k : Nat) (h : getPoints s.heap k > 0) :
    ledgerStep s k = some
      { heap := s.heap
        payerBalances := mapSet s.payerBalances (getPayer s.heap k)
          (mapGet s.payerBalances (getPayer s.heap k) ++ [k])
        userBalance := s.userBalance ++ [k] } := by
  unfold ledgerStep
  simp only [h, if_true]

theorem ledgerStep_claw (s : Ledger) (k : Nat) (h : ¬ getPoints s.heap k > 0) :
    ledgerStep s k =
      (deductPoints s.heap (mapGet s.payerBalances (getPayer s.heap k))
          (-(getPoints s.heap k))).map
        (fun r => { heap := r.1
                    payerBalances := mapSet s.payerBalances (getPayer s.heap k) r.2
                    userBalance := s.userBalance }) := by
  unfold ledgerStep
  simp only [h, if_false]
  cases deductPoints s.heap (mapGet s.payerBalances (getPayer s.heap k))
      (-(getPoints s.heap k)) with
  | none => rfl
  | some r => rfl

theorem ledgerInv_init (sorted : List Transaction) :
    LedgerInv sorted 0 (initLedger sorted) where
  hk := Nat.zero_le _
  hlen := rfl
  hpayer := fun _ => rfl
  htime := fun _ => rfl
  hfuture := fun _ _ => rfl
  hclaw := fun _ _ => rfl
  hbounds := fun _ h => ⟨h, le_refl _⟩
  huser := rfl
  hkeys := List.nodup_nil
  hkeymem := by
    intro P
    simp [initLedger]
  hqueue := by
    intro P
    exact ⟨[], rfl, by simp⟩
  hbal := by
    intro P
    simp [payerEntries, positives, balance]

theorem keymem_succ (sorted : List Transaction) (k : Nat) (s : Ledger)
    (inv : LedgerInv sorted k s) (v : List Nat) (P1 : String) :
    P1 ∈ (mapSet s.payerBalances (getPayer sorted k) v).map Prod.fst ↔
      ∃ x, x < k + 1 ∧ getPayer sorted x = P1 := by
  rw [mem_keys_mapSet, inv.hkeymem]
  constructor
  · rintro (h | ⟨x, hx, hp⟩)
    · exact ⟨k, Nat.lt_succ_self k, h.symm⟩
    · exact ⟨x, Nat.lt_succ_of_lt hx, hp⟩
  · rintro ⟨x, hx, hp⟩
    rcases Nat.lt_succ_iff_lt_or_eq.mp hx with h | h
    · exact Or.inr ⟨x, h, hp⟩
    · subst h
      exact Or.inl hp.symm

/-- A grant keeps the invariant. -/
theorem ledgerInv_grant (sorted : List Transaction) (k : Nat) (s : Ledger)
    (inv : LedgerInv sorted k s) (hk : k < sorted.length) (hp : 0 < getPoints sorted k) :
    ∃ s1, ledgerStep s k = some s1 ∧ s1.heap = s.heap ∧ LedgerInv sorted (k + 1) s1 := by
  have hsk : getPoints s.heap k = getPoints sorted k := inv.hfuture k (le_refl k)
  have hpk : getPayer s.heap k = getPayer sorted k := inv.hpayer k
  refine ⟨_, ledgerStep_grant s k (by rw [hsk]; exact hp), rfl, ?_⟩
  rw [hpk]
  exact {
    hk := hk
    hlen := inv.hlen
    hpayer := inv.hpayer
    htime := inv.htime
    hfuture := fun x hx => inv.hfuture x (by omega)
    hclaw := inv.hclaw
    hbounds := inv.hbounds
    huser := by
      show s.userBalance ++ [k] = positives sorted (k + 1)
      rw [positives_succ, if_pos hp, inv.huser]
    hkeys := nodup_keys_mapSet _ _ _ inv.hkeys
    hkeymem := keymem_succ sorted k s inv _
    hqueue := by
      intro P
      obtain ⟨d, hd, hz⟩ := inv.hqueue P
      refine ⟨d, ?_, hz⟩
      show payerEntries sorted (k + 1) P
        = d ++ mapGet (mapSet s.payerBalances (getPayer sorted k) _) P
      rw [payerEntries_succ, mapGet_mapSet]
      by_cases h : P = getPayer sorted k
      · subst h
        rw [if_pos ⟨hp, rfl⟩, if_pos rfl, hd, List.append_assoc]
      · rw [if_neg (fun hc => h hc.2.symm), if_neg h, List.append_nil, hd]
    hbal := by
      intro P
      show ((payerEntries sorted (k + 1) P).map (getPoints s.heap)).sum = _
      rw [payerEntries_succ, balance_succ sorted k P hk, List.map_append, List.sum_append,
        inv.hbal P]
      by_cases h : getPayer sorted k = P
      · rw [if_pos ⟨hp, h⟩, if_pos h]
        simp [hsk]
      · rw [if_neg (fun hc => h hc.2), if_neg h]
        simp }

/-- The queue of a payer before a clawback: distinct entries of that payer,
with non-negative points that add up to the payer's balance. -/
theorem ledgerInv_queue (sorted : List Transaction) (k : Nat) (s : Ledger)
    (inv : LedgerInv sorted k s) (P : String) :
    (mapGet s.payerBalances P).Nodup ∧
      (∀ x ∈ mapGet s.payerBalances P, x ∈ payerEntries sorted k P) ∧
      (∀ x ∈ mapGet s.payerBalances P, 0 ≤ getPoints s.heap x) ∧
      ((mapGet s.payerBalances P).map (getPoints s.heap)).sum = balance sorted k P := by
  obtain ⟨d, hd, hz⟩ := inv.hqueue P
  have hnd : (d ++ mapGet s.payerBalances P).Nodup := hd ▸ nodup_payerEntries sorted k P
  have hmem : ∀ x ∈ mapGet s.payerBalances P, x ∈ payerEntries sorted k P := by
    intro x hx
    rw [hd]
    exact List.mem_append_right _ hx
  refine ⟨(List.nodup_append.mp hnd).2.1, hmem, ?_, ?_⟩
  · intro x hx
    have h1 := (mem_payerEntries sorted k x P).mp (hmem x hx)
    exact (inv.hbounds x (le_of_lt h1.2.1)).1
  · have h1 := inv.hbal P
    rw [hd, List.map_append, List.sum_append, sum_map_eq_zero d _ hz, zero_add] at h1
    exact h1

/-- A clawback takes the insolvency exit exactly when it would make the
payer's balance negative; otherwise it keeps the invariant and changes no
entry outside the payer's queue. -/
theorem ledgerInv_claw (sorted : List Transaction) (k : Nat) (s : Ledger)
    (inv : LedgerInv sorted k s) (hk : k < sorted.length) (hp : getPoints sorted k ≤ 0) :
    (ledgerStep s k = none ↔ balance sorted (k + 1) (getPayer sorted k) < 0) ∧
    ∀ s1, ledgerStep s k = some s1 →
      LedgerInv sorted (k + 1) s1 ∧
      ∀ x, x ∉ mapGet s.payerBalances (getPayer sorted k) →
        getPoints s1.heap x = getPoints s.heap x := by
  have hsk : getPoints s.heap k = getPoints sorted k := inv.hfuture k (le_refl k)
  have hpk : getPayer s.heap k = getPayer sorted k := inv.hpayer k
  obtain ⟨hqn, hqmem, hqpos, hqsum⟩ := ledgerInv_queue sorted k s inv (getPayer sorted k)
  have hbs : balance sorted (k + 1) (getPayer sorted k)
      = balance sorted k (getPayer sorted k) + getPoints sorted k := by
    rw [balance_succ sorted k _ hk, if_pos rfl]
  have hstep := ledgerStep_claw s k (by rw [hsk]; omega)
  rw [hpk, hsk] at hstep
  have hn0 : 0 ≤ -(getPoints sorted k) := by omega
  constructor
  · rw [hstep, Option.map_eq_none', deductPoints_eq_none_iff s.heap _ _ hqn hqpos hn0, hqsum, hbs]
    constructor <;> intro h <;> omega
  · intro s1 hs1
    rw [hstep] at hs1
    obtain ⟨r, hr, rfl⟩ := Option.map_eq_some'.mp hs1
    obtain ⟨hrem, rfl⟩ := (deductPoints_some_iff _ _ _ _).mp hr
    rw [deductLoop_remaining _ _ _ hqn hqpos hn0] at hrem
    have hle : -(getPoints sorted k)
        ≤ ((mapGet s.payerBalances (getPayer sorted k)).map (getPoints s.heap)).sum := by
      omega
    have hframe : ∀ x, x ∉ mapGet s.payerBalances (getPayer sorted k) →
        getPoints (deductLoop s.heap (mapGet s.payerBalances (getPayer sorted k))
          (-(getPoints sorted k))).1 x = getPoints s.heap x :=
      fun x hx => deductLoop_frame _ _ _ x hx
    refine ⟨?_, hframe⟩
    exact {
      hk := hk
      hlen := by
        show (deductLoop _ _ _).1.length = _
        rw [deductLoop_length, inv.hlen]
      hpayer := by
        intro x
        show getPayer (deductLoop _ _ _).1 x = _
        rw [deductLoop_getPayer, inv.hpayer]
      htime := by
        intro x
        show getTimestamp (deductLoop _ _ _).1 x = _
        rw [deductLoop_getTimestamp, inv.htime]
      hfuture := by
        intro x hx
        show getPoints (deductLoop _ _ _).1 x = _
        rw [hframe x (fun hc => by
          have := ((mem_payerEntries sorted k x _).mp (hqmem x hc)).1
          omega)]
        exact inv.hfuture x (by omega)
      hclaw := by
        intro x hx
        show getPoints (deductLoop _ _ _).1 x = _
        rw [hframe x (fun hc => by
          have := ((mem_payerEntries sorted k x _).mp (hqmem x hc)).2.1
          omega)]
        exact inv.hclaw x hx
      hbounds := by
        intro x hx
        show 0 ≤ getPoints (deductLoop _ _ _).1 x ∧ getPoints (deductLoop _ _ _).1 x ≤ _
        have h1 := inv.hbounds x hx
        have h2 := deductLoop_bounds _ s.heap (-(getPoints sorted k)) hqn hqpos x
        exact ⟨h2.2 h1.1, le_trans h2.1 h1.2⟩
      huser := by
        show s.userBalance = positives sorted (k + 1)
        rw [positives_succ, if_neg (by omega), List.append_nil, inv.huser]
      hkeys := nodup_keys_mapSet _ _ _ inv.hkeys
      hkeymem := keymem_succ sorted k s inv _
      hqueue := by
        intro P
        show ∃ d, payerEntries sorted (k + 1) P
          = d ++ mapGet (mapSet s.payerBalances (getPayer sorted k) _) P ∧
          ∀ x ∈ d, getPoints (deductLoop _ _ _).1 x = 0
        rw [payerEntries_succ, if_neg (fun hc => by omega), List.append_nil, mapGet_mapSet]
        obtain ⟨d, hd, hz⟩ := inv.hqueue P
        by_cases h : P = getPayer sorted k
        · subst h
          rw [if_pos rfl]
          obtain ⟨d1, hd1, hz1⟩ := deductLoop_suffix _ s.heap (-(getPoints sorted k)) hqn
          have hnd : (d ++ mapGet s.payerBalances (getPayer sorted k)).Nodup :=
            hd ▸ nodup_payerEntries sorted k _
          refine ⟨d ++ d1, ?_, ?_⟩
          · rw [List.append_assoc, ← hd1, hd]
          · intro x hx
            rcases List.mem_append.mp hx with h1 | h1
            · rw [hframe x (fun hc => (List.nodup_append.mp hnd).2.2 h1 hc)]
              exact hz x h1
            · exact hz1 x h1
        · rw [if_neg h]
          refine ⟨d, hd, ?_⟩
          intro x hx
          rw [hframe x (fun hc => by
            have h1 := ((mem_payerEntries sorted k x _).mp (hqmem x hc)).2.2
            have h2 := ((mem_payerEntries sorted k x P).mp
              (hd ▸ List.mem_append_left _ hx)).2.2
            exact h (h2.symm.trans h1))]
          exact hz x hx
      hbal := by
        intro P
        show ((payerEntries sorted (k + 1) P).map (getPoints (deductLoop _ _ _).1)).sum = _
        rw [payerEntries_succ, if_neg (fun hc => by omega), List.append_nil,
          balance_succ sorted k P hk]
        by_cases h : getPayer sorted k = P
        · subst h
          rw [if_pos rfl]
          obtain ⟨d, hd, hz⟩ := inv.hqueue (getPayer sorted k)
          have hnd : (d ++ mapGet s.payerBalances (getPayer sorted k)).Nodup :=
            hd ▸ nodup_payerEntries sorted k _
          rw [hd, List.map_append, List.sum_append,
            deductLoop_sum _ _ _ hqn hqpos hn0 hle, hqsum,
            sum_map_eq_zero d _ (fun x hx => by
              rw [hframe x (fun hc => (List.nodup_append.mp hnd).2.2 hx hc)]
              exact hz x hx)]
          omega
        · rw [if_neg h, add_zero, ← inv.hbal P]
          congr 1
          apply List.map_congr_left
          intro x hx
          exact hframe x (fun hc => by
            have h1 := ((mem_payerEntries sorted k x _).mp (hqmem x hc)).2.2
            have h2 := ((mem_payerEntries sorted k x P).mp hx).2.2
            exact h (h1.symm.trans h2)) }

theorem ledgerLoop_append (s : Ledger) (l1 l2 : List Nat) :
    ledgerLoop s (l1 ++ l2) = (ledgerLoop s l1).bind (fun s1 => ledgerLoop s1 l2) := by
  induction l1 generalizing s with
  | nil => rfl
  | cons a l1 ih =>
    simp only [List.cons_append, ledgerLoop]
    cases ledgerStep s a with
    | none => rfl
    | some s1 => exact ih s1

theorem ledgerLoop_range_succ (s0 : Ledger) (k : Nat) :
    ledgerLoop s0 (List.range (k + 1))
      = (ledgerLoop s0 (List.range k)).bind (fun s => ledgerStep s k) := by
  rw [List.range_succ, ledgerLoop_append]
  congr 1
  funext s
  simp only [ledgerLoop]
  cases ledgerStep s k <;> rfl

theorem ledgerInv_balance_nonneg (sorted : List Transaction) (k : Nat) (s : Ledger)
    (inv : LedgerInv sorted k s) (P : String) : 0 ≤ balance sorted k P := by
  rw [← inv.hbal P]
  apply List.sum_nonneg
  intro p hp
  obtain ⟨x, hx, rfl⟩ := List.mem_map.mp hp
  exact (inv.hbounds x (le_of_lt ((mem_payerEntries sorted k x P).mp hx).2.1)).1

theorem balance_zero (sorted : List Transaction) (P : String) : balance sorted 0 P = 0 := by
  simp [balance]

/-- The ledger loop over the first `k` records: when it completes the
invariant holds, and it takes the insolvency exit exactly when some prefix
of at most `k` records gives some payer a negative balance. -/
theorem ledgerLoop_upto (sorted : List Transaction) (k : Nat) (hk : k ≤ sorted.length) :
    (∀ s, ledgerLoop (initLedger sorted) (List.range k) = some s → LedgerInv sorted k s) ∧
    (ledgerLoop (initLedger sorted) (List.range k) = none ↔
      ∃ j, j ≤ k ∧ ∃ P, balance sorted j P < 0) := by
  induction k with
  | zero =>
    constructor
    · intro s hs
      simp only [List.range_zero, ledgerLoop, Option.some.injEq] at hs
      subst hs
      exact ledgerInv_init sorted
    · simp only [List.range_zero, ledgerLoop]
      constructor
      · intro h
        cases h
      · rintro ⟨j, hj, P, hP⟩
        have hj0 : j = 0 := by omega
        subst hj0
        rw [balance_zero] at hP
        omega
  | succ k ih =>
    obtain ⟨ih1, ih2⟩ := ih (by omega)
    rw [ledgerLoop_range_succ]
    cases hprev : ledgerLoop (initLedger sorted) (List.range k) with
    | none =>
      constructor
      · intro s hs
        cases hs
      · simp only [Option.bind, true_iff]
        obtain ⟨j, hj, P, hP⟩ := ih2.mp hprev
        exact ⟨j, by omega, P, hP⟩
    | some s =>
      have inv := ih1 s hprev
      have hno : ¬ ∃ j, j ≤ k ∧ ∃ P, balance sorted j P < 0 := by
        intro hc
        have := ih2.mpr hc
        rw [hprev] at this
        cases this
      simp only [Option.bind]
      have hlast : ∀ s1, LedgerInv sorted (k + 1) s1 →
          ¬ ∃ j, j ≤ k + 1 ∧ ∃ P, balance sorted j P < 0 := by
        rintro s1 inv1 ⟨j, hj, P, hP⟩
        rcases Nat.lt_succ_iff_lt_or_eq.mp (Nat.lt_succ_of_le hj) with h | h
        · exact hno ⟨j, by omega, P, hP⟩
        · subst h
          have := ledgerInv_balance_nonneg sorted _ s1 inv1 P
          omega
      by_cases hp : 0 < getPoints sorted k
      · obtain ⟨s1, hs1, _, inv1⟩ := ledgerInv_grant sorted k s inv (by omega) hp
        rw [hs1]
        constructor
        · intro s2 hs2
          cases hs2
          exact inv1
        · constructor
          · intro h
            cases h
          · intro h
            exact absurd h (hlast s1 inv1)
      · obtain ⟨hnone, hsome⟩ := ledgerInv_claw sorted k s inv (by omega) (by omega)
        constructor
        · intro s1 hs1
          exact (hsome s1 hs1).1
        · constructor
          · intro h
            exact ⟨k + 1, le_refl _, _, hnone.mp h⟩
          · intro h
            cases hstep : ledgerStep s k with
            | none => rfl
            | some s1 => exact absurd h (hlast s1 (hsome s1 hstep).1)

/-- The invariant at the end of the ledger pass. -/
theorem ledgerPass_inv (sorted : List Transaction) (s : Ledger)
    (h : ledgerPass sorted = some s) : LedgerInv sorted sorted.length s :=
  (ledgerLoop_upto sorted sorted.length (le_refl _)).1 s h

/-! ## Sorting -/

theorem insertStable_perm (t : Transaction) (l : List Transaction) :
    (insertStable t l).Perm (t :: l) := by
  induction l with
  | nil => exact List.Perm.refl _
  | cons a l ih =>
    unfold insertStable
    split_ifs
    · exact (List.Perm.cons a ih).trans (List.Perm.swap t a l)
    · exact List.Perm.refl _

theorem stableSort_perm (l : List Transaction) : (stableSort l).Perm l := by
  induction l with
  | nil => exact List.Perm.refl _
  | cons t l ih => exact (insertStable_perm t _).trans (List.Perm.cons t ih)

theorem insertStable_sorted (t : Transaction) (l : List Transaction)
    (h : l.Pairwise (fun a b => less b a = false)) :
    (insertStable t l).Pairwise (fun a b => less b a = false) := by
  induction l with
  | nil => exact List.pairwise_singleton _ _
  | cons a l ih =>
    obtain ⟨h1, h2⟩ := List.pairwise_cons.mp h
    unfold insertStable
    split_ifs with hc
    · refine List.pairwise_cons.mpr ⟨?_, ih h2⟩
      intro b hb
      rcases List.mem_cons.mp ((insertStable_perm t l).mem_iff.mp hb) with rfl | hb
      · simp only [less, decide_eq_true_eq, decide_eq_false_iff_not] at hc ⊢
        omega
      · exact h1 b hb
    · refine List.pairwise_cons.mpr ⟨?_, h⟩
      intro b hb
      rcases List.mem_cons.mp hb with rfl | hb
      · simpa using hc
      · have := h1 b hb
        simp only [less, decide_eq_true_eq, decide_eq_false_iff_not] at hc this ⊢
        omega

theorem stableSort_sorted (l : List Transaction) :
    (stableSort l).Pairwise (fun a b => less b a = false) := by
  induction l with
  | nil => exact List.Pairwise.nil
  | cons t l ih => exact insertStable_sorted t _ ih

theorem stableSort_contract : SortContract stableSort :=
  ⟨stableSort_perm, stableSort_sorted⟩

theorem insertBehindTies_perm (t : Transaction) (l : List Transaction) :
    (insertBehindTies t l).Perm (t :: l) := by
  induction l with
  | nil => exact List.Perm.refl _
  | cons a l ih =>
    unfold insertBehindTies
    split_ifs
    · exact List.Perm.refl _
    · exact (List.Perm.cons a ih).trans (List.Perm.swap t a l)

theorem tieReversingSort_perm (l : List Transaction) : (tieReversingSort l).Perm l := by
  induction l with
  | nil => exact List.Perm.refl _
  | cons t l ih => exact (insertBehindTies_perm t _).trans (List.Perm.cons t ih)

theorem insertBehindTies_sorted (t : Transaction) (l : List Transaction)
    (h : l.Pairwise (fun a b => less b a = false)) :
    (insertBehindTies t l).Pairwise (fun a b => less b a = false) := by
  induction l with
  | nil => exact List.pairwise_singleton _ _
  | cons a l ih =>
    obtain ⟨h1, h2⟩ := List.pairwise_cons.mp h
    unfold insertBehindTies
    split_ifs with hc
    · refine List.pairwise_cons.mpr ⟨?_, h⟩
      intro b hb
      rcases List.mem_cons.mp hb with rfl | hb
      · simp only [less, decide_eq_true_eq, decide_eq_false_iff_not] at hc ⊢
        omega
      · have := h1 b hb
        simp only [less, decide_eq_true_eq, decide_eq_false_iff_not] at hc this ⊢
        omega
    · refine List.pairwise_cons.mpr ⟨?_, ih h2⟩
      intro b hb
      rcases List.mem_cons.mp ((insertBehindTies_perm t l).mem_iff.mp hb) with rfl | hb
      · simpa using hc
      · exact h1 b hb

theorem tieReversingSort_sorted (l : List Transaction) :
    (tieReversingSort l).Pairwise (fun a b => less b a = false) := by
  induction l with
  | nil => exact List.Pairwise.nil
  | cons t l ih => exact insertBehindTies_sorted t _ ih

theorem tieReversingSort_contract : SortContract tieReversingSort :=
  ⟨tieReversingSort_perm, tieReversingSort_sorted⟩

theorem eq_of_map_eq_of_subset {α β : Type} (f : α → β) (l1 l2 : List α)
    (hmap : l1.map f = l2.map f) (hsub : ∀ a ∈ l1, a ∈ l2)
    (hinj : ∀ a ∈ l2, ∀ b ∈ l2, f a = f b → a = b) : l1 = l2 := by
  induction l1 generalizing l2 with
  | nil =>
    cases l2 with
    | nil => rfl
    | cons b l2 => simp at hmap
  | cons a l1 ih =>
    cases l2 with
    | nil => simp at hmap
    | cons b l2 =>
      simp only [List.map_cons, List.cons.injEq] at hmap
      have hab : a = b :=
        hinj a (hsub a (List.mem_cons_self _ _)) b (List.mem_cons_self _ _) hmap.1
      subst hab
      congr 1
      apply ih l2 hmap.2
      · intro x hx
        have hfx : f x ∈ l2.map f := hmap.2 ▸ List.mem_map_of_mem f hx
        obtain ⟨y, hy, hxy⟩ := List.mem_map.mp hfx
        have : y = x := hinj y (List.mem_cons_of_mem _ hy) x
          (hsub x (List.mem_cons_of_mem _ hx)) hxy
        exact this ▸ hy
      · intro x hx y hy hxy
        exact hinj x (List.mem_cons_of_mem _ hx) y (List.mem_cons_of_mem _ hy) hxy

theorem sorted_timestamps (l : List Transaction)
    (h : l.Pairwise (fun a b => less b a = false)) :
    (l.map Transaction.Timestamp).Sorted (· ≤ ·) := by
  unfold List.Sorted
  rw [List.pairwise_map]
  apply List.Pairwise.imp _ h
  intro a b hab
  simp only [less, decide_eq_false_iff_not] at hab
  omega

/-- When no two records share a timestamp, every sorting function that meets
the contract returns the same list. -/
theorem sort_unique (sortFn : List Transaction → List Transaction) (hs : SortContract sortFn)
    (txs : List Transaction) (hd : (txs.map Transaction.Timestamp).Nodup) :
    sortFn txs = stableSort txs := by
  have hp : (sortFn txs).Perm (stableSort txs) :=
    (hs.perm txs).trans (stableSort_perm txs).symm
  have hnd : ((stableSort txs).map Transaction.Timestamp).Nodup :=
    (((stableSort_perm txs).map Transaction.Timestamp).nodup_iff).mpr hd
  have hmap : (sortFn txs).map Transaction.Timestamp
      = (stableSort txs).map Transaction.Timestamp :=
    List.eq_of_perm_of_sorted (hp.map Transaction.Timestamp)
      (sorted_timestamps _ (hs.sorted txs)) (sorted_timestamps _ (stableSort_sorted txs))
  exact eq_of_map_eq_of_subset Transaction.Timestamp _ _ hmap
    (fun a ha => hp.mem_iff.mp ha) (fun a ha b hb hab => List.inj_on_of_nodup_map hnd ha hb hab)

theorem insertStable_filter (t : Transaction) (l : List Transaction) (ts : Int) :
    (insertStable t l).filter (fun a => decide (a.Timestamp = ts))
      = (t :: l).filter (fun a => decide (a.Timestamp = ts)) := by
  induction l with
  | nil => rfl
  | cons a l ih =>
    unfold insertStable
    split_ifs with hc
    · simp only [less, decide_eq_true_eq] at hc
      rw [List.filter_cons, ih]
      by_cases h1 : a.Timestamp = ts
      · have h2 : ¬ t.Timestamp = ts := by omega
        simp [List.filter_cons, h1, h2]
      · simp [List.filter_cons, h1]
    · rfl

/-- The sort `stableSort` is stable: the records with one timestamp come out
in their input order. -/
theorem stableSort_stable (l : List Transaction) (ts : Int) :
    (stableSort l).filter (fun a => decide (a.Timestamp = ts))
      = l.filter (fun a => decide (a.Timestamp = ts)) := by
  induction l with
  | nil => rfl
  | cons t l ih =>
    show (insertStable t (stableSort l)).filter _ = _
    rw [insertStable_filter, List.filter_cons, List.filter_cons, ih]

theorem positives_ascending (sorted : List Transaction)
    (h : sorted.Pairwise (fun a b => less b a = false)) (k : Nat) (hk : k ≤ sorted.length) :
    (positives sorted k).Pairwise
      (fun x y => getTimestamp sorted x ≤ getTimestamp sorted y) := by
  unfold positives
  apply List.Pairwise.filter
  apply List.Pairwise.imp_of_mem _ (List.pairwise_lt_range k)
  intro a b ha hb hab
  have ha1 : a < sorted.length := by
    have := List.mem_range.mp ha
    omega
  have hb1 : b < sorted.length := by
    have := List.mem_range.mp hb
    omega
  have h1 := List.pairwise_iff_getElem.mp h a b ha1 hb1 hab
  simp only [less, decide_eq_false_iff_not] at h1
  simp only [getTimestamp, List.getElem?_eq_getElem ha1, List.getElem?_eq_getElem hb1]
  omega

/-! ## The spend and the tally -/

theorem deductLoop_of_nonpos (heap : Heap) (q : List Nat) (n : Int) (h : n ≤ 0) :
    deductLoop heap q n = (heap, q, n) := by
  cases q with
  | nil => rfl
  | cons a q => exact deductLoop_cons_stop heap a q n (by omega)

theorem ledgerInv_user (sorted : List Transaction) (k : Nat) (s : Ledger)
    (inv : LedgerInv sorted k s) :
    s.userBalance.Nodup ∧ ∀ x ∈ s.userBalance, 0 ≤ getPoints s.heap x := by
  rw [inv.huser]
  refine ⟨nodup_positives sorted k, ?_⟩
  intro x hx
  exact (inv.hbounds x (le_of_lt ((mem_positives sorted k x).mp hx).2)).1

/-- The total left on the grants after the ledger pass is the sum of the
signed points of all records. -/
theorem ledgerInv_total (sorted : List Transaction) (s : Ledger)
    (inv : LedgerInv sorted sorted.length s) :
    ((positives sorted sorted.length).map (getPoints s.heap)).sum
      = (sorted.map Transaction.Points).sum := by
  have hk1 : ∀ x ∈ positives sorted sorted.length,
      getPayer sorted x ∈ s.payerBalances.map Prod.fst := by
    intro x hx
    exact (inv.hkeymem _).mpr ⟨x, ((mem_positives sorted _ x).mp hx).1, rfl⟩
  have hk2 : ∀ t ∈ sorted, t.Payer ∈ s.payerBalances.map Prod.fst := by
    intro t ht
    obtain ⟨x, hx, rfl⟩ := List.getElem_of_mem ht
    refine (inv.hkeymem _).mpr ⟨x, hx, ?_⟩
    simp [getPayer, List.getElem?_eq_getElem hx]
  rw [← sum_by_payer _ inv.hkeys (getPayer sorted) (getPoints s.heap) _ hk1,
    ← sum_by_payer _ inv.hkeys Transaction.Payer Transaction.Points sorted hk2]
  congr 1
  apply List.map_congr_left
  intro P _
  have := inv.hbal P
  rw [balance_length] at this
  exact this

/-- What `processSorted` returns, in terms of the state after the ledger
pass and the arena after the spend. -/
theorem processSorted_some (sorted : List Transaction) (spend : Int)
    (bal : List (String × Int)) (h : processSorted sorted spend = some bal) :
    ∃ s, ledgerPass sorted = some s ∧ LedgerInv sorted sorted.length s ∧
      0 ≤ spend ∧
      spend ≤ ((positives sorted sorted.length).map (getPoints s.heap)).sum ∧
      deductPoints s.heap (positives sorted sorted.length) spend
        = some ((deductLoop s.heap (positives sorted sorted.length) spend).1,
                (deductLoop s.heap (positives sorted sorted.length) spend).2.1) ∧
      bal = (s.payerBalances.map Prod.fst).map (fun P =>
        (P, ((payerEntries sorted sorted.length P).map
          (getPoints (deductLoop s.heap (positives sorted sorted.length) spend).1)).sum)) := by
  unfold processSorted at h
  cases hs : ledgerPass sorted with
  | none => simp [hs] at h
  | some s =>
    have inv := ledgerPass_inv sorted s hs
    obtain ⟨hun, hup⟩ := ledgerInv_user sorted _ s inv
    simp only [hs] at h
    cases hd : deductPoints s.heap s.userBalance spend with
    | none => simp [hd] at h
    | some r =>
      simp only [hd, Option.some.injEq] at h
      obtain ⟨hrem, rfl⟩ := (deductPoints_some_iff _ _ _ _).mp hd
      have h0 : 0 ≤ spend := by
        by_contra hc
        rw [deductLoop_of_nonpos _ _ _ (by omega)] at hrem
        simp only [] at hrem
        omega
      rw [deductLoop_remaining _ _ _ hun hup h0] at hrem
      rw [inv.huser] at hrem hd hun hup h
      refine ⟨s, rfl, inv, h0, by omega, ?_, ?_⟩
      · rw [hd]
      · rw [← h]
        unfold tally
        rw [map_values_eq s.payerBalances
          (fun P q => (P, (q.map (getPoints (deductLoop s.heap
            (positives sorted sorted.length) spend).1)).sum)) inv.hkeys]
        apply List.map_congr_left
        intro P _
        obtain ⟨d, hd1, hz⟩ := inv.hqueue P
        rw [hd1, List.map_append, List.sum_append, sum_map_eq_zero d _ (fun x hx => by
          have hb := deductLoop_bounds _ s.heap spend hun hup x
          have := hz x hx
          have := hb.2 (by omega)
          omega), zero_add]

theorem sum_points_split (txs : List Transaction) :
    (txs.map Transaction.Points).sum
      = ((txs.filter (fun t => decide (0 < t.Points))).map Transaction.Points).sum
        - ((txs.filter (fun t => decide (t.Points ≤ 0))).map (fun t => |t.Points|)).sum := by
  induction txs with
  | nil => simp
  | cons t l ih =>
    by_cases h : 0 < t.Points
    · have h1 : ¬ t.Points ≤ 0 := not_le.mpr h
      simp only [List.map_cons, List.sum_cons, List.filter_cons, h, h1, decide_True,
        decide_False, if_true, ih]
      simp only [Bool.false_eq_true, if_false]
      omega
    · have h1 : t.Points ≤ 0 := not_lt.mp h
      simp only [List.map_cons, List.sum_cons, List.filter_cons, h, h1, decide_True,
        decide_False, if_true, ih, abs_of_nonpos h1]
      simp only [Bool.false_eq_true, if_false, List.map_cons, List.sum_cons]
      omega

theorem getPayer_mem_iff (sorted : List Transaction) (P : String) :
    (∃ x, x < sorted.length ∧ getPayer sorted x = P) ↔ ∃ t ∈ sorted, t.Payer = P := by
  constructor
  · rintro ⟨x, hx, hp⟩
    refine ⟨sorted[x], List.getElem_mem hx, ?_⟩
    simpa [getPayer, List.getElem?_eq_getElem hx] using hp
  · rintro ⟨t, ht, hp⟩
    obtain ⟨x, hx, rfl⟩ := List.getElem_of_mem ht
    exact ⟨x, hx, by simpa [getPayer, List.getElem?_eq_getElem hx] using hp⟩

/-! ## Claims on `deductPoints` -/

/-- C3 (FIFO correctness of deductPoints).  For a queue of distinct entries
with points `p_0 .. p_(k-1)`, all non-negative, and an amount `n` with
`0 ≤ n ≤ p_0 + ... + p_(k-1)`, `deductPoints` succeeds and leaves entry `i`
with `p_i - min p_i (max 0 (n - (p_0 + ... + p_(i-1))))` points; an entry is
only touched once every older entry is at 0, and at most one entry is
partially consumed.  Points `[5, 10, 15]` with a deduction of 12 become
`[0, 3, 15]`. -/
theorem C3_fifo_correctness (heap : Heap) (q : List Nat) (n : Int) (hq : q.Nodup)
    (hpos : ∀ x ∈ q, 0 ≤ getPoints heap x) (h0 : 0 ≤ n)
    (hle : n ≤ (q.map (getPoints heap)).sum) :
    (∃ heap1 q1, deductPoints heap q n = some (heap1, q1) ∧
      (∀ (i : Nat) (hi : i < q.length),
        getPoints heap1 q[i] = getPoints heap q[i]
          - min (getPoints heap q[i])
              (max 0 (n - ((q.take i).map (getPoints heap)).sum))) ∧
      (∀ (i j : Nat) (hj : j < q.length) (hij : i < j),
        getPoints heap1 q[j] < getPoints heap q[j] → getPoints heap1 q[i] = 0) ∧
      (∀ (i j : Nat) (hi : i < q.length) (hj : j < q.length),
        0 < getPoints heap1 q[i] → getPoints heap1 q[i] < getPoints heap q[i] →
        0 < getPoints heap1 q[j] → getPoints heap1 q[j] < getPoints heap q[j] → i = j)) ∧
    (deductPoints [⟨"A", 5, 1⟩, ⟨"A", 10, 2⟩, ⟨"A", 15, 3⟩] [0, 1, 2] 12).map
      (fun r => r.1.map Transaction.Points) = some [0, 3, 15] := by
  refine ⟨?_, by decide⟩
  have hrem : (deductLoop heap q n).2.2 = 0 := by
    rw [deductLoop_remaining q heap n hq hpos h0]
    exact max_eq_left (by omega)
  refine ⟨_, _, deductPoints_eq_some heap q n hrem, ?_, ?_, ?_⟩
  · intro i hi
    exact deductLoop_getElem q heap n hq hpos i hi
  · intro i j hj hij hlt
    have hi : i < q.length := by omega
    rw [deductLoop_getElem q heap n hq hpos j hj] at hlt
    rw [deductLoop_getElem q heap n hq hpos i hi]
    have hm := sum_take_map_mono q (getPoints heap) hpos (i + 1) j (by omega)
    rw [sum_take_map_succ q (getPoints heap) i hi] at hm
    have hpi := hpos q[i] (List.getElem_mem hi)
    have hpj := hpos q[j] (List.getElem_mem hj)
    have hmin : min (getPoints heap q[i])
        (max 0 (n - ((q.take i).map (getPoints heap)).sum)) = getPoints heap q[i] := by
      apply min_eq_left
      apply le_max_of_le_right
      rcases le_or_lt (n - ((q.take j).map (getPoints heap)).sum) 0 with hc | hc
      · rw [max_eq_left hc, min_eq_right hpj] at hlt
        omega
      · omega
    rw [hmin, sub_self]
  · intro i j hi hj hi0 hi1 hj0 hj1
    rw [deductLoop_getElem q heap n hq hpos i hi] at hi0 hi1
    rw [deductLoop_getElem q heap n hq hpos j hj] at hj0 hj1
    have hpi := hpos q[i] (List.getElem_mem hi)
    have hpj := hpos q[j] (List.getElem_mem hj)
    have key : ∀ (a b : Nat) (ha : a < q.length) (hb : b < q.length), a < b →
        0 < getPoints heap q[a] - min (getPoints heap q[a])
              (max 0 (n - ((q.take a).map (getPoints heap)).sum)) →
        getPoints heap q[b] - min (getPoints heap q[b])
              (max 0 (n - ((q.take b).map (getPoints heap)).sum)) < getPoints heap q[b] →
        False := by
      intro a b ha hb hab h1 h2
      have hm := sum_take_map_mono q (getPoints heap) hpos (a + 1) b (by omega)
      rw [sum_take_map_succ q (getPoints heap) a ha] at hm
      have hpb := hpos q[b] (List.getElem_mem hb)
      rcases le_or_lt (n - ((q.take b).map (getPoints heap)).sum) 0 with hc | hc
      · rw [max_eq_left hc, min_eq_right hpb] at h2
        omega
      · have h3 : getPoints heap q[a] ≤ max 0 (n - ((q.take a).map (getPoints heap)).sum) := by
          apply le_max_of_le_right
          omega
        rw [min_eq_left h3] at h1
        omega
    rcases Nat.lt_trichotomy i j with h | h | h
    · exact absurd (key i j hi hj h hi0 hj1) id
    · exact h
    · exact absurd (key j i hj hi h hj0 hi1) id

/-- Witness of C3: the queue `[5, 10, 15]` and the amount 12. -/
theorem C3_fifo_correctness_witness :
    (∃ heap1 q1, deductPoints [⟨"A", 5, 1⟩, ⟨"A", 10, 2⟩, ⟨"A", 15, 3⟩] [0, 1, 2] 12
        = some (heap1, q1) ∧
      getPoints heap1 0 = 0 ∧ getPoints heap1 1 = 3 ∧ getPoints heap1 2 = 15) := by
  obtain ⟨⟨heap1, q1, h, hf, _, _⟩, _⟩ :=
    C3_fifo_correctness [⟨"A", 5, 1⟩, ⟨"A", 10, 2⟩, ⟨"A", 15, 3⟩] [0, 1, 2] 12
      (by decide) (by decide) (by decide) (by decide)
  refine ⟨heap1, q1, h, ?_, ?_, ?_⟩
  · have := hf 0 (by decide)
    simpa using this
  · have := hf 1 (by decide)
    simpa using this
  · have := hf 2 (by decide)
    simpa using this

/-- C4 (insolvency of the primitive).  For a queue of distinct entries with
non-negative points and an amount `n ≥ 0`, `deductPoints` takes the
insolvency exit if and only if `n` is strictly greater than the sum of the
points of the entries of the queue. -/
theorem C4_insolvency_iff (heap : Heap) (q : List Nat) (n : Int) (hq : q.Nodup)
    (hpos : ∀ x ∈ q, 0 ≤ getPoints heap x) (h0 : 0 ≤ n) :
    deductPoints heap q n = none ↔ (q.map (getPoints heap)).sum < n :=
  deductPoints_eq_none_iff heap q n hq hpos h0

/-- Witness of C4: `[5, 10]` cannot pay 16. -/
theorem C4_insolvency_iff_witness :
    deductPoints [⟨"A", 5, 1⟩, ⟨"A", 10, 2⟩] [0, 1] 16 = none :=
  (C4_insolvency_iff [⟨"A", 5, 1⟩, ⟨"A", 10, 2⟩] [0, 1] 16
    (by decide) (by decide) (by decide)).mpr (by decide)

/-! ## Claims on `processTransactions` -/

/-- Conservation on unbounded integers: whenever `processTransactions`
returns a map, its values add up to the grants minus the magnitudes of the
clawbacks minus the spend. -/
theorem conservation_unbounded (sortFn : List Transaction → List Transaction)
    (hs : SortContract sortFn) (txs : List Transaction) (spend : Int)
    (bal : List (String × Int)) (h : processTransactions sortFn txs spend = some bal) :
    (bal.map Prod.snd).sum
      = ((txs.filter (fun t => decide (0 < t.Points))).map Transaction.Points).sum
        - ((txs.filter (fun t => decide (t.Points ≤ 0))).map (fun t => |t.Points|)).sum
        - spend := by
  obtain ⟨s, _, inv, h0, hle, _, hbal⟩ := processSorted_some (sortFn txs) spend bal h
  obtain ⟨hun, hup⟩ := ledgerInv_user _ _ s inv
  rw [inv.huser] at hun hup
  have hk1 : ∀ x ∈ positives (sortFn txs) (sortFn txs).length,
      getPayer (sortFn txs) x ∈ s.payerBalances.map Prod.fst := by
    intro x hx
    exact (inv.hkeymem _).mpr ⟨x, ((mem_positives _ _ x).mp hx).1, rfl⟩
  rw [← sum_points_split, ← ((hs.perm txs).map Transaction.Points).sum_eq,
    ← ledgerInv_total _ s inv, ← deductLoop_sum _ _ _ hun hup h0 hle,
    ← sum_by_payer _ inv.hkeys (getPayer (sortFn txs)) _ _ hk1, hbal, List.map_map]
  rfl

/-- Non-negativity on unbounded integers: whenever `processTransactions`
returns a map, every value in it is `≥ 0`. -/
theorem nonnegativity_unbounded (sortFn : List Transaction → List Transaction)
    (txs : List Transaction) (spend : Int) (bal : List (String × Int))
    (h : processTransactions sortFn txs spend = some bal) :
    ∀ kv ∈ bal, 0 ≤ kv.2 := by
  obtain ⟨s, _, inv, _, _, _, hbal⟩ := processSorted_some (sortFn txs) spend bal h
  obtain ⟨hun, hup⟩ := ledgerInv_user _ _ s inv
  rw [inv.huser] at hun hup
  intro kv hkv
  rw [hbal] at hkv
  obtain ⟨P, _, rfl⟩ := List.mem_map.mp hkv
  apply List.sum_nonneg
  intro p hp
  obtain ⟨x, hx, rfl⟩ := List.mem_map.mp hp
  have h1 := (inv.hbounds x (le_of_lt ((mem_payerEntries _ _ x P).mp hx).2.1)).1
  exact (deductLoop_bounds _ s.heap spend hun hup x).2 h1

/-- C6 (spend insolvency).  When the clawbacks all resolve, a requested spend
greater than the sum of the points left on the grants after the clawback
pass makes `processTransactions` take the insolvency exit, and a spend
between 0 and that sum inclusive makes it return a map. -/
theorem C6_spend_insolvency (sortFn : List Transaction → List Transaction)
    (txs : List Transaction) (spend : Int) (s : Ledger)
    (hs : ledgerPass (sortFn txs) = some s) :
    (((positives (sortFn txs) (sortFn txs).length).map (getPoints s.heap)).sum < spend →
      processTransactions sortFn txs spend = none) ∧
    (0 ≤ spend →
      spend ≤ ((positives (sortFn txs) (sortFn txs).length).map (getPoints s.heap)).sum →
      ∃ bal, processTransactions sortFn txs spend = some bal) := by
  have inv := ledgerPass_inv _ s hs
  obtain ⟨hun, hup⟩ := ledgerInv_user _ _ s inv
  have hsum : 0 ≤ (s.userBalance.map (getPoints s.heap)).sum :=
    List.sum_nonneg (map_getPoints_nonneg _ _ hup)
  unfold processTransactions processSorted
  rw [hs, ← inv.huser]
  constructor
  · intro hlt
    have hnone := (deductPoints_eq_none_iff s.heap s.userBalance spend hun hup
      (by omega)).mpr hlt
    simp only [hnone]
  · intro h0 hle
    cases hd : deductPoints s.heap s.userBalance spend with
    | none =>
      have := (deductPoints_eq_none_iff s.heap s.userBalance spend hun hup h0).mp hd
      omega
    | some r => exact ⟨tally r.1 s.payerBalances, by simp only [hd]⟩

/-- Witness of C6: after the clawback the grants of the end-to-end example
hold 550 points, so a spend of 551 is refused. -/
theorem C6_spend_insolvency_witness :
    processTransactions stableSort
      [⟨"A", 100, 1⟩, ⟨"A", 200, 2⟩, ⟨"B", 300, 3⟩, ⟨"A", -50, 4⟩] 551 = none :=
  (C6_spend_insolvency stableSort
    [⟨"A", 100, 1⟩, ⟨"A", 200, 2⟩, ⟨"B", 300, 3⟩, ⟨"A", -50, 4⟩] 551
    { heap := [⟨"A", 50, 1⟩, ⟨"A", 200, 2⟩, ⟨"B", 300, 3⟩, ⟨"A", -50, 4⟩]
      payerBalances := [("A", [0, 1]), ("B", [2])]
      userBalance := [0, 1, 2] } (by decide)).1 (by decide)

/-- Every payer of the log has an entry in the returned map. -/
theorem processSorted_payers (sorted : List Transaction) (spend : Int)
    (bal : List (String × Int)) (h : processSorted sorted spend = some bal) :
    ∃ s, ledgerPass sorted = some s ∧
      (∀ kv ∈ bal, kv.2 = ((payerEntries sorted sorted.length kv.1).map
        (getPoints (deductLoop s.heap (positives sorted sorted.length) spend).1)).sum) ∧
      ∀ t ∈ sorted, (t.Payer, ((payerEntries sorted sorted.length t.Payer).map
        (getPoints (deductLoop s.heap (positives sorted sorted.length) spend).1)).sum)
          ∈ bal := by
  obtain ⟨s, hpass, inv, _, _, _, hbal⟩ := processSorted_some sorted spend bal h
  refine ⟨s, hpass, ?_, ?_⟩
  · intro kv hkv
    rw [hbal] at hkv
    obtain ⟨P, _, rfl⟩ := List.mem_map.mp hkv
    rfl
  · intro t ht
    have hk : t.Payer ∈ s.payerBalances.map Prod.fst :=
      (inv.hkeymem _).mpr ((getPayer_mem_iff sorted t.Payer).mpr ⟨t, ht, rfl⟩)
    rw [hbal]
    exact List.mem_map_of_mem
      (fun P => (P, ((payerEntries sorted sorted.length P).map
        (getPoints (deductLoop s.heap (positives sorted sorted.length) spend).1)).sum)) hk

/-- Oldest-first allocation on unbounded integers: the balance of each payer
is the sum over that payer's grants of the points left after the ledger
pass and one FIFO deduction of the spend over all grants in ascending
timestamp order, and every payer of the log has a balance. -/
theorem oldest_first_unbounded (sorted : List Transaction)
    (hsorted : sorted.Pairwise (fun a b => less b a = false)) (spend : Int)
    (bal : List (String × Int)) (h : processSorted sorted spend = some bal) :
    ∃ s heap1 q1, ledgerPass sorted = some s ∧
      deductPoints s.heap (positives sorted sorted.length) spend = some (heap1, q1) ∧
      (positives sorted sorted.length).map (getPoints heap1)
        = drain ((positives sorted sorted.length).map (getPoints s.heap)) spend ∧
      (positives sorted sorted.length).Pairwise
        (fun x y => getTimestamp sorted x ≤ getTimestamp sorted y) ∧
      (∀ kv ∈ bal, kv.2
        = ((payerEntries sorted sorted.length kv.1).map (getPoints heap1)).sum) ∧
      ∀ t ∈ sorted,
        (t.Payer, ((payerEntries sorted sorted.length t.Payer).map (getPoints heap1)).sum)
          ∈ bal := by
  obtain ⟨s, hpass, inv, _, _, hd, _⟩ := processSorted_some sorted spend bal h
  obtain ⟨s2, hpass2, hval, hmem⟩ := processSorted_payers sorted spend bal h
  rw [hpass] at hpass2
  cases hpass2
  obtain ⟨hun, hup⟩ := ledgerInv_user _ _ s inv
  rw [inv.huser] at hun hup
  exact ⟨s, _, _, hpass, hd, deductLoop_points _ _ _ hun hup,
    positives_ascending _ hsorted _ (le_refl _), hval, hmem⟩

/-- The end-to-end example on unbounded integers, for every sort that meets
the contract and all timestamps `t1 < t2 < t3 < t4`. -/
theorem end_to_end_unbounded (sortFn : List Transaction → List Transaction)
    (hs : SortContract sortFn) (t1 t2 t3 t4 : Int) (h12 : t1 < t2) (h23 : t2 < t3)
    (h34 : t3 < t4) :
    processTransactions sortFn
        [⟨"A", 100, t1⟩, ⟨"A", 200, t2⟩, ⟨"B", 300, t3⟩, ⟨"A", -50, t4⟩] 200
      = some [("A", 50), ("B", 300)] := by
  unfold processTransactions
  rw [sort_unique sortFn hs _ (by
    simp only [List.map_cons, List.map_nil, List.nodup_cons, List.mem_cons,
      List.mem_singleton, List.not_mem_nil, List.nodup_nil, or_false, not_false_eq_true,
      and_true, not_or]
    omega)]
  have hsort : stableSort
      [⟨"A", 100, t1⟩, ⟨"A", 200, t2⟩, ⟨"B", 300, t3⟩, ⟨"A", -50, t4⟩]
      = [⟨"A", 100, t1⟩, ⟨"A", 200, t2⟩, ⟨"B", 300, t3⟩, ⟨"A", -50, t4⟩] := by
    have e1 : ¬ t4 < t3 := by omega
    have e2 : ¬ t3 < t2 := by omega
    have e3 : ¬ t2 < t1 := by omega
    simp [stableSort, insertStable, less, e1, e2, e3]
  rw [hsort]
  rfl

/-- C8 (clawback isolation).  In the ledger loop, processing a clawback
event of payer A leaves the points of every entry whose payer is not A
unchanged, wherever that entry stands in the order. -/
theorem C8_clawback_isolation (sorted : List Transaction) (k : Nat) (s s1 : Ledger)
    (hk : k < sorted.length)
    (hs : ledgerLoop (initLedger sorted) (List.range k) = some s)
    (hclaw : getPoints sorted k ≤ 0) (hstep : ledgerStep s k = some s1) :
    ∀ x, getPayer sorted x ≠ getPayer sorted k →
      getPoints s1.heap x = getPoints s.heap x := by
  have inv := (ledgerLoop_upto sorted k (le_of_lt hk)).1 s hs
  intro x hx
  apply ((ledgerInv_claw sorted k s inv hk hclaw).2 s1 hstep).2 x
  intro hc
  have h1 := (ledgerInv_queue sorted k s inv (getPayer sorted k)).2.1 x hc
  exact hx ((mem_payerEntries sorted k x _).mp h1).2.2

/-- Witness of C8: the clawback of A in `B +300, A +100, B +20, A -50`
leaves the first entry of B, which is older than the grant of A, at 300. -/
theorem C8_clawback_isolation_witness :
    getPoints [⟨"B", 300, 1⟩, ⟨"A", 50, 2⟩, ⟨"B", 20, 3⟩, ⟨"A", -50, 4⟩] 0
      = getPoints [⟨"B", 300, 1⟩, ⟨"A", 100, 2⟩, ⟨"B", 20, 3⟩, ⟨"A", -50, 4⟩] 0 :=
  C8_clawback_isolation [⟨"B", 300, 1⟩, ⟨"A", 100, 2⟩, ⟨"B", 20, 3⟩, ⟨"A", -50, 4⟩] 3
    { heap := [⟨"B", 300, 1⟩, ⟨"A", 100, 2⟩, ⟨"B", 20, 3⟩, ⟨"A", -50, 4⟩]
      payerBalances := [("B", [0, 2]), ("A", [1])]
      userBalance := [0, 1, 2] }
    { heap := [⟨"B", 300, 1⟩, ⟨"A", 50, 2⟩, ⟨"B", 20, 3⟩, ⟨"A", -50, 4⟩]
      payerBalances := [("B", [0, 2]), ("A", [1])]
      userBalance := [0, 1, 2] }
    (by decide) (by decide) (by decide) (by decide) 0 (by decide)

/-- C9 (output key set).  Whenever `processTransactions` returns a map, its
keys are exactly the payers that occur in the input events, one key per
payer; a payer with only a zero-point event is a key with balance 0. -/
theorem C9_output_keys (sortFn : List Transaction → List Transaction)
    (hs : SortContract sortFn) (txs : List Transaction) (spend : Int)
    (bal : List (String × Int)) (h : processTransactions sortFn txs spend = some bal) :
    ((bal.map Prod.fst).Nodup ∧
      ∀ P, P ∈ bal.map Prod.fst ↔ ∃ t ∈ txs, t.Payer = P) ∧
    processTransactions stableSort [⟨"A", 10, 1⟩, ⟨"B", 0, 2⟩, ⟨"A", -10, 3⟩] 0
      = some [("A", 0), ("B", 0)] := by
  refine ⟨?_, by decide⟩
  obtain ⟨s, _, inv, _, _, _, hbal⟩ := processSorted_some (sortFn txs) spend bal h
  have hkeys : bal.map Prod.fst = s.payerBalances.map Prod.fst := by
    rw [hbal, List.map_map]
    exact List.map_id _
  rw [hkeys]
  refine ⟨inv.hkeys, ?_⟩
  intro P
  rw [inv.hkeymem, getPayer_mem_iff]
  constructor
  · rintro ⟨t, ht, hp⟩
    exact ⟨t, (hs.perm txs).mem_iff.mp ht, hp⟩
  · rintro ⟨t, ht, hp⟩
    exact ⟨t, (hs.perm txs).mem_iff.mpr ht, hp⟩

/-- Witness of C9: the end-to-end example has one key for A and one for B. -/
theorem C9_output_keys_witness :
    (([("A", 50), ("B", 300)] : List (String × Int)).map Prod.fst).Nodup ∧
      ("B" ∈ ([("A", 50), ("B", 300)] : List (String × Int)).map Prod.fst ↔
        ∃ t ∈ ([⟨"A", 100, 1⟩, ⟨"A", 200, 2⟩, ⟨"B", 300, 3⟩, ⟨"A", -50, 4⟩] :
          List Transaction), t.Payer = "B") :=
  ⟨(C9_output_keys stableSort stableSort_contract
      [⟨"A", 100, 1⟩, ⟨"A", 200, 2⟩, ⟨"B", 300, 3⟩, ⟨"A", -50, 4⟩] 200
      [("A", 50), ("B", 300)] (by decide)).1.1,
    (C9_output_keys stableSort stableSort_contract
      [⟨"A", 100, 1⟩, ⟨"A", 200, 2⟩, ⟨"B", 300, 3⟩, ⟨"A", -50, 4⟩] 200
      [("A", 50), ("B", 300)] (by decide)).1.2 "B"⟩

/-- C10 (tie-break stability), amended.  The ordering step returns a
rearrangement of the input in which an entry with a smaller timestamp always
comes before an entry with a larger one; the order of entries with the same
timestamp is not always their input order.  When no two input entries share
a timestamp, the order and the result of `processTransactions` are those of
a stable sort by timestamp. -/
theorem C10_tie_break_amended (sortFn : List Transaction → List Transaction)
    (hs : SortContract sortFn) (txs : List Transaction) :
    (sortFn txs).Perm txs ∧
    (∀ (i j : Nat) (hi : i < (sortFn txs).length) (hj : j < (sortFn txs).length),
      (sortFn txs)[i].Timestamp < (sortFn txs)[j].Timestamp → i < j) ∧
    ((txs.map Transaction.Timestamp).Nodup →
      sortFn txs = stableSort txs ∧
      (∀ ts, (sortFn txs).filter (fun a => decide (a.Timestamp = ts))
        = txs.filter (fun a => decide (a.Timestamp = ts))) ∧
      (∀ spend, processTransactions sortFn txs spend
        = processTransactions stableSort txs spend) ∧
      ∀ spend, processTransactions64 sortFn txs spend
        = processTransactions64 stableSort txs spend) := by
  refine ⟨hs.perm txs, ?_, ?_⟩
  · intro i j hi hj hlt
    by_contra hc
    rcases Nat.lt_or_ge j i with h | h
    · have h1 := List.pairwise_iff_getElem.mp (hs.sorted txs) j i hj hi h
      simp only [less, decide_eq_false_iff_not] at h1
      exact h1 hlt
    · have hij : i = j := by omega
      subst hij
      omega
  · intro hd
    have hu := sort_unique sortFn hs txs hd
    refine ⟨hu, ?_, ?_, ?_⟩
    · intro ts
      rw [hu, stableSort_stable]
    · intro spend
      unfold processTransactions
      rw [hu]
    · intro spend
      unfold processTransactions64
      rw [hu]

/-- Witness of C10 amended: a sort that is not stable, applied to the
end-to-end example, whose timestamps are distinct. -/
theorem C10_tie_break_amended_witness :
    tieReversingSort [⟨"B", 300, 3⟩, ⟨"A", 100, 1⟩, ⟨"A", -50, 4⟩, ⟨"A", 200, 2⟩]
      = stableSort [⟨"B", 300, 3⟩, ⟨"A", 100, 1⟩, ⟨"A", -50, 4⟩, ⟨"A", 200, 2⟩] :=
  ((C10_tie_break_amended tieReversingSort tieReversingSort_contract
    [⟨"B", 300, 3⟩, ⟨"A", 100, 1⟩, ⟨"A", -50, 4⟩, ⟨"A", 200, 2⟩]).2.2 (by decide)).1

/-! ## Further properties of `deductPoints` -/

theorem setPoints_setPoints (heap : Heap) (a : Nat) (u v : Int) :
    setPoints (setPoints heap a u) a v = setPoints heap a v := by
  by_cases h : a < heap.length
  · have h1 : heap[a]? = some heap[a] := List.getElem?_eq_getElem h
    have h2 : (heap.set a { heap[a] with Points := u })[a]?
        = some { heap[a] with Points := u } := List.getElem?_set_self h
    simp only [setPoints, h1, h2, List.set_set]
  · have h1 : heap[a]? = none := List.getElem?_eq_none (Nat.le_of_not_lt h)
    simp only [setPoints, h1]

theorem setPoints_getPoints (heap : Heap) (a : Nat) :
    setPoints heap a (getPoints heap a) = heap := by
  by_cases h : a < heap.length
  · have h1 : heap[a]? = some heap[a] := List.getElem?_eq_getElem h
    simp only [setPoints, getPoints, h1]
    apply List.ext_getElem?
    intro i
    by_cases hi : a = i
    · subst hi
      rw [List.getElem?_set_self h, h1]
    · rw [List.getElem?_set_ne hi]
  · have h1 : heap[a]? = none := List.getElem?_eq_none (Nat.le_of_not_lt h)
    simp only [setPoints, h1]

/-- An entry with 0 points keeps 0 points. -/
theorem deductLoop_zero_stays (q : List Nat) (heap : Heap) (n : Int) (x : Nat)
    (hx : getPoints heap x = 0) : getPoints (deductLoop heap q n).1 x = 0 := by
  induction q generalizing heap n with
  | nil => exact hx
  | cons a q ih =>
    by_cases h1 : n > 0
    · by_cases h2 : n ≤ getPoints heap a
      · rw [deductLoop_cons_take _ _ _ _ h1 h2]
        have hxa : x ≠ a := by
          intro hc
          rw [hc] at hx
          omega
        show getPoints (setPoints heap a _) x = 0
        rw [getPoints_setPoints_ne _ _ _ _ hxa]
        exact hx
      · rw [deductLoop_cons_skip _ _ _ _ h1 h2]
        apply ih
        by_cases hxa : x = a
        · rw [hxa]
          exact getPoints_setPoints_zero heap a
        · rw [getPoints_setPoints_ne _ _ _ _ hxa]
          exact hx
    · rw [deductLoop_cons_stop _ _ _ _ h1]
      exact hx

/-- The returned slice is a suffix of the queue and the entries in front of
it are at 0, for any queue. -/
theorem deductLoop_cursor (q : List Nat) (heap : Heap) (n : Int) :
    ∃ d, q = d ++ (deductLoop heap q n).2.1 ∧
      ∀ x ∈ d, getPoints (deductLoop heap q n).1 x = 0 := by
  induction q generalizing heap n with
  | nil => exact ⟨[], rfl, by simp⟩
  | cons a q ih =>
    by_cases h1 : n > 0
    · by_cases h2 : n ≤ getPoints heap a
      · rw [deductLoop_cons_take _ _ _ _ h1 h2]
        by_cases h3 : getPoints (setPoints heap a (getPoints heap a - n)) a = 0
        · simp only [h3, if_true]
          refine ⟨[a], rfl, ?_⟩
          intro x hx
          rw [List.mem_singleton.mp hx]
          exact h3
        · simp only [h3, if_false]
          exact ⟨[], rfl, by simp⟩
      · rw [deductLoop_cons_skip _ _ _ _ h1 h2]
        obtain ⟨d, hd, hz⟩ := ih (setPoints heap a 0) (n - getPoints heap a)
        refine ⟨a :: d, by rw [List.cons_append, ← hd], ?_⟩
        intro x hx
        rcases List.mem_cons.mp hx with rfl | hx
        · exact deductLoop_zero_stays _ _ _ _ (getPoints_setPoints_zero heap x)
        · exact hz x hx
    · rw [deductLoop_cons_stop _ _ _ _ h1]
      exact ⟨[], rfl, by simp⟩

/-- Entries that are at 0 can be left out of the queue. -/
theorem deductLoop_filter (q : List Nat) (heap : Heap) (n : Int) (hq : q.Nodup) :
    (deductLoop heap (q.filter (fun x => decide (getPoints heap x ≠ 0))) n).1
        = (deductLoop heap q n).1 ∧
      (deductLoop heap (q.filter (fun x => decide (getPoints heap x ≠ 0))) n).2.2
        = (deductLoop heap q n).2.2 := by
  induction q generalizing heap n with
  | nil => exact ⟨rfl, rfl⟩
  | cons a q ih =>
    have haq : a ∉ q := (List.nodup_cons.mp hq).1
    have hqn : q.Nodup := (List.nodup_cons.mp hq).2
    by_cases h1 : n > 0
    · by_cases h0 : getPoints heap a = 0
      · have hf : (a :: q).filter (fun x => decide (getPoints heap x ≠ 0))
            = q.filter (fun x => decide (getPoints heap x ≠ 0)) := by
          simp [List.filter_cons, h0]
        have h2 : ¬ n ≤ getPoints heap a := by omega
        rw [hf, deductLoop_cons_skip _ _ _ _ h1 h2, h0, sub_zero]
        have hs : setPoints heap a 0 = heap := by
          have := setPoints_getPoints heap a
          rwa [h0] at this
        rw [hs]
        exact ih heap n hqn
      · have hf : (a :: q).filter (fun x => decide (getPoints heap x ≠ 0))
            = a :: q.filter (fun x => decide (getPoints heap x ≠ 0)) := by
          simp [List.filter_cons, h0]
        rw [hf]
        by_cases h2 : n ≤ getPoints heap a
        · rw [deductLoop_cons_take _ _ _ _ h1 h2, deductLoop_cons_take _ _ _ _ h1 h2]
          exact ⟨rfl, rfl⟩
        · rw [deductLoop_cons_skip _ _ _ _ h1 h2, deductLoop_cons_skip _ _ _ _ h1 h2]
          have hfe : q.filter (fun x => decide (getPoints heap x ≠ 0))
              = q.filter (fun x => decide (getPoints (setPoints heap a 0) x ≠ 0)) := by
            apply List.filter_congr
            intro x hx
            rw [getPoints_setPoints_ne _ _ _ _ (fun hc => haq (by rw [← hc]; exact hx))]
          rw [hfe]
          exact ih (setPoints heap a 0) (n - getPoints heap a) hqn
    · rw [deductLoop_of_nonpos _ _ _ (by omega), deductLoop_of_nonpos _ _ _ (by omega)]
      exact ⟨rfl, rfl⟩

/-- Two deductions in a row are one deduction of the sum. -/
theorem deductLoop_compose (q : List Nat) (heap : Heap) (a b : Int) (ha : 0 ≤ a)
    (hb : 0 ≤ b) :
    ((deductLoop heap q a).2.2 = 0 →
      deductLoop (deductLoop heap q a).1 (deductLoop heap q a).2.1 b
        = deductLoop heap q (a + b)) ∧
    ((deductLoop heap q a).2.2 ≠ 0 → (deductLoop heap q (a + b)).2.2 ≠ 0) := by
  induction q generalizing heap a with
  | nil =>
    constructor
    · intro h
      simp only [deductLoop] at h
      subst h
      simp [deductLoop]
    · intro h
      simp only [deductLoop] at h ⊢
      omega
  | cons x q ih =>
    by_cases h1 : a > 0
    · by_cases h2 : a ≤ getPoints heap x
      · have hlt : x < heap.length := lt_length_of_getPoints_ne_zero heap x (by omega)
        have hget : getPoints (setPoints heap x (getPoints heap x - a)) x
            = getPoints heap x - a := getPoints_setPoints_self _ _ _ hlt
        rw [deductLoop_cons_take _ _ _ _ h1 h2]
        refine ⟨fun _ => ?_, fun h => absurd rfl h⟩
        simp only [hget]
        by_cases hb0 : b > 0
        · by_cases h3 : a + b ≤ getPoints heap x
          · have hne : ¬ getPoints heap x - a = 0 := by omega
            rw [if_neg hne, deductLoop_cons_take _ _ _ _ hb0 (by rw [hget]; omega),
              deductLoop_cons_take _ _ _ _ (by omega) h3, hget, setPoints_setPoints]
            have e : getPoints heap x - a - b = getPoints heap x - (a + b) := by omega
            rw [e]
          · rw [deductLoop_cons_skip _ _ _ _ (by omega) h3]
            by_cases hz : getPoints heap x - a = 0
            · rw [if_pos hz, hz]
              have e : a + b - getPoints heap x = b := by omega
              rw [e]
            · rw [if_neg hz, deductLoop_cons_skip _ _ _ _ hb0 (by rw [hget]; omega), hget,
                setPoints_setPoints]
              have e : b - (getPoints heap x - a) = a + b - getPoints heap x := by omega
              rw [e]
        · have hb1 : b = 0 := by omega
          subst hb1
          rw [deductLoop_of_nonpos _ _ _ (le_refl 0), add_zero,
            deductLoop_cons_take _ _ _ _ h1 h2, hget]
      · rw [deductLoop_cons_skip _ _ _ _ h1 h2,
          deductLoop_cons_skip _ _ _ _ (by omega) (by omega)]
        have e : a + b - getPoints heap x = a - getPoints heap x + b := by omega
        rw [e]
        exact ih (setPoints heap x 0) (a - getPoints heap x) (by omega)
    · have ha0 : a = 0 := by omega
      subst ha0
      rw [deductLoop_cons_stop _ _ _ _ h1, zero_add]
      exact ⟨fun _ => rfl, fun h => absurd rfl h⟩

/-- C11 (cursor guarantee).  When `deductPoints` succeeds, the returned
queue is a suffix of the input queue, in the same order, every entry of the
input queue in front of that suffix has 0 points after the call, and no
entry of the arena changes its payer or its timestamp or is removed. -/
theorem C11_cursor_guarantee (heap : Heap) (q : List Nat) (n : Int) (heap1 : Heap)
    (q1 : List Nat) (h : deductPoints heap q n = some (heap1, q1)) :
    (∃ d, q = d ++ q1 ∧ ∀ x ∈ d, getPoints heap1 x = 0) ∧
    (∀ x ∈ q, x ∉ q1 → getPoints heap1 x = 0) ∧
    heap1.length = heap.length ∧
    (∀ x, getPayer heap1 x = getPayer heap x ∧
      getTimestamp heap1 x = getTimestamp heap x) := by
  obtain ⟨_, hr⟩ := (deductPoints_some_iff heap q n (heap1, q1)).mp h
  simp only [Prod.mk.injEq] at hr
  obtain ⟨rfl, rfl⟩ := hr
  obtain ⟨d, hd, hz⟩ := deductLoop_cursor q heap n
  refine ⟨⟨d, hd, hz⟩, ?_, deductLoop_length q heap n, ?_⟩
  · intro x hx hx1
    rw [hd] at hx
    rcases List.mem_append.mp hx with h1 | h1
    · exact hz x h1
    · exact absurd h1 hx1
  · intro x
    exact ⟨deductLoop_getPayer q heap n x, deductLoop_getTimestamp q heap n x⟩

/-- Witness of C11: `[5, 10, 15]` minus 12 returns the queue from the second
entry on, and the first entry is at 0. -/
theorem C11_cursor_guarantee_witness :
    getPoints [⟨"A", 0, 1⟩, ⟨"A", 3, 2⟩, ⟨"A", 15, 3⟩] 0 = 0 ∧
      ([⟨"A", 0, 1⟩, ⟨"A", 3, 2⟩, ⟨"A", 15, 3⟩] : Heap).length
        = ([⟨"A", 5, 1⟩, ⟨"A", 10, 2⟩, ⟨"A", 15, 3⟩] : Heap).length :=
  ⟨(C11_cursor_guarantee [⟨"A", 5, 1⟩, ⟨"A", 10, 2⟩, ⟨"A", 15, 3⟩] [0, 1, 2] 12
      [⟨"A", 0, 1⟩, ⟨"A", 3, 2⟩, ⟨"A", 15, 3⟩] [1, 2] (by decide)).2.1 0
      (by decide) (by decide),
    (C11_cursor_guarantee [⟨"A", 5, 1⟩, ⟨"A", 10, 2⟩, ⟨"A", 15, 3⟩] [0, 1, 2] 12
      [⟨"A", 0, 1⟩, ⟨"A", 3, 2⟩, ⟨"A", 15, 3⟩] [1, 2] (by decide)).2.2.1⟩

/-- C12 (tolerance of pre-zeroed entries).  For a queue of distinct entries
in which entries with 0 points stand at any positions, `deductPoints`
succeeds exactly when it succeeds on the queue without those entries, it
leaves every zero-point entry at 0, and it leaves the arena that the
deduction on the filtered queue leaves, so every other entry has the same
points. -/
theorem C12_prezeroed_entries (heap : Heap) (q : List Nat) (n : Int) (hq : q.Nodup) :
    (deductPoints heap q n = none ↔
      deductPoints heap (q.filter (fun x => decide (getPoints heap x ≠ 0))) n = none) ∧
    ∀ heap1 q1, deductPoints heap q n = some (heap1, q1) →
      (∃ q2, deductPoints heap (q.filter (fun x => decide (getPoints heap x ≠ 0))) n
        = some (heap1, q2)) ∧
      (∀ x ∈ q, getPoints heap x = 0 → getPoints heap1 x = 0) := by
  obtain ⟨hheap, hrem⟩ := deductLoop_filter q heap n hq
  constructor
  · constructor
    · intro h
      apply deductPoints_eq_none
      rw [hrem]
      intro hc
      rw [deductPoints_eq_some _ _ _ hc] at h
      cases h
    · intro h
      apply deductPoints_eq_none
      rw [← hrem]
      intro hc
      rw [deductPoints_eq_some _ _ _ hc] at h
      cases h
  · intro heap1 q1 h
    obtain ⟨hz, hr⟩ := (deductPoints_some_iff heap q n (heap1, q1)).mp h
    simp only [Prod.mk.injEq] at hr
    obtain ⟨rfl, rfl⟩ := hr
    constructor
    · refine ⟨(deductLoop heap
        (q.filter (fun x => decide (getPoints heap x ≠ 0))) n).2.1, ?_⟩
      rw [deductPoints_eq_some _ _ _ (by rw [hrem]; exact hz), hheap]
    · intro x _ hx
      exact deductLoop_zero_stays q heap n x hx

/-- Witness of C12: points `[0, 5, 0, 10]` and the amount 7; the filtered
queue holds the second and the fourth entry. -/
theorem C12_prezeroed_entries_witness :
    ∃ q2, deductPoints [⟨"A", 0, 1⟩, ⟨"A", 5, 2⟩, ⟨"A", 0, 3⟩, ⟨"A", 10, 4⟩] [1, 3] 7
      = some ([⟨"A", 0, 1⟩, ⟨"A", 0, 2⟩, ⟨"A", 0, 3⟩, ⟨"A", 8, 4⟩], q2) :=
  ((C12_prezeroed_entries [⟨"A", 0, 1⟩, ⟨"A", 5, 2⟩, ⟨"A", 0, 3⟩, ⟨"A", 10, 4⟩]
    [0, 1, 2, 3] 7 (by decide)).2
    [⟨"A", 0, 1⟩, ⟨"A", 0, 2⟩, ⟨"A", 0, 3⟩, ⟨"A", 8, 4⟩] [3] (by decide)).1

/-- C15 (a negative amount is always rejected).  For every queue and every
amount `n < 0`, the loop of `deductPoints` changes nothing and `deductPoints`
takes the insolvency exit; so `processTransactions` with a negative spend
never returns a map. -/
theorem C15_negative_amount (n : Int) (hn : n < 0) :
    (∀ (heap : Heap) (q : List Nat),
      deductPoints heap q n = none ∧ (deductLoop heap q n).1 = heap) ∧
    (∀ (sortFn : List Transaction → List Transaction) (txs : List Transaction),
      processTransactions sortFn txs n = none) := by
  have h1 : ∀ (heap : Heap) (q : List Nat),
      deductPoints heap q n = none ∧ (deductLoop heap q n).1 = heap := by
    intro heap q
    have h := deductLoop_of_nonpos heap q n (le_of_lt hn)
    constructor
    · apply deductPoints_eq_none
      rw [h]
      simp only []
      omega
    · rw [h]
  refine ⟨h1, ?_⟩
  intro sortFn txs
  unfold processTransactions processSorted
  cases ledgerPass (sortFn txs) with
  | none => rfl
  | some s => simp only [(h1 s.heap s.userBalance).1]

/-- Witness of C15: a payer holds 100 points and the spend is -1. -/
theorem C15_negative_amount_witness :
    deductPoints [⟨"A", 100, 1⟩] [0] (-1) = none ∧
      processTransactions stableSort [⟨"A", 100, 1⟩] (-1) = none :=
  ⟨((C15_negative_amount (-1) (by decide)).1 [⟨"A", 100, 1⟩] [0]).1,
    (C15_negative_amount (-1) (by decide)).2 stableSort [⟨"A", 100, 1⟩]⟩

/-- C16 (deductions compose additively).  For amounts `a, b ≥ 0`, a
deduction of `a` followed by a deduction of `b` from the returned queue is a
single deduction of `a + b`: one takes the insolvency exit exactly when the
other does, and otherwise they leave the same arena and return the same
queue. -/
theorem C16_compose (heap : Heap) (q : List Nat) (a b : Int) (ha : 0 ≤ a) (hb : 0 ≤ b) :
    (deductPoints heap q a).bind (fun r => deductPoints r.1 r.2 b)
      = deductPoints heap q (a + b) := by
  obtain ⟨h1, h2⟩ := deductLoop_compose q heap a b ha hb
  by_cases hz : (deductLoop heap q a).2.2 = 0
  · rw [deductPoints_eq_some _ _ _ hz]
    simp only [Option.bind]
    show deductPoints (deductLoop heap q a).1 (deductLoop heap q a).2.1 b = _
    unfold deductPoints
    rw [h1 hz]
  · rw [deductPoints_eq_none _ _ _ hz, deductPoints_eq_none _ _ _ (h2 hz)]
    rfl

/-- Witness of C16: 5 and then 7 from `[5, 10, 15]` is 12 from `[5, 10, 15]`. -/
theorem C16_compose_witness :
    (deductPoints [⟨"A", 5, 1⟩, ⟨"A", 10, 2⟩, ⟨"A", 15, 3⟩] [0, 1, 2] 5).bind
        (fun r => deductPoints r.1 r.2 7)
      = deductPoints [⟨"A", 5, 1⟩, ⟨"A", 10, 2⟩, ⟨"A", 15, 3⟩] [0, 1, 2] (5 + 7) :=
  C16_compose [⟨"A", 5, 1⟩, ⟨"A", 10, 2⟩, ⟨"A", 15, 3⟩] [0, 1, 2] 5 7
    (by decide) (by decide)

/-! ## Further properties of `processTransactions` -/

/-- Two sorted rearrangements of one log without repeated timestamps are
equal. -/
theorem sorted_perm_unique (l1 l2 : List Transaction) (hp : l1.Perm l2)
    (h1 : l1.Pairwise (fun a b => less b a = false))
    (h2 : l2.Pairwise (fun a b => less b a = false))
    (hnd : (l2.map Transaction.Timestamp).Nodup) : l1 = l2 := by
  have hmap : l1.map Transaction.Timestamp = l2.map Transaction.Timestamp :=
    List.eq_of_perm_of_sorted (hp.map Transaction.Timestamp)
      (sorted_timestamps _ h1) (sorted_timestamps _ h2)
  exact eq_of_map_eq_of_subset Transaction.Timestamp _ _ hmap
    (fun a ha => hp.mem_iff.mp ha) (fun a ha b hb hab => List.inj_on_of_nodup_map hnd ha hb hab)

/-- A step of the ledger loop never raises the points of an entry. -/
theorem ledgerStep_le (sorted : List Transaction) (k : Nat) (s s1 : Ledger)
    (inv : LedgerInv sorted k s) (hk : k < sorted.length)
    (hstep : ledgerStep s k = some s1) (x : Nat) :
    getPoints s1.heap x ≤ getPoints s.heap x := by
  by_cases hp : 0 < getPoints sorted k
  · obtain ⟨s2, hs2, hheap, _⟩ := ledgerInv_grant sorted k s inv hk hp
    rw [hstep] at hs2
    cases hs2
    rw [hheap]
  · have hsk : getPoints s.heap k = getPoints sorted k := inv.hfuture k (le_refl k)
    have hpk : getPayer s.heap k = getPayer sorted k := inv.hpayer k
    obtain ⟨hqn, _, hqpos, _⟩ := ledgerInv_queue sorted k s inv (getPayer sorted k)
    have h1 := ledgerStep_claw s k (by rw [hsk]; omega)
    rw [hpk, hsk, hstep] at h1
    obtain ⟨r, hr, hs1⟩ := Option.map_eq_some'.mp h1.symm
    obtain ⟨_, rfl⟩ := (deductPoints_some_iff _ _ _ _).mp hr
    rw [← hs1]
    exact (deductLoop_bounds _ s.heap (-(getPoints sorted k)) hqn hqpos x).1

/-- C13 (entry points invariant).  After every step of the ledger loop and
after the spend deduction, every grant has points `≥ 0` and no greater than
the points it was granted with, and neither a step of the ledger loop nor
the spend deduction raises the points of any entry. -/
theorem C13_entry_points (sorted : List Transaction) :
    (∀ (k : Nat) (s : Ledger), k ≤ sorted.length →
      ledgerLoop (initLedger sorted) (List.range k) = some s →
      ∀ x, 0 < getPoints sorted x →
        0 ≤ getPoints s.heap x ∧ getPoints s.heap x ≤ getPoints sorted x) ∧
    (∀ (k : Nat) (s s1 : Ledger), k < sorted.length →
      ledgerLoop (initLedger sorted) (List.range k) = some s →
      ledgerStep s k = some s1 →
      ∀ x, getPoints s1.heap x ≤ getPoints s.heap x) ∧
    (∀ (s : Ledger) (spend : Int) (heap1 : Heap) (q1 : List Nat),
      ledgerPass sorted = some s →
      deductPoints s.heap s.userBalance spend = some (heap1, q1) →
      ∀ x, getPoints heap1 x ≤ getPoints s.heap x ∧
        (0 < getPoints sorted x →
          0 ≤ getPoints heap1 x ∧ getPoints heap1 x ≤ getPoints sorted x)) := by
  refine ⟨?_, ?_, ?_⟩
  · intro k s hk hs x hx
    exact ((ledgerLoop_upto sorted k hk).1 s hs).hbounds x (le_of_lt hx)
  · intro k s s1 hk hs hstep x
    exact ledgerStep_le sorted k s s1 ((ledgerLoop_upto sorted k (le_of_lt hk)).1 s hs) hk
      hstep x
  · intro s spend heap1 q1 hs hd x
    have inv := ledgerPass_inv sorted s hs
    obtain ⟨hun, hup⟩ := ledgerInv_user _ _ s inv
    obtain ⟨_, hr⟩ := (deductPoints_some_iff _ _ _ _).mp hd
    simp only [Prod.mk.injEq] at hr
    obtain ⟨rfl, _⟩ := hr
    have hb := deductLoop_bounds _ s.heap spend hun hup x
    refine ⟨hb.1, ?_⟩
    intro hx
    have h1 := inv.hbounds x (le_of_lt hx)
    exact ⟨hb.2 h1.1, le_trans hb.1 h1.2⟩

/-- Witness of C13: in the end-to-end example the first grant of A is at 50
of its 100 points after the ledger loop. -/
theorem C13_entry_points_witness :
    0 ≤ getPoints [⟨"A", 50, 1⟩, ⟨"A", 200, 2⟩, ⟨"B", 300, 3⟩, ⟨"A", -50, 4⟩] 0 ∧
      getPoints [⟨"A", 50, 1⟩, ⟨"A", 200, 2⟩, ⟨"B", 300, 3⟩, ⟨"A", -50, 4⟩] 0
        ≤ getPoints [⟨"A", 100, 1⟩, ⟨"A", 200, 2⟩, ⟨"B", 300, 3⟩, ⟨"A", -50, 4⟩] 0 :=
  (C13_entry_points [⟨"A", 100, 1⟩, ⟨"A", 200, 2⟩, ⟨"B", 300, 3⟩, ⟨"A", -50, 4⟩]).1 4
    { heap := [⟨"A", 50, 1⟩, ⟨"A", 200, 2⟩, ⟨"B", 300, 3⟩, ⟨"A", -50, 4⟩]
      payerBalances := [("A", [0, 1]), ("B", [2])]
      userBalance := [0, 1, 2] }
    (by decide) (by decide) 0 (by decide)

/-- Zero spend on unbounded integers: when the ledger pass completes, a
spend of 0 returns a map that gives every payer of the log the sum of the
signed points of that payer's records. -/
theorem zero_spend_unbounded (sorted : List Transaction) (s : Ledger)
    (hpass : ledgerPass sorted = some s) :
    ∃ bal, processSorted sorted 0 = some bal ∧
      (∀ kv ∈ bal, kv.2
        = ((sorted.filter (fun t => decide (t.Payer = kv.1))).map
            Transaction.Points).sum) ∧
      ∀ t ∈ sorted,
        (t.Payer, ((sorted.filter (fun u => decide (u.Payer = t.Payer))).map
          Transaction.Points).sum) ∈ bal := by
  have hd : deductPoints s.heap s.userBalance 0 = some (s.heap, s.userBalance) := by
    rw [deductPoints_eq_some _ _ _ (by rw [deductLoop_of_nonpos _ _ _ (le_refl 0)]),
      deductLoop_of_nonpos _ _ _ (le_refl 0)]
  have hres : processSorted sorted 0 = some (tally s.heap s.payerBalances) := by
    unfold processSorted
    simp only [hpass, hd]
  have inv := ledgerPass_inv sorted s hpass
  obtain ⟨s2, hpass2, hval, hmem⟩ := processSorted_payers sorted 0 _ hres
  rw [hpass] at hpass2
  cases hpass2
  have hsum : ∀ P, ((payerEntries sorted sorted.length P).map
      (getPoints (deductLoop s.heap (positives sorted sorted.length) 0).1)).sum
      = ((sorted.filter (fun t => decide (t.Payer = P))).map Transaction.Points).sum := by
    intro P
    rw [deductLoop_of_nonpos _ _ _ (le_refl 0), inv.hbal P, balance_length]
  refine ⟨_, hres, ?_, ?_⟩
  · intro kv hkv
    rw [hval kv hkv, hsum]
  · intro t ht
    rw [← hsum]
    exact hmem t ht

/-- C17 (input-order independence).  For two event lists that are
rearrangements of one another and in which no two events share a timestamp,
and for every requested spend, `processTransactions` takes the insolvency
exit on both or returns the same map on both. -/
theorem C17_input_order (sortFn : List Transaction → List Transaction)
    (hs : SortContract sortFn) (txs1 txs2 : List Transaction) (hp : txs1.Perm txs2)
    (hd : (txs1.map Transaction.Timestamp).Nodup) (spend : Int) :
    processTransactions sortFn txs1 spend = processTransactions sortFn txs2 spend := by
  have hperm : (sortFn txs1).Perm (sortFn txs2) :=
    ((hs.perm txs1).trans hp).trans (hs.perm txs2).symm
  have hnd : ((sortFn txs2).map Transaction.Timestamp).Nodup :=
    ((((hs.perm txs2).trans hp.symm).map Transaction.Timestamp).nodup_iff).mpr hd
  unfold processTransactions
  rw [sorted_perm_unique _ _ hperm (hs.sorted txs1) (hs.sorted txs2) hnd]

/-- Witness of C17: the end-to-end example in two input orders. -/
theorem C17_input_order_witness :
    processTransactions tieReversingSort
        [⟨"A", 100, 1⟩, ⟨"A", 200, 2⟩, ⟨"B", 300, 3⟩, ⟨"A", -50, 4⟩] 200
      = processTransactions tieReversingSort
        [⟨"A", -50, 4⟩, ⟨"B", 300, 3⟩, ⟨"A", 100, 1⟩, ⟨"A", 200, 2⟩] 200 :=
  C17_input_order tieReversingSort tieReversingSort_contract
    [⟨"A", 100, 1⟩, ⟨"A", 200, 2⟩, ⟨"B", 300, 3⟩, ⟨"A", -50, 4⟩]
    [⟨"A", -50, 4⟩, ⟨"B", 300, 3⟩, ⟨"A", 100, 1⟩, ⟨"A", 200, 2⟩]
    (by decide) (by decide) 200

/-! ## Machine integers and unbounded integers -/

theorem wrap64_eq (x : Int) (h1 : minInt64 ≤ x) (h2 : x ≤ maxInt64) : wrap64 x = x := by
  unfold wrap64
  unfold minInt64 at h1
  unfold maxInt64 at h2
  omega

theorem inRange64_eq (x : Int) (h1 : minInt64 ≤ x) (h2 : x ≤ maxInt64) :
    inRange64 x = true := by
  simp [inRange64, h1, h2]

theorem getPoints_setPoints_cases (heap : Heap) (a x : Nat) (v : Int) :
    getPoints (setPoints heap a v) x = v ∨
      getPoints (setPoints heap a v) x = getPoints heap x := by
  by_cases hxa : x = a
  · subst hxa
    by_cases h : x < heap.length
    · exact Or.inl (getPoints_setPoints_self heap x v h)
    · have h1 : heap[x]? = none := List.getElem?_eq_none (Nat.le_of_not_lt h)
      right
      simp only [setPoints, h1]
  · exact Or.inr (getPoints_setPoints_ne heap a x v hxa)

/-- On a queue whose points lie between 0 and the greatest integer, and for
an amount that is no greater, the machine loop computes what the loop on
unbounded integers computes, and no result leaves the range. -/
theorem deductLoop64_eq (q : List Nat) (heap : Heap) (n : Int) (ok : Bool)
    (hq : ∀ x ∈ q, 0 ≤ getPoints heap x ∧ getPoints heap x ≤ maxInt64)
    (hn : n ≤ maxInt64) :
    deductLoop64 heap q n ok
      = ((deductLoop heap q n).1, (deductLoop heap q n).2.1, (deductLoop heap q n).2.2, ok) := by
  induction q generalizing heap n ok with
  | nil => rfl
  | cons a q ih =>
    have ha := hq a (List.mem_cons_self _ _)
    have hmin : minInt64 ≤ 0 := by decide
    by_cases h1 : n > 0
    · by_cases h2 : n ≤ getPoints heap a
      · have hw : wrap64 (getPoints heap a - n) = getPoints heap a - n :=
          wrap64_eq _ (by omega) (by omega)
        have hr : inRange64 (getPoints heap a - n) = true :=
          inRange64_eq _ (by omega) (by omega)
        rw [deductLoop_cons_take _ _ _ _ h1 h2]
        unfold deductLoop64
        simp only [h1, h2, if_true, hw, hr, Bool.and_true]
        split_ifs <;> rfl
      · have hw : wrap64 (n - getPoints heap a) = n - getPoints heap a :=
          wrap64_eq _ (by omega) (by omega)
        have hr : inRange64 (n - getPoints heap a) = true :=
          inRange64_eq _ (by omega) (by omega)
        rw [deductLoop_cons_skip _ _ _ _ h1 h2]
        conv_lhs => unfold deductLoop64
        simp only [h1, h2, if_true, if_false, hw, hr, Bool.and_true]
        apply ih
        · intro x hx
          have hx1 := hq x (List.mem_cons_of_mem _ hx)
          rcases getPoints_setPoints_cases heap a x 0 with h | h
          · rw [h]
            exact ⟨le_refl 0, by decide⟩
          · rw [h]
            exact hx1
        · omega
    · rw [deductLoop_cons_stop _ _ _ _ h1]
      unfold deductLoop64
      simp only [h1, if_false]

theorem deductPoints64_eq (q : List Nat) (heap : Heap) (n : Int) (ok : Bool)
    (hq : ∀ x ∈ q, 0 ≤ getPoints heap x ∧ getPoints heap x ≤ maxInt64)
    (hn : n ≤ maxInt64) :
    deductPoints64 heap q n ok = (deductPoints heap q n, ok) := by
  unfold deductPoints64 deductPoints
  rw [deductLoop64_eq q heap n ok hq hn]
  by_cases h : (deductLoop heap q n).2.2 = 0
  · simp [h]
  · simp [h]

theorem sum64_eq (heap : Heap) (l : List Nat) (acc : Int) (ok : Bool)
    (hl : ∀ x ∈ l, 0 ≤ getPoints heap x) (hacc : 0 ≤ acc)
    (hsum : acc + (l.map (getPoints heap)).sum ≤ maxInt64) :
    sum64 heap l acc ok = (acc + (l.map (getPoints heap)).sum, ok) := by
  induction l generalizing acc ok with
  | nil => simp [sum64]
  | cons a l ih =>
    have ha := hl a (List.mem_cons_self _ _)
    have hl1 : ∀ x ∈ l, 0 ≤ getPoints heap x := fun x hx => hl x (List.mem_cons_of_mem _ hx)
    have hs : 0 ≤ (l.map (getPoints heap)).sum :=
      List.sum_nonneg (map_getPoints_nonneg l heap hl1)
    have hmin : minInt64 ≤ 0 := by decide
    simp only [List.map_cons, List.sum_cons] at hsum ⊢
    have hw : wrap64 (acc + getPoints heap a) = acc + getPoints heap a :=
      wrap64_eq _ (by omega) (by omega)
    have hr : inRange64 (acc + getPoints heap a) = true :=
      inRange64_eq _ (by omega) (by omega)
    unfold sum64
    rw [hw, hr, Bool.and_true, ih _ _ hl1 (by omega) (by omega)]
    congr 1
    omega

theorem tally64_eq (heap : Heap) (m : List (String × List Nat)) (ok : Bool)
    (hm : ∀ kv ∈ m, (∀ x ∈ kv.2, 0 ≤ getPoints heap x) ∧
      (kv.2.map (getPoints heap)).sum ≤ maxInt64) :
    tally64 heap m ok = (tally heap m, ok) := by
  induction m generalizing ok with
  | nil => rfl
  | cons kv m ih =>
    obtain ⟨payer, log⟩ := kv
    have h1 := hm (payer, log) (List.mem_cons_self _ _)
    unfold tally64
    rw [sum64_eq heap log 0 ok h1.1 (le_refl 0) (by simpa using h1.2)]
    simp only [ih ok (fun kv hkv => hm kv (List.mem_cons_of_mem _ hkv)), zero_add]
    rfl

theorem ledgerStep64_eq (sorted : List Transaction) (k : Nat) (s : Ledger) (ok : Bool)
    (inv : LedgerInv sorted k s)
    (hb : ∀ x, minInt64 < getPoints sorted x ∧ getPoints sorted x ≤ maxInt64) :
    ledgerStep64 s k ok = (ledgerStep s k, ok) := by
  have hsk : getPoints s.heap k = getPoints sorted k := inv.hfuture k (le_refl k)
  by_cases hp : getPoints s.heap k > 0
  · rw [ledgerStep_grant s k hp]
    unfold ledgerStep64
    simp only [hp, if_true]
  · have hk1 := hb k
    have hw : wrap64 (-(getPoints s.heap k)) = -(getPoints s.heap k) := by
      apply wrap64_eq
      · have : minInt64 ≤ 0 := by decide
        omega
      · unfold maxInt64
        unfold minInt64 at hk1
        omega
    have hr : inRange64 (-(getPoints s.heap k)) = true := by
      apply inRange64_eq
      · have : minInt64 ≤ 0 := by decide
        omega
      · unfold maxInt64
        unfold minInt64 at hk1
        omega
    have hq : ∀ x ∈ mapGet s.payerBalances (getPayer s.heap k),
        0 ≤ getPoints s.heap x ∧ getPoints s.heap x ≤ maxInt64 := by
      intro x hx
      obtain ⟨_, hmem, hpos, _⟩ := ledgerInv_queue sorted k s inv (getPayer s.heap k)
      have h1 := (mem_payerEntries _ _ _ _).mp (hmem x hx)
      exact ⟨hpos x hx, le_trans (inv.hbounds x (le_of_lt h1.2.1)).2 (hb x).2⟩
    rw [ledgerStep_claw s k hp]
    unfold ledgerStep64
    simp only [hp, if_false, hw, hr, Bool.and_true]
    rw [deductPoints64_eq _ _ _ _ hq (by
      unfold maxInt64
      unfold minInt64 at hk1
      omega)]
    cases deductPoints s.heap (mapGet s.payerBalances (getPayer s.heap k))
        (-(getPoints s.heap k)) with
    | none => rfl
    | some r => rfl

theorem ledgerLoop64_append (s : Ledger) (l1 l2 : List Nat) (ok : Bool) :
    ledgerLoop64 s (l1 ++ l2) ok
      = match ledgerLoop64 s l1 ok with
        | (none, ok1) => (none, ok1)
        | (some s1, ok1) => ledgerLoop64 s1 l2 ok1 := by
  induction l1 generalizing s ok with
  | nil => rfl
  | cons a l1 ih =>
    simp only [List.cons_append, ledgerLoop64]
    rcases hstep : ledgerStep64 s a ok with ⟨_ | s1, ok1⟩
    · rfl
    · exact ih s1 ok1

/-- The machine ledger loop over the first `k` records computes what the
loop on unbounded integers computes, and no result leaves the range. -/
theorem ledgerLoop64_upto (sorted : List Transaction) (k : Nat) (hk : k ≤ sorted.length)
    (hb : ∀ x, minInt64 < getPoints sorted x ∧ getPoints sorted x ≤ maxInt64) :
    ledgerLoop64 (initLedger sorted) (List.range k) true
      = (ledgerLoop (initLedger sorted) (List.range k), true) := by
  induction k with
  | zero => rfl
  | succ k ih =>
    rw [List.range_succ, ledgerLoop64_append, ih (by omega), ← List.range_succ,
      ledgerLoop_range_succ]
    cases hprev : ledgerLoop (initLedger sorted) (List.range k) with
    | none => rfl
    | some s =>
      have inv := (ledgerLoop_upto sorted k (by omega)).1 s hprev
      simp only [ledgerLoop64, Option.bind]
      rw [ledgerStep64_eq sorted k s true inv hb]
      cases ledgerStep s k <;> rfl

theorem positives_sum (sorted : List Transaction) (k : Nat) (hk : k ≤ sorted.length) :
    ((positives sorted k).map (getPoints sorted)).sum
      = (((sorted.take k).filter (fun t => decide (0 < t.Points))).map
          Transaction.Points).sum := by
  induction k with
  | zero => simp [positives]
  | succ k ih =>
    have hk1 : k < sorted.length := by omega
    rw [positives_succ, List.take_succ, List.filter_append, List.map_append, List.map_append,
      List.sum_append, List.sum_append, ih (by omega)]
    congr 1
    simp only [getPoints, List.getElem?_eq_getElem hk1, Option.toList]
    by_cases h : 0 < sorted[k].Points
    · simp [List.filter_cons, h, getPoints, List.getElem?_eq_getElem hk1]
    · simp [List.filter_cons, h]

theorem mapGet_of_mem (m : List (String × List Nat)) (h : (m.map Prod.fst).Nodup)
    (kv : String × List Nat) (hkv : kv ∈ m) : mapGet m kv.1 = kv.2 := by
  induction m with
  | nil => cases hkv
  | cons a m ih =>
    obtain ⟨k1, v1⟩ := a
    have hk : k1 ∉ m.map Prod.fst := (List.nodup_cons.mp h).1
    rcases List.mem_cons.mp hkv with rfl | hmem
    · simp [mapGet]
    · have hne : k1 ≠ kv.1 := fun hc => hk (hc ▸ List.mem_map_of_mem Prod.fst hmem)
      simp only [mapGet, hne, if_false]
      exact ih (List.nodup_cons.mp h).2 hmem

/-- The points of a record of the log lie in the range when every record is
above the least integer and the grants add up to at most the greatest. -/
theorem points_in_range (sorted : List Transaction)
    (hmin : ∀ t ∈ sorted, minInt64 < t.Points)
    (hsum : ((sorted.filter (fun t => decide (0 < t.Points))).map Transaction.Points).sum
      ≤ maxInt64) (x : Nat) :
    minInt64 < getPoints sorted x ∧ getPoints sorted x ≤ maxInt64 := by
  by_cases hx : x < sorted.length
  · have hmem : sorted[x] ∈ sorted := List.getElem_mem hx
    have hg : getPoints sorted x = sorted[x].Points := by
      simp [getPoints, List.getElem?_eq_getElem hx]
    rw [hg]
    refine ⟨hmin _ hmem, ?_⟩
    by_cases hp : 0 < sorted[x].Points
    · have h1 : sorted[x].Points
          ∈ (sorted.filter (fun t => decide (0 < t.Points))).map Transaction.Points :=
        List.mem_map_of_mem _ (List.mem_filter.mpr ⟨hmem, by simpa using hp⟩)
      have h2 := List.single_le_sum (by
        intro p hp1
        obtain ⟨t, ht, rfl⟩ := List.mem_map.mp hp1
        have := (List.mem_filter.mp ht).2
        simp only [decide_eq_true_eq] at this
        omega) _ h1
      omega
    · have : (0 : Int) ≤ maxInt64 := by decide
      omega
  · rw [getPoints_eq_zero_of_le sorted x (by omega)]
    exact ⟨by decide, by decide⟩

/-- On a log within the size bound the machine program computes what the
program on unbounded integers computes, and no result leaves the range. -/
theorem processSorted64_eq (sorted : List Transaction) (spend : Int)
    (hmin : ∀ t ∈ sorted, minInt64 < t.Points)
    (hsum : ((sorted.filter (fun t => decide (0 < t.Points))).map Transaction.Points).sum
      ≤ maxInt64)
    (hspend : spend ≤ maxInt64) :
    processSorted64 sorted spend = (processSorted sorted spend, true) := by
  have hb := points_in_range sorted hmin hsum
  unfold processSorted64 processSorted ledgerPass
  rw [ledgerLoop64_upto sorted sorted.length (le_refl _) hb]
  cases hpass : ledgerLoop (initLedger sorted) (List.range sorted.length) with
  | none => rfl
  | some s =>
    have inv := ledgerPass_inv sorted s hpass
    obtain ⟨hun, hup⟩ := ledgerInv_user _ _ s inv
    have hq : ∀ x ∈ s.userBalance, 0 ≤ getPoints s.heap x ∧ getPoints s.heap x ≤ maxInt64 := by
      intro x hx
      have h1 : x ∈ positives sorted sorted.length := inv.huser ▸ hx
      exact ⟨hup x hx,
        le_trans (inv.hbounds x (le_of_lt ((mem_positives _ _ _).mp h1).2)).2 (hb x).2⟩
    simp only []
    rw [deductPoints64_eq _ _ _ _ hq hspend]
    cases hd : deductPoints s.heap s.userBalance spend with
    | none => rfl
    | some r =>
      obtain ⟨heap1, q1⟩ := r
      obtain ⟨_, hr⟩ := (deductPoints_some_iff _ _ _ _).mp hd
      simp only [Prod.mk.injEq] at hr
      obtain ⟨hheap, _⟩ := hr
      have hle : ∀ x, getPoints heap1 x ≤ getPoints s.heap x ∧
          (0 ≤ getPoints s.heap x → 0 ≤ getPoints heap1 x) := by
        intro x
        rw [hheap]
        exact deductLoop_bounds _ s.heap spend hun hup x
      have hpos1 : ∀ x ∈ positives sorted sorted.length, 0 ≤ getPoints heap1 x := by
        intro x hx
        exact (hle x).2 (inv.hbounds x (le_of_lt ((mem_positives _ _ _).mp hx).2)).1
      have htot : ((positives sorted sorted.length).map (getPoints heap1)).sum ≤ maxInt64 := by
        have h1 : ((positives sorted sorted.length).map (getPoints heap1)).sum
            ≤ ((positives sorted sorted.length).map (getPoints sorted)).sum := by
          apply List.sum_le_sum
          intro x hx
          exact le_trans (hle x).1
            (inv.hbounds x (le_of_lt ((mem_positives _ _ _).mp hx).2)).2
        rw [positives_sum sorted _ (le_refl _), List.take_length] at h1
        omega
      simp only []
      rw [tally64_eq heap1 s.payerBalances true (by
        intro kv hkv
        have hget := mapGet_of_mem s.payerBalances inv.hkeys kv hkv
        obtain ⟨d, hd1, _⟩ := inv.hqueue kv.1
        rw [hget] at hd1
        have hsub : kv.2.Sublist (positives sorted sorted.length) :=
          (hd1 ▸ List.sublist_append_right d kv.2).trans (List.filter_sublist _)
        refine ⟨fun x hx => hpos1 x (hsub.subset hx), ?_⟩
        have h2 := (hsub.map (getPoints heap1)).sum_le_sum (by
          intro p hp
          obtain ⟨y, hy, rfl⟩ := List.mem_map.mp hp
          exact hpos1 y hy)
        omega)]

/-- Outside the size bound the machine program does wrap: two grants of
`2^62` points to one payer add up to a negative balance. -/
theorem processTransactions64_wraps :
    processTransactions64 stableSort
        [⟨"A", 4611686018427387904, 1⟩, ⟨"A", 4611686018427387904, 2⟩] 0
      = (some [("A", -9223372036854775808)], false) := by
  decide

/-- C18 (no wrap-around under a size bound).  When every event's points are
greater than the least 64-bit signed integer, the grants add up to at most
the greatest one and the requested spend is in the 64-bit range, every
negation, subtraction and addition of `processTransactions` and
`deductPoints` on machine integers stays in the 64-bit range (the flag is
`true`), and the result is the result on unbounded integers. -/
theorem C18_no_wraparound (sortFn : List Transaction → List Transaction)
    (hs : SortContract sortFn) (txs : List Transaction) (spend : Int)
    (hmin : ∀ t ∈ txs, minInt64 < t.Points)
    (hsum : ((txs.filter (fun t => decide (0 < t.Points))).map Transaction.Points).sum
      ≤ maxInt64)
    (hspend : minInt64 ≤ spend ∧ spend ≤ maxInt64) :
    processTransactions64 sortFn txs spend = (processTransactions sortFn txs spend, true) := by
  unfold processTransactions64 processTransactions
  apply processSorted64_eq
  · intro t ht
    exact hmin t ((hs.perm txs).mem_iff.mp ht)
  · rw [(((hs.perm txs).filter _).map Transaction.Points).sum_eq]
    exact hsum
  · exact hspend.2

/-- Witness of C18: the end-to-end example on machine integers. -/
theorem C18_no_wraparound_witness :
    processTransactions64 stableSort
        [⟨"A", 100, 1⟩, ⟨"A", 200, 2⟩, ⟨"B", 300, 3⟩, ⟨"A", -50, 4⟩] 200
      = (processTransactions stableSort
          [⟨"A", 100, 1⟩, ⟨"A", 200, 2⟩, ⟨"B", 300, 3⟩, ⟨"A", -50, 4⟩] 200, true) :=
  C18_no_wraparound stableSort stableSort_contract
    [⟨"A", 100, 1⟩, ⟨"A", 200, 2⟩, ⟨"B", 300, 3⟩, ⟨"A", -50, 4⟩] 200
    (by decide) (by decide) (by decide)

/-! ## Machine integers under the bound on the grants alone -/

theorem deductLoop64_of_nonpos (heap : Heap) (q : List Nat) (n : Int) (ok : Bool)
    (h : n ≤ 0) : deductLoop64 heap q n ok = (heap, q, n, ok) := by
  cases q with
  | nil => rfl
  | cons a q =>
    have h1 : ¬ n > 0 := by omega
    unfold deductLoop64
    simp only [h1, if_false]

theorem deductPoints64_neg (heap : Heap) (q : List Nat) (n : Int) (ok : Bool) (h : n < 0) :
    deductPoints64 heap q n ok = (none, ok) := by
  unfold deductPoints64
  rw [deductLoop64_of_nonpos heap q n ok (le_of_lt h)]
  have h1 : n ≠ 0 := by omega
  simp [h1]

theorem points_le_max (sorted : List Transaction)
    (hsum : ((sorted.filter (fun t => decide (0 < t.Points))).map Transaction.Points).sum
      ≤ maxInt64) (x : Nat) : getPoints sorted x ≤ maxInt64 := by
  by_cases hx : x < sorted.length
  · have hmem : sorted[x] ∈ sorted := List.getElem_mem hx
    have hg : getPoints sorted x = sorted[x].Points := by
      simp [getPoints, List.getElem?_eq_getElem hx]
    rw [hg]
    by_cases hp : 0 < sorted[x].Points
    · have h1 : sorted[x].Points
          ∈ (sorted.filter (fun t => decide (0 < t.Points))).map Transaction.Points :=
        List.mem_map_of_mem _ (List.mem_filter.mpr ⟨hmem, by simpa using hp⟩)
      have h2 := List.single_le_sum (by
        intro p hp1
        obtain ⟨t, ht, rfl⟩ := List.mem_map.mp hp1
        have := (List.mem_filter.mp ht).2
        simp only [decide_eq_true_eq] at this
        omega) _ h1
      omega
    · have : (0 : Int) ≤ maxInt64 := by decide
      omega
  · rw [getPoints_eq_zero_of_le sorted x (by omega)]
    decide

theorem points_ge_min (sorted : List Transaction)
    (hmin : ∀ t ∈ sorted, minInt64 ≤ t.Points) (x : Nat) : minInt64 ≤ getPoints sorted x := by
  by_cases hx : x < sorted.length
  · have hg : getPoints sorted x = sorted[x].Points := by
      simp [getPoints, List.getElem?_eq_getElem hx]
    rw [hg]
    exact hmin _ (List.getElem_mem hx)
  · rw [getPoints_eq_zero_of_le sorted x (by omega)]
    decide

/-- The points left on any part of the grants of a prefix add up to at most
the greatest integer when the grants of the log do. -/
theorem grants_sum_le (sorted : List Transaction) (k : Nat) (s : Ledger)
    (inv : LedgerInv sorted k s)
    (hsum : ((sorted.filter (fun t => decide (0 < t.Points))).map Transaction.Points).sum
      ≤ maxInt64)
    (f : Nat → Int)
    (hf : ∀ x ∈ positives sorted k, 0 ≤ f x ∧ f x ≤ getPoints s.heap x)
    (l : List Nat) (hl : l.Sublist (positives sorted k)) :
    (l.map f).sum ≤ maxInt64 := by
  have h1 : (l.map f).sum ≤ ((positives sorted k).map f).sum :=
    (hl.map f).sum_le_sum (by
      intro p hp
      obtain ⟨y, hy, rfl⟩ := List.mem_map.mp hp
      exact (hf y hy).1)
  have h2 : ((positives sorted k).map f).sum
      ≤ ((positives sorted k).map (getPoints sorted)).sum := by
    apply List.sum_le_sum
    intro x hx
    exact le_trans (hf x hx).2
      (inv.hbounds x (le_of_lt ((mem_positives _ _ _).mp hx).2)).2
  have h3 : (((sorted.take k).filter (fun t => decide (0 < t.Points))).map
      Transaction.Points).sum
      ≤ ((sorted.filter (fun t => decide (0 < t.Points))).map Transaction.Points).sum :=
    (((List.take_sublist k sorted).filter _).map Transaction.Points).sum_le_sum (by
      intro p hp
      obtain ⟨t, ht, rfl⟩ := List.mem_map.mp hp
      have := (List.mem_filter.mp ht).2
      simp only [decide_eq_true_eq] at this
      omega)
  rw [positives_sum sorted k inv.hk] at h2
  omega

/-- A step of the machine ledger loop returns what the step on unbounded
integers returns, when the points are machine integers and the grants add
up to at most the greatest integer.  A clawback of the least integer wraps
to a negative amount and exits, and on unbounded integers it exceeds every
balance and exits too. -/
theorem ledgerStep64_fst (sorted : List Transaction) (k : Nat) (s : Ledger) (ok : Bool)
    (inv : LedgerInv sorted k s)
    (hmin : ∀ t ∈ sorted, minInt64 ≤ t.Points)
    (hsum : ((sorted.filter (fun t => decide (0 < t.Points))).map Transaction.Points).sum
      ≤ maxInt64) :
    (ledgerStep64 s k ok).1 = ledgerStep s k := by
  have hsk : getPoints s.heap k = getPoints sorted k := inv.hfuture k (le_refl k)
  have hpmin : minInt64 ≤ getPoints s.heap k := hsk ▸ points_ge_min sorted hmin k
  obtain ⟨hqn, hqmem, hqpos, _⟩ := ledgerInv_queue sorted k s inv (getPayer s.heap k)
  have hqsub : (mapGet s.payerBalances (getPayer s.heap k)).Sublist (positives sorted k) := by
    obtain ⟨d, hd1, _⟩ := inv.hqueue (getPayer s.heap k)
    exact (hd1 ▸ List.sublist_append_right d _).trans (List.filter_sublist _)
  by_cases hp : getPoints s.heap k > 0
  · rw [ledgerStep_grant s k hp]
    unfold ledgerStep64
    simp only [hp, if_true]
  · rw [ledgerStep_claw s k hp]
    by_cases hpm : minInt64 < getPoints s.heap k
    · have hw : wrap64 (-(getPoints s.heap k)) = -(getPoints s.heap k) := by
        apply wrap64_eq
        · have : minInt64 ≤ 0 := by decide
          omega
        · unfold maxInt64
          unfold minInt64 at hpm
          omega
      have hq : ∀ x ∈ mapGet s.payerBalances (getPayer s.heap k),
          0 ≤ getPoints s.heap x ∧ getPoints s.heap x ≤ maxInt64 := by
        intro x hx
        have h1 := (mem_payerEntries _ _ _ _).mp (hqmem x hx)
        exact ⟨hqpos x hx,
          le_trans (inv.hbounds x (le_of_lt h1.2.1)).2 (points_le_max sorted hsum x)⟩
      unfold ledgerStep64
      simp only [hp, if_false, hw]
      rw [deductPoints64_eq _ _ _ _ hq (by
        unfold maxInt64
        unfold minInt64 at hpm
        omega)]
      cases deductPoints s.heap (mapGet s.payerBalances (getPayer s.heap k))
          (-(getPoints s.heap k)) with
      | none => rfl
      | some r => rfl
    · have hpe : getPoints s.heap k = minInt64 := by omega
      have hw : wrap64 (-(getPoints s.heap k)) = minInt64 := by
        rw [hpe]
        decide
      have hq := grants_sum_le sorted k s inv hsum (getPoints s.heap)
        (fun x hx => ⟨(inv.hbounds x (le_of_lt ((mem_positives _ _ _).mp hx).2)).1,
          le_refl _⟩) _ hqsub
      have hnone : deductPoints s.heap (mapGet s.payerBalances (getPayer s.heap k))
          (-(getPoints s.heap k)) = none := by
        apply (deductPoints_eq_none_iff _ _ _ hqn hqpos (by
          rw [hpe]
          decide)).mpr
        rw [hpe]
        unfold maxInt64 at hq
        unfold minInt64
        omega
      unfold ledgerStep64
      simp only [hp, if_false, hw, hnone, Option.map_none',
        deductPoints64_neg _ _ minInt64 _ (by decide)]

/-- The machine ledger loop over the first `k` records returns what the loop
on unbounded integers returns. -/
theorem ledgerLoop64_fst (sorted : List Transaction) (k : Nat) (hk : k ≤ sorted.length)
    (hmin : ∀ t ∈ sorted, minInt64 ≤ t.Points)
    (hsum : ((sorted.filter (fun t => decide (0 < t.Points))).map Transaction.Points).sum
      ≤ maxInt64) :
    (ledgerLoop64 (initLedger sorted) (List.range k) true).1
      = ledgerLoop (initLedger sorted) (List.range k) := by
  induction k with
  | zero => rfl
  | succ k ih =>
    have ih1 := ih (by omega)
    rw [List.range_succ, ledgerLoop64_append, ← List.range_succ, ledgerLoop_range_succ,
      ← ih1]
    rcases hprev : ledgerLoop64 (initLedger sorted) (List.range k) true with ⟨_ | s, ok1⟩
    · rfl
    · have hs : ledgerLoop (initLedger sorted) (List.range k) = some s := by
        rw [← ih1, hprev]
      have inv := (ledgerLoop_upto sorted k (by omega)).1 s hs
      have hstep := ledgerStep64_fst sorted k s ok1 inv hmin hsum
      simp only [ledgerLoop64, Option.bind]
      rcases hst : ledgerStep64 s k ok1 with ⟨_ | s1, ok2⟩
      · rw [hst] at hstep
        exact hstep
      · rw [hst] at hstep
        exact hstep

/-- After a successful spend the machine tally computes the tally on
unbounded integers. -/
theorem tally64_after_spend (sorted : List Transaction) (s : Ledger) (spend : Int)
    (heap1 : Heap) (q1 : List Nat) (ok : Bool)
    (inv : LedgerInv sorted sorted.length s)
    (hsum : ((sorted.filter (fun t => decide (0 < t.Points))).map Transaction.Points).sum
      ≤ maxInt64)
    (hd : deductPoints s.heap s.userBalance spend = some (heap1, q1)) :
    tally64 heap1 s.payerBalances ok = (tally heap1 s.payerBalances, ok) := by
  obtain ⟨hun, hup⟩ := ledgerInv_user _ _ s inv
  obtain ⟨_, hr⟩ := (deductPoints_some_iff _ _ _ _).mp hd
  simp only [Prod.mk.injEq] at hr
  obtain ⟨hheap, _⟩ := hr
  have hle : ∀ x ∈ positives sorted sorted.length,
      0 ≤ getPoints heap1 x ∧ getPoints heap1 x ≤ getPoints s.heap x := by
    intro x hx
    rw [hheap]
    have hb := deductLoop_bounds _ s.heap spend hun hup x
    exact ⟨hb.2 (inv.hbounds x (le_of_lt ((mem_positives _ _ _).mp hx).2)).1, hb.1⟩
  apply tally64_eq
  intro kv hkv
  have hget := mapGet_of_mem s.payerBalances inv.hkeys kv hkv
  obtain ⟨d, hd1, _⟩ := inv.hqueue kv.1
  rw [hget] at hd1
  have hsub : kv.2.Sublist (positives sorted sorted.length) :=
    (hd1 ▸ List.sublist_append_right d kv.2).trans (List.filter_sublist _)
  exact ⟨fun x hx => (hle x (hsub.subset hx)).1,
    grants_sum_le sorted _ s inv hsum (getPoints heap1) hle kv.2 hsub⟩

/-- The machine program returns what the program on unbounded integers
returns, when the points are machine integers, the grants add up to at most
the greatest integer and the spend is a machine integer. -/
theorem processSorted64_fst (sorted : List Transaction) (spend : Int)
    (hmin : ∀ t ∈ sorted, minInt64 ≤ t.Points)
    (hsum : ((sorted.filter (fun t => decide (0 < t.Points))).map Transaction.Points).sum
      ≤ maxInt64)
    (hspend : spend ≤ maxInt64) :
    (processSorted64 sorted spend).1 = processSorted sorted spend := by
  have hloop := ledgerLoop64_fst sorted sorted.length (le_refl _) hmin hsum
  unfold processSorted64 processSorted ledgerPass
  rcases hprev : ledgerLoop64 (initLedger sorted) (List.range sorted.length) true
    with ⟨_ | s, ok1⟩
  · rw [hprev] at hloop
    rw [← hloop]
  · rw [hprev] at hloop
    rw [← hloop]
    have inv := ledgerPass_inv sorted s hloop.symm
    obtain ⟨hun, hup⟩ := ledgerInv_user _ _ s inv
    have hq : ∀ x ∈ s.userBalance, 0 ≤ getPoints s.heap x ∧ getPoints s.heap x ≤ maxInt64 := by
      intro x hx
      have h1 : x ∈ positives sorted sorted.length := inv.huser ▸ hx
      exact ⟨hup x hx,
        le_trans (inv.hbounds x (le_of_lt ((mem_positives _ _ _).mp h1).2)).2
          (points_le_max sorted hsum x)⟩
    simp only []
    rw [deductPoints64_eq _ _ _ _ hq hspend]
    cases hd : deductPoints s.heap s.userBalance spend with
    | none => rfl
    | some r =>
      obtain ⟨heap1, q1⟩ := r
      simp only []
      rw [tally64_after_spend sorted s spend heap1 q1 ok1 inv hsum hd]

theorem processTransactions64_fst (sortFn : List Transaction → List Transaction)
    (hs : SortContract sortFn) (txs : List Transaction) (spend : Int)
    (hmin : ∀ t ∈ txs, minInt64 ≤ t.Points)
    (hsum : ((txs.filter (fun t => decide (0 < t.Points))).map Transaction.Points).sum
      ≤ maxInt64)
    (hspend : spend ≤ maxInt64) :
    (processTransactions64 sortFn txs spend).1 = processTransactions sortFn txs spend := by
  unfold processTransactions64 processTransactions
  apply processSorted64_fst
  · intro t ht
    exact hmin t ((hs.perm txs).mem_iff.mp ht)
  · rw [(((hs.perm txs).filter _).map Transaction.Points).sum_eq]
    exact hsum
  · exact hspend

/-! ## Claims on the machine program -/

/-- C1 (conservation), counterexample.  Two grants of `2^62` points to one
payer and a spend of 0: the program returns the balance `-2^63` for the
payer, while the grants add up to `2^63`. -/
theorem C1_conservation_counterexample :
    ∃ bal, (processTransactions64 stableSort
        [⟨"A", 4611686018427387904, 1⟩, ⟨"A", 4611686018427387904, 2⟩] 0).1 = some bal ∧
      (bal.map Prod.snd).sum
        ≠ ((([⟨"A", 4611686018427387904, 1⟩, ⟨"A", 4611686018427387904, 2⟩] :
              List Transaction).filter (fun t => decide (0 < t.Points))).map
            Transaction.Points).sum
          - ((([⟨"A", 4611686018427387904, 1⟩, ⟨"A", 4611686018427387904, 2⟩] :
              List Transaction).filter (fun t => decide (t.Points ≤ 0))).map
            (fun t => |t.Points|)).sum
          - 0 :=
  ⟨[("A", -9223372036854775808)], by decide, by decide⟩

/-- C1 (conservation), amended.  When the points of the events and the spend
are 64-bit integers and the points of the grants add up to at most the
greatest 64-bit integer, then whenever `processTransactions` returns a map,
the sum of its values equals the sum of the points of the events with
points > 0, minus the sum of the magnitudes of the events with points ≤ 0,
minus the requested spend. -/
theorem C1_conservation_bounded (sortFn : List Transaction → List Transaction)
    (hs : SortContract sortFn) (txs : List Transaction) (spend : Int)
    (bal : List (String × Int))
    (hmin : ∀ t ∈ txs, minInt64 ≤ t.Points)
    (hsum : ((txs.filter (fun t => decide (0 < t.Points))).map Transaction.Points).sum
      ≤ maxInt64)
    (hspend : minInt64 ≤ spend ∧ spend ≤ maxInt64)
    (h : (processTransactions64 sortFn txs spend).1 = some bal) :
    (bal.map Prod.snd).sum
      = ((txs.filter (fun t => decide (0 < t.Points))).map Transaction.Points).sum
        - ((txs.filter (fun t => decide (t.Points ≤ 0))).map (fun t => |t.Points|)).sum
        - spend := by
  rw [processTransactions64_fst sortFn hs txs spend hmin hsum hspend.2] at h
  exact conservation_unbounded sortFn hs txs spend bal h

/-- Witness of C1 amended: the end-to-end example, 600 granted, 50 clawed
back, 200 spent. -/
theorem C1_conservation_bounded_witness :
    (([("A", 50), ("B", 300)] : List (String × Int)).map Prod.snd).sum
      = (100 + 200 + 300 : Int) - 50 - 200 := by
  have h := C1_conservation_bounded stableSort stableSort_contract
    [⟨"A", 100, 1⟩, ⟨"A", 200, 2⟩, ⟨"B", 300, 3⟩, ⟨"A", -50, 4⟩] 200
    [("A", 50), ("B", 300)] (by decide) (by decide) (by decide) (by decide)
  rw [h]
  decide

/-- C2 (non-negativity), counterexample.  Two grants of `2^62` points to one
payer and a spend of 0: the program returns a map, without the insolvency
exit, in which the payer has the balance `-2^63`. -/
theorem C2_nonnegativity_counterexample :
    ∃ bal, (processTransactions64 stableSort
        [⟨"A", 4611686018427387904, 1⟩, ⟨"A", 4611686018427387904, 2⟩] 0).1 = some bal ∧
      ∃ kv ∈ bal, kv.2 < 0 :=
  ⟨[("A", -9223372036854775808)], by decide, ("A", -9223372036854775808), by decide,
    by decide⟩

/-- C2 (non-negativity), amended.  When the points of the events and the
spend are 64-bit integers and the points of the grants add up to at most
the greatest 64-bit integer, then whenever `processTransactions` returns a
map, every value in it is `≥ 0`; and every payer of the input has a value
in it. -/
theorem C2_nonnegativity_bounded (sortFn : List Transaction → List Transaction)
    (hs : SortContract sortFn) (txs : List Transaction) (spend : Int)
    (bal : List (String × Int))
    (hmin : ∀ t ∈ txs, minInt64 ≤ t.Points)
    (hsum : ((txs.filter (fun t => decide (0 < t.Points))).map Transaction.Points).sum
      ≤ maxInt64)
    (hspend : minInt64 ≤ spend ∧ spend ≤ maxInt64)
    (h : (processTransactions64 sortFn txs spend).1 = some bal) :
    (∀ kv ∈ bal, 0 ≤ kv.2) ∧ ∀ t ∈ txs, ∃ kv ∈ bal, kv.1 = t.Payer := by
  rw [processTransactions64_fst sortFn hs txs spend hmin hsum hspend.2] at h
  refine ⟨nonnegativity_unbounded sortFn txs spend bal h, ?_⟩
  intro t ht
  obtain ⟨_, _, _, hmem⟩ := processSorted_payers (sortFn txs) spend bal h
  exact ⟨_, hmem t ((hs.perm txs).mem_iff.mpr ht), rfl⟩

/-- Witness of C2 amended: both balances of the end-to-end example. -/
theorem C2_nonnegativity_bounded_witness : (0 : Int) ≤ 50 ∧ (0 : Int) ≤ 300 :=
  ⟨(C2_nonnegativity_bounded stableSort stableSort_contract
      [⟨"A", 100, 1⟩, ⟨"A", 200, 2⟩, ⟨"B", 300, 3⟩, ⟨"A", -50, 4⟩] 200
      [("A", 50), ("B", 300)] (by decide) (by decide) (by decide) (by decide)).1
      ("A", 50) (by decide),
    (C2_nonnegativity_bounded stableSort stableSort_contract
      [⟨"A", 100, 1⟩, ⟨"A", 200, 2⟩, ⟨"B", 300, 3⟩, ⟨"A", -50, 4⟩] 200
      [("A", 50), ("B", 300)] (by decide) (by decide) (by decide) (by decide)).1
      ("B", 300) (by decide)⟩

/-- C5 (payer solvency), counterexample.  On the log `(A, 2^63 - 1, t1)`,
`(A, 1, t2)`, `(A, -2^63, t3)`, which is in timestamp order, the negation of
the clawback wraps to a negative amount and the ledger loop takes the
insolvency exit, although no prefix gives a payer a negative sum. -/
theorem C5_payer_solvency_counterexample :
    stableSort [⟨"A", 9223372036854775807, 1⟩, ⟨"A", 1, 2⟩, ⟨"A", -9223372036854775808, 3⟩]
      = [⟨"A", 9223372036854775807, 1⟩, ⟨"A", 1, 2⟩, ⟨"A", -9223372036854775808, 3⟩] ∧
    (ledgerLoop64
      (initLedger
        [⟨"A", 9223372036854775807, 1⟩, ⟨"A", 1, 2⟩, ⟨"A", -9223372036854775808, 3⟩])
      (List.range 3) true).1 = none ∧
    ¬ ∃ k, k ≤ 3 ∧ ∃ P, balance
        [⟨"A", 9223372036854775807, 1⟩, ⟨"A", 1, 2⟩, ⟨"A", -9223372036854775808, 3⟩] k P
      < 0 := by
  refine ⟨by decide, by decide, ?_⟩
  intro h
  have h1 := (ledgerLoop_upto
    [⟨"A", 9223372036854775807, 1⟩, ⟨"A", 1, 2⟩, ⟨"A", -9223372036854775808, 3⟩] 3
    (by decide)).2.mpr h
  revert h1
  decide

/-- C5 (payer solvency), amended.  When the points of the events are 64-bit
integers and either no event has the least 64-bit integer as its points or
the points of the grants add up to at most the greatest 64-bit integer, the
clawback loop, on the events in the order in which they are processed, takes
the insolvency exit if and only if some prefix of that sequence gives some
payer a negative sum of signed points.  A grant that comes after a clawback
does not rescue it. -/
theorem C5_payer_solvency_bounded (sortFn : List Transaction → List Transaction)
    (hs : SortContract sortFn) (txs : List Transaction)
    (hrange : ∀ t ∈ txs, minInt64 ≤ t.Points ∧ t.Points ≤ maxInt64)
    (hb : (∀ t ∈ txs, t.Points ≠ minInt64) ∨
      ((txs.filter (fun t => decide (0 < t.Points))).map Transaction.Points).sum ≤ maxInt64) :
    ((ledgerLoop64 (initLedger (sortFn txs)) (List.range (sortFn txs).length) true).1 = none ↔
      ∃ k, k ≤ (sortFn txs).length ∧ ∃ P, balance (sortFn txs) k P < 0) ∧
    (processTransactions64 stableSort [⟨"A", 100, 2⟩, ⟨"A", -50, 1⟩] 0).1 = none ∧
    (processTransactions64 stableSort [⟨"A", 100, 1⟩, ⟨"A", -50, 2⟩] 0).1
      = some [("A", 50)] := by
  refine ⟨?_, by decide, by decide⟩
  have hfst : (ledgerLoop64 (initLedger (sortFn txs)) (List.range (sortFn txs).length) true).1
      = ledgerLoop (initLedger (sortFn txs)) (List.range (sortFn txs).length) := by
    rcases hb with hne | hsum
    · rw [ledgerLoop64_upto (sortFn txs) _ (le_refl _) (by
        intro x
        by_cases hx : x < (sortFn txs).length
        · have hmem : (sortFn txs)[x] ∈ txs :=
            (hs.perm txs).mem_iff.mp (List.getElem_mem hx)
          have hg : getPoints (sortFn txs) x = (sortFn txs)[x].Points := by
            simp [getPoints, List.getElem?_eq_getElem hx]
          rw [hg]
          have h1 := hrange _ hmem
          have h2 := hne _ hmem
          exact ⟨lt_of_le_of_ne h1.1 (Ne.symm h2), h1.2⟩
        · rw [getPoints_eq_zero_of_le _ x (by omega)]
          exact ⟨by decide, by decide⟩)]
    · apply ledgerLoop64_fst _ _ (le_refl _)
      · intro t ht
        exact (hrange t ((hs.perm txs).mem_iff.mp ht)).1
      · rw [(((hs.perm txs).filter _).map Transaction.Points).sum_eq]
        exact hsum
  rw [hfst]
  exact (ledgerLoop_upto (sortFn txs) (sortFn txs).length (le_refl _)).2

/-- Witness of C5 amended: the clawback of 50 comes before the grant of 100,
so the first prefix gives A the sum -50 and the loop exits. -/
theorem C5_payer_solvency_bounded_witness :
    (ledgerLoop64 (initLedger (stableSort [⟨"A", 100, 2⟩, ⟨"A", -50, 1⟩]))
        (List.range (stableSort [⟨"A", 100, 2⟩, ⟨"A", -50, 1⟩]).length) true).1 = none ↔
      ∃ k, k ≤ (stableSort [⟨"A", 100, 2⟩, ⟨"A", -50, 1⟩]).length ∧
        ∃ P, balance (stableSort [⟨"A", 100, 2⟩, ⟨"A", -50, 1⟩]) k P < 0 :=
  (C5_payer_solvency_bounded stableSort stableSort_contract
    [⟨"A", 100, 2⟩, ⟨"A", -50, 1⟩] (by decide) (Or.inl (by decide))).1

/-- C7 (global oldest-first allocation), counterexample.  Two grants of
`2^62` points to payer A and a spend of 0: no clawback and no spend touches
the two entries, which keep `2^62` points each, yet the balance returned for
A is `-2^63` and not their sum. -/
theorem C7_oldest_first_counterexample :
    stableSort [⟨"A", 4611686018427387904, 1⟩, ⟨"A", 4611686018427387904, 2⟩]
      = [⟨"A", 4611686018427387904, 1⟩, ⟨"A", 4611686018427387904, 2⟩] ∧
    ∃ bal s heap1 q1,
      (processTransactions64 stableSort
        [⟨"A", 4611686018427387904, 1⟩, ⟨"A", 4611686018427387904, 2⟩] 0).1 = some bal ∧
      (ledgerLoop64
        (initLedger [⟨"A", 4611686018427387904, 1⟩, ⟨"A", 4611686018427387904, 2⟩])
        (List.range 2) true).1 = some s ∧
      (deductPoints64 s.heap
        (positives [⟨"A", 4611686018427387904, 1⟩, ⟨"A", 4611686018427387904, 2⟩] 2)
        0 true).1 = some (heap1, q1) ∧
      ∃ kv ∈ bal, kv.2
        ≠ ((payerEntries [⟨"A", 4611686018427387904, 1⟩, ⟨"A", 4611686018427387904, 2⟩]
            2 kv.1).map (getPoints heap1)).sum :=
  ⟨by decide, [("A", -9223372036854775808)],
    { heap := [⟨"A", 4611686018427387904, 1⟩, ⟨"A", 4611686018427387904, 2⟩]
      payerBalances := [("A", [0, 1])]
      userBalance := [0, 1] },
    [⟨"A", 4611686018427387904, 1⟩, ⟨"A", 4611686018427387904, 2⟩], [0, 1],
    by decide, by decide, by decide, ("A", -9223372036854775808), by decide, by decide⟩

/-- C7 (global oldest-first allocation), amended.  When the points of the
events and the spend are 64-bit integers and the points of the grants add up
to at most the greatest 64-bit integer, then whenever `processTransactions`
returns a map, every payer of the input has a balance in it, and the balance
of each payer is the sum, over that payer's grants, of the points left after
the clawback pass and one FIFO deduction of the requested spend over the
grants of all payers in ascending timestamp order.  Grants `(A,100,t1)`,
`(A,200,t2)`, `(B,300,t3)`, clawback `(A,-50,t4)` with `t1 < t2 < t3 < t4`
and spend 200 give `A: 50, B: 300`. -/
theorem C7_oldest_first_bounded (sortFn : List Transaction → List Transaction)
    (hs : SortContract sortFn) :
    (∀ (txs : List Transaction) (spend : Int) (bal : List (String × Int)),
      (∀ t ∈ txs, minInt64 ≤ t.Points) →
      ((txs.filter (fun t => decide (0 < t.Points))).map Transaction.Points).sum
        ≤ maxInt64 →
      (minInt64 ≤ spend ∧ spend ≤ maxInt64) →
      (processTransactions64 sortFn txs spend).1 = some bal →
      ∃ s heap1 q1,
        (ledgerLoop64 (initLedger (sortFn txs)) (List.range (sortFn txs).length) true).1
          = some s ∧
        (deductPoints64 s.heap (positives (sortFn txs) (sortFn txs).length) spend true).1
          = some (heap1, q1) ∧
        (positives (sortFn txs) (sortFn txs).length).map (getPoints heap1)
          = drain ((positives (sortFn txs) (sortFn txs).length).map (getPoints s.heap))
              spend ∧
        (positives (sortFn txs) (sortFn txs).length).Pairwise
          (fun x y => getTimestamp (sortFn txs) x ≤ getTimestamp (sortFn txs) y) ∧
        (∀ kv ∈ bal, kv.2
          = ((payerEntries (sortFn txs) (sortFn txs).length kv.1).map
              (getPoints heap1)).sum) ∧
        ∀ t ∈ txs,
          (t.Payer, ((payerEntries (sortFn txs) (sortFn txs).length t.Payer).map
            (getPoints heap1)).sum) ∈ bal) ∧
    (∀ t1 t2 t3 t4 : Int, t1 < t2 → t2 < t3 → t3 < t4 →
      (processTransactions64 sortFn
        [⟨"A", 100, t1⟩, ⟨"A", 200, t2⟩, ⟨"B", 300, t3⟩, ⟨"A", -50, t4⟩] 200).1
        = some [("A", 50), ("B", 300)]) := by
  constructor
  · intro txs spend bal hmin hsum hspend h
    have hmin1 : ∀ t ∈ sortFn txs, minInt64 ≤ t.Points :=
      fun t ht => hmin t ((hs.perm txs).mem_iff.mp ht)
    have hsum1 : (((sortFn txs).filter (fun t => decide (0 < t.Points))).map
        Transaction.Points).sum ≤ maxInt64 := by
      rw [(((hs.perm txs).filter _).map Transaction.Points).sum_eq]
      exact hsum
    rw [processTransactions64_fst sortFn hs txs spend hmin hsum hspend.2] at h
    obtain ⟨s, heap1, q1, hpass, hd, hdrain, hasc, hval, hmem⟩ :=
      oldest_first_unbounded (sortFn txs) (hs.sorted txs) spend bal h
    have inv := ledgerPass_inv _ s hpass
    obtain ⟨_, hup⟩ := ledgerInv_user _ _ s inv
    rw [inv.huser] at hup
    have hq : ∀ x ∈ positives (sortFn txs) (sortFn txs).length,
        0 ≤ getPoints s.heap x ∧ getPoints s.heap x ≤ maxInt64 := by
      intro x hx
      exact ⟨hup x hx,
        le_trans (inv.hbounds x (le_of_lt ((mem_positives _ _ _).mp hx).2)).2
          (points_le_max _ hsum1 x)⟩
    refine ⟨s, heap1, q1, ?_, ?_, hdrain, hasc, hval, ?_⟩
    · rw [ledgerLoop64_fst _ _ (le_refl _) hmin1 hsum1]
      exact hpass
    · rw [deductPoints64_eq _ _ _ _ hq hspend.2]
      exact hd
    · intro t ht
      exact hmem t ((hs.perm txs).mem_iff.mpr ht)
  · intro t1 t2 t3 t4 h12 h23 h34
    rw [processTransactions64_fst sortFn hs _ 200 (by
        intro t ht
        simp only [List.mem_cons, List.mem_singleton, List.not_mem_nil, or_false] at ht
        rcases ht with rfl | rfl | rfl | rfl <;> simp [minInt64]) (by
        simp [List.filter, maxInt64]) (by decide)]
    exact end_to_end_unbounded sortFn hs t1 t2 t3 t4 h12 h23 h34

/-- Witness of C7 amended: the end-to-end example with the timestamps 1, 2,
3, 4. -/
theorem C7_oldest_first_bounded_witness :
    (processTransactions64 stableSort
      [⟨"A", 100, 1⟩, ⟨"A", 200, 2⟩, ⟨"B", 300, 3⟩, ⟨"A", -50, 4⟩] 200).1
      = some [("A", 50), ("B", 300)] :=
  (C7_oldest_first_bounded stableSort stableSort_contract).2 1 2 3 4
    (by decide) (by decide) (by decide)

/-- C14 (zero spend gives the running balance), counterexample.  Two grants
of `2^62` points to payer A and a spend of 0: the clawback loop completes
and the value returned for A is `-2^63`, while the signed points of A's
events add up to `2^63`. -/
theorem C14_zero_spend_counterexample :
    stableSort [⟨"A", 4611686018427387904, 1⟩, ⟨"A", 4611686018427387904, 2⟩]
      = [⟨"A", 4611686018427387904, 1⟩, ⟨"A", 4611686018427387904, 2⟩] ∧
    (ledgerLoop64
      (initLedger [⟨"A", 4611686018427387904, 1⟩, ⟨"A", 4611686018427387904, 2⟩])
      (List.range 2) true).1 ≠ none ∧
    ∃ bal, (processTransactions64 stableSort
        [⟨"A", 4611686018427387904, 1⟩, ⟨"A", 4611686018427387904, 2⟩] 0).1 = some bal ∧
      ∃ kv ∈ bal, kv.2
        ≠ ((([⟨"A", 4611686018427387904, 1⟩, ⟨"A", 4611686018427387904, 2⟩] :
              List Transaction).filter (fun t => decide (t.Payer = kv.1))).map
            Transaction.Points).sum :=
  ⟨by decide, by decide, [("A", -9223372036854775808)], by decide,
    ("A", -9223372036854775808), by decide, by decide⟩

/-- C14 (zero spend gives the running balance), amended.  When the points of
the events are 64-bit integers and the points of the grants add up to at
most the greatest 64-bit integer, then for every event list whose clawbacks
all resolve and requested spend 0, `processTransactions` returns a map in
which every payer of the input has a value, and the value of each payer is
the sum of the signed points of all of that payer's events. -/
theorem C14_zero_spend_bounded (sortFn : List Transaction → List Transaction)
    (hs : SortContract sortFn) (txs : List Transaction) (s : Ledger)
    (hmin : ∀ t ∈ txs, minInt64 ≤ t.Points)
    (hsum : ((txs.filter (fun t => decide (0 < t.Points))).map Transaction.Points).sum
      ≤ maxInt64)
    (hpass : (ledgerLoop64 (initLedger (sortFn txs))
      (List.range (sortFn txs).length) true).1 = some s) :
    ∃ bal, (processTransactions64 sortFn txs 0).1 = some bal ∧
      (∀ kv ∈ bal, kv.2
        = ((txs.filter (fun t => decide (t.Payer = kv.1))).map Transaction.Points).sum) ∧
      ∀ t ∈ txs,
        (t.Payer, ((txs.filter (fun u => decide (u.Payer = t.Payer))).map
          Transaction.Points).sum) ∈ bal := by
  have hmin1 : ∀ t ∈ sortFn txs, minInt64 ≤ t.Points :=
    fun t ht => hmin t ((hs.perm txs).mem_iff.mp ht)
  have hsum1 : (((sortFn txs).filter (fun t => decide (0 < t.Points))).map
      Transaction.Points).sum ≤ maxInt64 := by
    rw [(((hs.perm txs).filter _).map Transaction.Points).sum_eq]
    exact hsum
  rw [ledgerLoop64_fst _ _ (le_refl _) hmin1 hsum1] at hpass
  obtain ⟨bal, hres, hval, hmem⟩ := zero_spend_unbounded (sortFn txs) s hpass
  have hperm : ∀ P, (((sortFn txs).filter (fun t => decide (t.Payer = P))).map
      Transaction.Points).sum
      = ((txs.filter (fun t => decide (t.Payer = P))).map Transaction.Points).sum :=
    fun P => (((hs.perm txs).filter _).map Transaction.Points).sum_eq
  refine ⟨bal, ?_, ?_, ?_⟩
  · rw [processTransactions64_fst sortFn hs txs 0 hmin hsum (by decide)]
    exact hres
  · intro kv hkv
    rw [hval kv hkv, hperm]
  · intro t ht
    rw [← hperm]
    exact hmem t ((hs.perm txs).mem_iff.mpr ht)

/-- Witness of C14 amended: the end-to-end example with spend 0 gives A 250
and B 300. -/
theorem C14_zero_spend_bounded_witness :
    ∃ bal, (processTransactions64 stableSort
        [⟨"A", 100, 1⟩, ⟨"A", 200, 2⟩, ⟨"B", 300, 3⟩, ⟨"A", -50, 4⟩] 0).1 = some bal ∧
      (∀ kv ∈ bal, kv.2
        = ((([⟨"A", 100, 1⟩, ⟨"A", 200, 2⟩, ⟨"B", 300, 3⟩, ⟨"A", -50, 4⟩] :
            List Transaction).filter
          (fun t => decide (t.Payer = kv.1))).map Transaction.Points).sum) ∧
      ∀ t ∈ ([⟨"A", 100, 1⟩, ⟨"A", 200, 2⟩, ⟨"B", 300, 3⟩, ⟨"A", -50, 4⟩] :
          List Transaction),
        (t.Payer, ((([⟨"A", 100, 1⟩, ⟨"A", 200, 2⟩, ⟨"B", 300, 3⟩, ⟨"A", -50, 4⟩] :
            List Transaction).filter
          (fun u => decide (u.Payer = t.Payer))).map Transaction.Points).sum) ∈ bal :=
  C14_zero_spend_bounded stableSort stableSort_contract
    [⟨"A", 100, 1⟩, ⟨"A", 200, 2⟩, ⟨"B", 300, 3⟩, ⟨"A", -50, 4⟩]
    { heap := [⟨"A", 50, 1⟩, ⟨"A", 200, 2⟩, ⟨"B", 300, 3⟩, ⟨"A", -50, 4⟩]
      payerBalances := [("A", [0, 1]), ("B", [2])]
      userBalance := [0, 1, 2] } (by decide) (by decide) (by decide)

/-! ## The ordering step with the library sort -/

/-- C10 (tie-break stability), counterexample.  A log of 13 grants: the
first two input records are 10 points of A and 10 points of B with the same
timestamp 2, then five grants of C at timestamp 1 and six grants of C at
timestamp 3.  `sort.Sort` moves the first record to the pivot position
behind the second one, so B's entry is consumed before A's: a spend of 15
takes the five points of C and then the 10 points of B, and A keeps its 10
points.  In input order the spend would take A's points and B would keep
10. -/
theorem C10_tie_break_counterexample :
    sortSort [⟨"A", 10, 2⟩, ⟨"B", 10, 2⟩,
        ⟨"C", 1, 1⟩, ⟨"C", 1, 1⟩, ⟨"C", 1, 1⟩, ⟨"C", 1, 1⟩, ⟨"C", 1, 1⟩,
        ⟨"C", 1, 3⟩, ⟨"C", 1, 3⟩, ⟨"C", 1, 3⟩, ⟨"C", 1, 3⟩, ⟨"C", 1, 3⟩, ⟨"C", 1, 3⟩]
      = some [⟨"C", 1, 1⟩, ⟨"C", 1, 1⟩, ⟨"C", 1, 1⟩, ⟨"C", 1, 1⟩, ⟨"C", 1, 1⟩,
        ⟨"B", 10, 2⟩, ⟨"A", 10, 2⟩,
        ⟨"C", 1, 3⟩, ⟨"C", 1, 3⟩, ⟨"C", 1, 3⟩, ⟨"C", 1, 3⟩, ⟨"C", 1, 3⟩, ⟨"C", 1, 3⟩] ∧
    processTransactionsLib [⟨"A", 10, 2⟩, ⟨"B", 10, 2⟩,
        ⟨"C", 1, 1⟩, ⟨"C", 1, 1⟩, ⟨"C", 1, 1⟩, ⟨"C", 1, 1⟩, ⟨"C", 1, 1⟩,
        ⟨"C", 1, 3⟩, ⟨"C", 1, 3⟩, ⟨"C", 1, 3⟩, ⟨"C", 1, 3⟩, ⟨"C", 1, 3⟩, ⟨"C", 1, 3⟩] 15
      = some (some [("C", 6), ("B", 0), ("A", 10)], true) ∧
    processTransactions64 stableSort [⟨"A", 10, 2⟩, ⟨"B", 10, 2⟩,
        ⟨"C", 1, 1⟩, ⟨"C", 1, 1⟩, ⟨"C", 1, 1⟩, ⟨"C", 1, 1⟩, ⟨"C", 1, 1⟩,
        ⟨"C", 1, 3⟩, ⟨"C", 1, 3⟩, ⟨"C", 1, 3⟩, ⟨"C", 1, 3⟩, ⟨"C", 1, 3⟩, ⟨"C", 1, 3⟩] 15
      = (some [("C", 6), ("A", 0), ("B", 10)], true) := by
  refine ⟨by decide, by decide, by decide⟩

end FetchAndGo
